import Mathlib

/-!
# Verification of the juportal_crawler citation pipeline

A shallow embedding of the crawler's citation-extraction and crawl-pipeline
logic, translated from the JavaScript sources (`src/utils.js`, `src/constants.js`,
`src/judgement.js`, `src/sitemap.js`, `src/data.js`, `src/storage.js`,
`src/processor.js`, `index.js`), together with proofs about the embedded
definitions.

Strings are modelled as `List Char`; JavaScript regular expressions are
modelled either by terms of a small backtracking regex interpreter (`RX`)
that mirrors the regex source syntax node by node, or — for the simple
anchored patterns where general theorems are proved — by dedicated scanning
functions, each annotated with the regex it implements.  Case-insensitive
(`/i`) matching is implemented by ASCII lowercasing (the only cased
characters occurring in the patterns and the corpus are ASCII, apart from
accented literals that appear in lowercase on both sides).
-/

namespace Juportal

/-! ## Character classes (JavaScript semantics)

JS `\d` is `[0-9]`, `\w` is `[A-Za-z0-9_]`, `\s` is Unicode whitespace (the
corpus only ever contains the ASCII ones after `normalizeWhitespace`), and
`.` matches everything except line terminators. -/

def lowerC (c : Char) : Char := c.toLower

def isDigitC (c : Char) : Bool := 48 ≤ c.toNat && c.toNat ≤ 57

def isSpaceC (c : Char) : Bool :=
  c = ' ' ∨ c = '\t' ∨ c = '\n' ∨ c = '\r' ∨ c = Char.ofNat 11 ∨ c = Char.ofNat 12

def isAsciiLetterC (c : Char) : Bool :=
  (65 ≤ c.toNat && c.toNat ≤ 90) || (97 ≤ c.toNat && c.toNat ≤ 122)

def isWordC (c : Char) : Bool := isAsciiLetterC c || isDigitC c || c = '_'

def isDotC (c : Char) : Bool := c ≠ '\n' && c ≠ '\r'

/-- `String.prototype.trim()`: strip leading and trailing whitespace. -/
def jsTrim (l : List Char) : List Char :=
  ((l.dropWhile isSpaceC).reverse.dropWhile isSpaceC).reverse

/-- `normalizeWhitespace` from `utils.js`:
`text.replace(/\s+/g, ' ').trim()` — collapse every whitespace run to a
single space, then trim. -/
def normalizeWhitespace : List Char → List Char :=
  fun l => jsTrim (collapse false l)
where
  /-- `inRun` records that the current whitespace run already emitted its
  single replacement space. -/
  collapse : Bool → List Char → List Char
    | _, [] => []
    | inRun, c :: rest =>
      if isSpaceC c then
        if inRun then collapse true rest else ' ' :: collapse true rest
      else c :: collapse false rest

/-! ## A small backtracking regex interpreter

`RX` terms mirror the JavaScript regex abstract syntax; `mat` is an ordinary
ordered-choice backtracking matcher (the semantics of JS regexes): ordered
alternation, greedy/lazy quantifiers, the first overall success wins, and
matches are searched left to right from each start position.  Only capture
group 1 is tracked, which is all the embedded patterns use.  `fuel` bounds
the recursion depth (each nested matcher call decrements it); all concrete
evaluations use a fuel far above the depth any of the embedded patterns can
reach on their inputs. -/

inductive RX where
  | eps
  | pred (f : Char → Bool)
  | seq (a b : RX)
  | alt (a b : RX)
  | opt (greedy : Bool) (a : RX)
  | star (greedy : Bool) (a : RX)
  | grp (a : RX)
  | look (positive : Bool) (a : RX)
  | eos
  | wordB

namespace RX

/-- Case-sensitive literal. -/
def lit (c : Char) : RX := .pred (fun x => x = c)

/-- Case-insensitive literal (for `/i` patterns). -/
def litCI (c : Char) : RX := .pred (fun x => lowerC x = lowerC c)

def rseq : List RX → RX
  | [] => .eps
  | [r] => r
  | r :: rs => .seq r (rseq rs)

/-- Literal word, case-insensitively. -/
def wordCI (s : String) : RX := rseq (s.toList.map litCI)

/-- Literal word, case-sensitively. -/
def word (s : String) : RX := rseq (s.toList.map lit)

/-- `x+` -/
def plus (greedy : Bool) (a : RX) : RX := .seq a (.star greedy a)

/-- `x{n}` -/
def repN : Nat → RX → RX
  | 0, _ => .eps
  | n + 1, a => .seq a (repN n a)

/-- `x{n,}` (greedy) -/
def repGe (n : Nat) (a : RX) : RX := .seq (repN n a) (.star true a)

def digitC : RX := .pred isDigitC
def spaceC : RX := .pred isSpaceC
def anyDot : RX := .pred isDotC

end RX

/-- The backtracking matcher.  `s` is the remaining input, `prev` the
character just before it (for `\b`), `cap` the group-1 capture recorded so
far, and `k` the success continuation.  Backtracking is by ordered choice:
`a <|> b` on `Option`. -/
def matGo : Nat → RX → List Char → Option Char → Option (List Char) →
    (List Char → Option Char → Option (List Char) → Option (Option (List Char))) →
    Option (Option (List Char))
  | 0, _, _, _, _, _ => none
  | _ + 1, .eps, s, prev, cap, k => k s prev cap
  | _ + 1, .pred f, s, prev, cap, k =>
    match s with
    | [] => none
    | c :: rest => if f c then k rest (some c) cap else none
  | fuel + 1, .seq a b, s, prev, cap, k =>
    matGo fuel a s prev cap (fun s' prev' cap' => matGo fuel b s' prev' cap' k)
  | fuel + 1, .alt a b, s, prev, cap, k =>
    matGo fuel a s prev cap k <|> matGo fuel b s prev cap k
  | fuel + 1, .opt greedy a, s, prev, cap, k =>
    if greedy then matGo fuel a s prev cap k <|> k s prev cap
    else k s prev cap <|> matGo fuel a s prev cap k
  | fuel + 1, .star greedy a, s, prev, cap, k =>
    -- a `*` loop stops as soon as an iteration consumes nothing
    if greedy then
      matGo fuel a s prev cap (fun s' prev' cap' =>
        if s'.length < s.length then matGo fuel (.star greedy a) s' prev' cap' k
        else k s' prev' cap') <|> k s prev cap
    else
      k s prev cap <|> matGo fuel a s prev cap (fun s' prev' cap' =>
        if s'.length < s.length then matGo fuel (.star greedy a) s' prev' cap' k
        else k s' prev' cap')
  | fuel + 1, .grp a, s, prev, cap, k =>
    matGo fuel a s prev cap (fun s' prev' _ =>
      k s' prev' (some (s.take (s.length - s'.length))))
  | fuel + 1, .look positive a, s, prev, cap, k =>
    match matGo fuel a s prev cap (fun _ _ _ => some none) with
    | some _ => if positive then k s prev cap else none
    | none => if positive then none else k s prev cap
  | _ + 1, .eos, s, prev, cap, k =>
    match s with
    | [] => k s prev cap
    | _ => none
  | _ + 1, .wordB, s, prev, cap, k =>
    let left := match prev with | some c => isWordC c | none => false
    let right := match s with | c :: _ => isWordC c | [] => false
    if left ≠ right then k s prev cap else none

/-- Default fuel: far above the depth any embedded pattern can reach on a
normalized citation line. -/
def matFuel : Nat := 4000

/-- Leftmost search, like an unanchored `str.match(re)`: try each start
position from the left; on success return the group-1 capture (`some none`
when the pattern has no group). -/
def reSearchFrom : List Char → Option Char → RX → Option (Option (List Char))
  | s, prev, r =>
    match matGo matFuel r s prev none (fun _ _ cap => some cap) with
    | some cap => some cap
    | none =>
      match s with
      | [] => none
      | c :: rest => reSearchFrom rest (some c) r

def reSearch (r : RX) (s : List Char) : Option (Option (List Char)) :=
  reSearchFrom s none r

/-- `re.test(str)` for an unanchored pattern. -/
def reTest (r : RX) (s : List Char) : Bool := (reSearch r s).isSome

/-- `str.match(re)` keeping group 1 (`none` if no match). -/
def reGrp1 (r : RX) (s : List Char) : Option (List Char) :=
  match reSearch r s with
  | some cap => some (cap.getD [])
  | none => none

/-- Anchored (`/^.../`) test: match only at the start of the string. -/
def reTestAnchored (r : RX) (s : List Char) : Bool :=
  (matGo matFuel r s none none (fun _ _ cap => some cap)).isSome

/-- Anchored (`/^.../`) match keeping group 1. -/
def reGrp1Anchored (r : RX) (s : List Char) : Option (List Char) :=
  match matGo matFuel r s none none (fun _ _ cap => some cap) with
  | some cap => some (cap.getD [])
  | none => none

/-! ## The shared citation regexes (`constants.js`)

Each definition below is the `RX` encoding of one regex constant, node by
node in source order. -/

namespace RX

/-- `\d{2}-\d{2}-\d{4}` -/
def dateRX : RX := rseq [repN 2 digitC, lit '-', repN 2 digitC, lit '-', repN 4 digitC]

/-- `\s*-\s*` -/
def spDashSp : RX := rseq [.star true spaceC, lit '-', .star true spaceC]

/-- `(?:.*?\s+)?` — the optional qualifier prefix before the `Art.` keyword. -/
def lazyQualOpt : RX := .opt true (.seq (.star false anyDot) (plus true spaceC))

/-- `(?:[ld]')?` — French elision (`l'art.`, `d'art.`). -/
def elisionOpt : RX :=
  .opt true (.seq (.pred (fun c => lowerC c = 'l' || lowerC c = 'd')) (lit (Char.ofNat 39)))

/-- `A(?:r?t+|r)\.` — the `Art.` keyword with its abbreviation variants. -/
def artKeyword : RX :=
  rseq [litCI 'a',
        .alt (.seq (.opt true (litCI 'r')) (plus true (litCI 't'))) (litCI 'r'),
        lit '.']

/-- `(.+?)` -/
def lazyCapture : RX := .grp (plus false anyDot)

end RX

open RX in
/-- `RE_ART_REF_WITH_COUNTER` (`constants.js`):
`/\d{2}-\d{2}-\d{4}\s*-\s*(?:.*?\s+)?(?:[ld]')?A(?:r?t+|r)\.\s*(.+?)\s*-\s*\d{2,}\b.*$/i` -/
def RE_ART_REF_WITH_COUNTER : RX :=
  rseq [dateRX, spDashSp, lazyQualOpt, elisionOpt, artKeyword,
        .star true spaceC, lazyCapture,
        spDashSp, repGe 2 digitC, .wordB, .star true anyDot, .eos]

open RX in
/-- `RE_ART_REF_NO_COUNTER` (`constants.js`):
`/\d{2}-\d{2}-\d{4}\s*-\s*(?:.*?\s+)?(?:[ld]')?A(?:r?t+|r)\.\s*(.+?)\s*$/i` -/
def RE_ART_REF_NO_COUNTER : RX :=
  rseq [dateRX, spDashSp, lazyQualOpt, elisionOpt, artKeyword,
        .star true spaceC, lazyCapture, .star true spaceC, .eos]

open RX in
/-- `RE_ART_REF_NO_DATE` (`constants.js`):
`/\s*-\s*(?:.*?\s+)?(?:[ld]')?A(?:r?t+|r)\.\s*(.+?)\s*$/i` -/
def RE_ART_REF_NO_DATE : RX :=
  rseq [spDashSp, lazyQualOpt, elisionOpt, artKeyword,
        .star true spaceC, lazyCapture, .star true spaceC, .eos]

open RX in
/-- `RE_REF_NO_ART` (`constants.js`):
`/\d{2}-\d{2}-\d{4}\s*(?:-\s*\d+\b.*)?$/i` -/
def RE_REF_NO_ART : RX :=
  rseq [dateRX, .star true spaceC,
        .opt true (rseq [lit '-', .star true spaceC, plus true digitC, .wordB,
                         .star true anyDot]),
        .eos]

open RX in
/-- `RE_LEGAL_PRINCIPLE` (`constants.js`):
`/^(Principe général du droit|(?:\w+\s+)?\w*beginsel)\b/i` (anchored). -/
def RE_LEGAL_PRINCIPLE : RX :=
  .seq (.grp (.alt (wordCI "Principe général du droit")
                   (rseq [.opt true (.seq (plus true (.pred isWordC)) (plus true spaceC)),
                          .star true (.pred isWordC), wordCI "beginsel"])))
       .wordB

open RX in
/-- The treaty/convention detector regex of `isInternationalInstrument`
(`utils.js`):
`/\b(?:Convention(?!\s+(?:collectiv|de\s+travail))|Protocole|Protocol(?:\s+(?:bij|nr|to)\b)?|Directive\s+\d{4}[\/\\]|Richtlijn\s+\d{4}[\/\\]|Règlement\s+\((?:CE|UE|CEE|Euratom)\)|Verordening\s+\((?:EG|EU|EEG)\)|Traité\b|Verdrag\b|Charte\s+(?:sociale|des\s+droits|of\s+Fundamental)|Accord\s+(?:international|européen|européenne|de\s+coopération|du\s+Conseil\s+de\s+l'Europe|relatif\s+au\s+transport))/i` -/
def RE_INTERNATIONAL : RX :=
  .seq .wordB
    (altList
      [ .seq (wordCI "Convention")
          (.look false (.seq (plus true spaceC)
            (.alt (wordCI "collectiv")
                  (rseq [wordCI "de", plus true spaceC, wordCI "travail"]))))
      , wordCI "Protocole"
      , .seq (wordCI "Protocol")
          (.opt true (rseq [plus true spaceC,
            altList [wordCI "bij", wordCI "nr", wordCI "to"], .wordB]))
      , rseq [wordCI "Directive", plus true spaceC, repN 4 digitC, slashC]
      , rseq [wordCI "Richtlijn", plus true spaceC, repN 4 digitC, slashC]
      , rseq [wordCI "Règlement", plus true spaceC, lit '(',
              altList [wordCI "CE", wordCI "UE", wordCI "CEE", wordCI "Euratom"], lit ')']
      , rseq [wordCI "Verordening", plus true spaceC, lit '(',
              altList [wordCI "EG", wordCI "EU", wordCI "EEG"], lit ')']
      , .seq (wordCI "Traité") .wordB
      , .seq (wordCI "Verdrag") .wordB
      , rseq [wordCI "Charte", plus true spaceC,
              altList [wordCI "sociale",
                       rseq [wordCI "des", plus true spaceC, wordCI "droits"],
                       rseq [wordCI "of", plus true spaceC, wordCI "Fundamental"]]]
      , rseq [wordCI "Accord", plus true spaceC,
              altList [wordCI "international", wordCI "européen", wordCI "européenne",
                       rseq [wordCI "de", plus true spaceC, wordCI "coopération"],
                       rseq [wordCI "du", plus true spaceC, wordCI "Conseil", plus true spaceC,
                             wordCI "de", plus true spaceC, wordCI "l\x27Europe"],
                       rseq [wordCI "relatif", plus true spaceC, wordCI "au", plus true spaceC,
                             wordCI "transport"]]]
      ])
where
  altList : List RX → RX
    | [] => .eps
    | [r] => r
    | r :: rs => .alt r (altList rs)
  /-- `[\/\\]` -/
  slashC : RX := .pred (fun c => c = '/' || c = '\\')

/-- `isInternationalInstrument` (`utils.js`): `if (!text) return false;` then
test the detector regex. -/
def isInternationalInstrument (text : List Char) : Bool :=
  if text = [] then false else reTest RE_INTERNATIONAL text

open RX in
/-- The key extractor regex of `extractLegalBasisKey` (`utils.js`):
`/^(.*?-\s*\d{2}-\d{2}-\d{4})/` (anchored). -/
def RE_LEGAL_BASIS_KEY : RX :=
  .grp (rseq [.star false anyDot, lit '-', .star true spaceC, dateRX])

/-- `extractLegalBasisKey` (`utils.js`): `match ? match[1].trim() : text`. -/
def extractLegalBasisKey (text : List Char) : List Char :=
  match reGrp1Anchored RE_LEGAL_BASIS_KEY text with
  | some g => jsTrim g
  | none => text

open RX in
/-- The date regex of `extractDateFromBasisText` (`utils.js`):
`/(\d{2}-\d{2}-\d{4})/`. -/
def RE_BASIS_DATE : RX := .grp dateRX

/-- `extractDateFromBasisText` (`utils.js`): first `DD-MM-YYYY` in the text,
or `null`. -/
def extractDateFromBasisText (text : List Char) : Option (List Char) :=
  reGrp1 RE_BASIS_DATE text

/-! ## `normalizeArticleNumber` (`utils.js`)

The five anchored patterns of `normalizeArticleNumber` are implemented as
dedicated scanning functions (so that general theorems about them can be
proved by induction).  Each function is annotated with the regex it
implements; backtracking is resolved statically: every quantifier in these
patterns is followed by a character its body cannot match, so the greedy
(maximal) parse is the only candidate, except for the optional
separator/ordinal-suffix parts, where the candidates are tried in the
regex's greedy order. -/

/-- Case-insensitive literal-prefix test. -/
def startsWithCI : List Char → List Char → Bool
  | [], _ => true
  | _ :: _, [] => false
  | p :: ps, c :: cs => lowerC c = lowerC p && startsWithCI ps cs

/-- `\b` immediately after a word character, i.e. the next character is not a
word character (or the string ends). -/
def boundaryAfterWord : List Char → Bool
  | [] => true
  | c :: _ => !isWordC c

/-- The Latin ordinal suffixes `(?:bis|ter|quater|quinquies|sexies|septies|octies|nonies|decies)`
in source order (they are mutually non-prefixing, so at most one matches). -/
def latinSuffixes : List (List Char) :=
  ["bis", "ter", "quater", "quinquies", "sexies", "septies", "octies", "nonies",
   "decies"].map String.toList

/-- Consume one Latin ordinal suffix case-insensitively, returning
`(consumed, rest)`. -/
def takeLatinSuffix (l : List Char) : Option (List Char × List Char) :=
  match latinSuffixes.find? (fun suf => startsWithCI suf l) with
  | some suf => some (l.take suf.length, l.drop suf.length)
  | none => none

/-- `/^(?:§|al\.|alin[ée]a|lid)\s/i` — sub-paragraph qualifier test. -/
def isQualifierStart (l : List Char) : Bool :=
  qualAlts.any (fun q =>
    startsWithCI q l &&
      match l.drop q.length with
      | c :: _ => isSpaceC c
      | [] => false)
where
  qualAlts : List (List Char) :=
    [['§'], ['a', 'l', '.'],
     ['a', 'l', 'i', 'n', 'é', 'a'],
     ['a', 'l', 'i', 'n', 'e', 'a'],
     ['l', 'i', 'd']]

/-- `.replace(/,.*$/, '')` — cut the input at the first comma that has no
line terminator after it (`.` does not cross line terminators and `$` is
end-of-input).  After `normalizeWhitespace` no line terminator occurs, so
this is simply "cut at the first comma". -/
def cutAtComma : List Char → List Char
  | [] => []
  | c :: rest =>
    if c = ',' && !(rest.any (fun x => x = '\n' || x = '\r')) then []
    else c :: cutAtComma rest

/-- `.replace(/^([0-9]+)(?:ère?|ième|ème|ste|de|nd|er)\b/i, '$1')` — strip a
French/Dutch ordinal suffix directly after leading digits.  `[0-9]+` is
greedy and every suffix starts with a non-digit, so the digit run is
maximal; the suffix alternatives are tried in the regex's order (`ère?`
greedily tries `ère` before `èr`). -/
def stripOrdinalSuffix (l : List Char) : List Char :=
  let ds := l.takeWhile isDigitC
  if ds = [] then l
  else
    let rest := l.drop ds.length
    match ordAlts.find? (fun suf =>
        startsWithCI suf rest && boundaryAfterWord (rest.drop suf.length)) with
    | some suf => ds ++ rest.drop suf.length
    | none => l
where
  ordAlts : List (List Char) :=
    [['è', 'r', 'e'], ['è', 'r'],
     ['i', 'è', 'm', 'e'], ['è', 'm', 'e'],
     ['s', 't', 'e'], ['d', 'e'],
     ['n', 'd'], ['e', 'r']]

/-- `/^[0-9]+°\s*$/` — bare Belgian sub-item marker (`1°`, `12°`). -/
def isDegreeMarker (l : List Char) : Bool :=
  let ds := l.takeWhile isDigitC
  ds ≠ [] &&
    match l.drop ds.length with
    | c :: rest => c = '°' && rest.all isSpaceC
    | [] => false

/-- Greedily parse `(?:[sep][0-9]+)*` segments, returning the `(sep, digits)`
pairs in source order plus the rest.  (Recursion is on a length fuel so the
definition stays structurally recursive; the fuel `l.length` always
suffices since every step consumes at least one character.) -/
def takeSepDigitSegs (sepOk : Char → Bool) (l : List Char) :
    List (Char × List Char) × List Char :=
  go l.length l
where
  go : Nat → List Char → List (Char × List Char) × List Char
    | 0, l => ([], l)
    | _ + 1, [] => ([], [])
    | fuel + 1, c :: rest =>
      if sepOk c then
        let ds := rest.takeWhile isDigitC
        if ds = [] then ([], c :: rest)
        else
          let (segs, rest') := go fuel (rest.drop ds.length)
          ((c, ds) :: segs, rest')
      else ([], c :: rest)

/-- Try, in greedy-optional order, `(?:suffix)?\b` at `l`: first with a Latin
suffix, then without.  Returns the consumed suffix when the boundary check
succeeds. -/
def suffixThenBoundary (l : List Char) : Option (List Char × List Char) :=
  match takeLatinSuffix l with
  | some (suf, rest) => if boundaryAfterWord rest then some (suf, rest) else
      if boundaryAfterWord l then some ([], l) else none
  | none => if boundaryAfterWord l then some ([], l) else none

/-- Backtrack over the greedy `(?:[sep][0-9]+)*(?:suffix)?\b` tail: try the
maximal number of parsed segments first, then fewer, as the regex engine
would. -/
def segsSuffixBoundary : List (Char × List Char) → List Char →
    Option (List (Char × List Char) × List Char)
  | [], rest =>
    match suffixThenBoundary rest with
    | some (suf, _) => some ([], suf)
    | none => none
  | (c, ds) :: segs, rest =>
    match suffixThenBoundary rest with
    | some (suf, _) => some (((c, ds) :: segs).reverse, suf)
    | none => segsSuffixBoundary segs (c :: ds ++ rest)

/-- `/^([A-Z]+\s*[0-9]+(?:[/.-][0-9]+)*(?:bis|…|decies)?)\b/i` — Pattern A,
letter-prefixed code articles.  Returns group 1. -/
def letterPrefixPat (l : List Char) : Option (List Char) :=
  let letters := l.takeWhile isAsciiLetterC
  if letters = [] then none
  else
    let afterLetters := l.drop letters.length
    let sps := afterLetters.takeWhile isSpaceC
    let afterSps := afterLetters.drop sps.length
    let ds := afterSps.takeWhile isDigitC
    if ds = [] then none
    else
      let tail0 := afterSps.drop ds.length
      let (segs, rest) := takeSepDigitSegs (fun c => c = '/' || c = '.' || c = '-') tail0
      match segsSuffixBoundary segs.reverse rest with
      | some (keptSegs, suf) =>
        some (letters ++ sps ++ ds ++ (keptSegs.map (fun p => p.1 :: p.2)).flatten ++ suf)
      | none => none

/-- `.replace(/\s+/g, '')` — delete all whitespace. -/
def stripAllSpace (l : List Char) : List Char := l.filter (fun c => !isSpaceC c)

def isRomanC (c : Char) : Bool :=
  let d := lowerC c
  d = 'i' || d = 'v' || d = 'x' || d = 'l' || d = 'c' || d = 'd' || d = 'm'

/-- `/^([IVXLCDM]+\.[0-9]+(?:bis|…|decies)?)\b/i` — Pattern B, Roman-chapter
dot article number.  Returns group 1. -/
def romanDotPat (l : List Char) : Option (List Char) :=
  let roms := l.takeWhile isRomanC
  if roms = [] then none
  else
    match l.drop roms.length with
    | '.' :: rest =>
      let ds := rest.takeWhile isDigitC
      if ds = [] then none
      else
        match suffixThenBoundary (rest.drop ds.length) with
        | some (suf, _) => some (roms ++ '.' :: ds ++ suf)
        | none => none
    | _ => none

/-- `/^(\d+(?:\.\d+)+)(?:[^0-9.]|$)/` — Pattern E, dotted numeric articles.
Both quantified parts are maximal (any shorter parse leaves a digit or a dot
as the next character, which `[^0-9.]` rejects), so the match succeeds
exactly when the maximal parse is followed by a non-digit-non-dot character
or the end.  Returns the list of dot-separated segments. -/
def dottedPat (l : List Char) : Option (List (List Char)) :=
  let d0 := l.takeWhile isDigitC
  if d0 = [] then none
  else
    let (segs, rest) := takeSepDigitSegs (fun c => c = '.') (l.drop d0.length)
    if segs = [] then none
    else
      match rest with
      | [] => some (d0 :: segs.map Prod.snd)
      | c :: _ => if !isDigitC c && c ≠ '.' then some (d0 :: segs.map Prod.snd) else none

/-- `/^([0-9]+(?:[-:/][0-9]+)?(?:bis|…|decies)?)\b/i` — Pattern C/D, standard
numeric, colon-, slash- or hyphen-separated article numbers.  Returns
group 1.  The optional separator part is tried greedily before falling back
to the bare number. -/
def standardNumPat (l : List Char) : Option (List Char) :=
  let ds := l.takeWhile isDigitC
  if ds = [] then none
  else
    let rest := l.drop ds.length
    let withSep : Option (List Char) :=
      match rest with
      | c :: rest' =>
        if c = '-' || c = ':' || c = '/' then
          let ds2 := rest'.takeWhile isDigitC
          if ds2 = [] then none
          else
            match suffixThenBoundary (rest'.drop ds2.length) with
            | some (suf, _) => some (ds ++ c :: ds2 ++ suf)
            | none => none
        else none
      | [] => none
    match withSep with
    | some g => some g
    | none =>
      match suffixThenBoundary rest with
      | some (suf, _) => some (ds ++ suf)
      | none => none

/-- `normalizeArticleNumber` (`utils.js`, current version with the
`isInternational` flag). -/
def normalizeArticleNumber (art : List Char) (isInternational : Bool := false) :
    List Char :=
  -- Reject sub-paragraph qualifiers: `/^(?:§|al\.|alin[ée]a|lid)\s/i`
  let trimmed := jsTrim art
  if isQualifierStart trimmed then []
  else
    let text := jsTrim (stripOrdinalSuffix (cutAtComma art))
    if text = [] then []
    else if isDegreeMarker text then []
    else
      match letterPrefixPat text with
      | some g => stripAllSpace g
      | none =>
        match romanDotPat text with
        | some g => g
        | none =>
          match dottedPat text with
          | some segments =>
            if segments.length ≥ 3 || !isInternational then
              List.intercalate ['.'] segments
            else segments.headI
          | none =>
            match standardNumPat text with
            | some g => g
            | none => []

/-! ## `parseArticleNumbers` (`utils.js`) -/

/-- The split regex of `parseArticleNumbers`:
`/(?:,\s*(?=[0-9]{2,})|\s+(?:et|en)\s+(?=[0-9]{2,}))/i`.
The scanner walks left to right; at a comma it consumes `,\s*` and splits if
the two-digit lookahead holds, at whitespace it consumes `\s+(?:et|en)\s+`
and splits if the lookahead holds (each `\s+` is maximal: shortening it
leaves a whitespace character where `e`/a digit is required). -/
def twoDigitLookahead : List Char → Bool
  | d1 :: d2 :: _ => isDigitC d1 && isDigitC d2
  | _ => false

/-- At a whitespace character, try to consume `\s+(?:et|en)\s+(?=[0-9]{2,})`
and return the continuation position. -/
def connectorSplit (c : Char) (rest : List Char) : Option (List Char) :=
  let afterSp := (c :: rest).dropWhile isSpaceC
  if startsWithCI "et".toList afterSp || startsWithCI "en".toList afterSp then
    let afterConn := afterSp.drop 2
    let afterSp2 := afterConn.dropWhile isSpaceC
    if afterSp2.length < afterConn.length && twoDigitLookahead afterSp2 then
      some afterSp2
    else none
  else none

def splitArticles (l : List Char) : List (List Char) :=
  go l.length [] l
where
  go : Nat → List Char → List Char → List (List Char)
    | 0, acc, l => [acc.reverse ++ l]
    | _ + 1, acc, [] => [acc.reverse]
    | fuel + 1, acc, c :: rest =>
      if c = ',' then
        let after := rest.dropWhile isSpaceC
        if twoDigitLookahead after then acc.reverse :: go fuel [] after
        else go fuel (c :: acc) rest
      else if isSpaceC c then
        match connectorSplit c rest with
        | some next => acc.reverse :: go fuel [] next
        | none => go fuel (c :: acc) rest
      else go fuel (c :: acc) rest

/-- `String(parseInt(art, 10)) === art` — the "purely numeric article" test
of `parseArticleNumbers`' ascending-order filter: the string is the
canonical decimal representation of its numeric value.  (Digit strings are
modelled up to 15 digits, within which IEEE-754 `parseInt`/`String`
round-trip exactly like exact integers.) -/
def isCanonicalNat (l : List Char) : Bool :=
  l ≠ [] && l.all isDigitC && (l = ['0'] || l.headI ≠ '0') && l.length ≤ 15

def natOfDigits (l : List Char) : Nat :=
  l.foldl (fun n c => n * 10 + (c.toNat - '0'.toNat)) 0

/-- The ascending-order filter at the end of `parseArticleNumbers`: drop a
purely numeric article smaller than the largest purely numeric article
accepted so far. -/
def ascendingFilter : Nat → List (List Char) → List (List Char)
  | _, [] => []
  | lastNumeric, art :: rest =>
    if isCanonicalNat art then
      let n := natOfDigits art
      if n < lastNumeric then ascendingFilter lastNumeric rest
      else art :: ascendingFilter n rest
    else art :: ascendingFilter lastNumeric rest

/-- Keep the first occurrence of each value (`[...new Set(chunks)]`). -/
def dedupKeepFirst : List (List Char) → List (List Char)
  | [] => []
  | x :: rest => x :: (dedupKeepFirst rest).filter (· ≠ x)

/-- `parseArticleNumbers(raw, rawLegalBasisText)` (`utils.js`, current
version). -/
def parseArticleNumbers (raw : List Char) (rawLegalBasisText : List Char := []) :
    List (List Char) :=
  let text := normalizeWhitespace raw
  if text = [] then []
  else
    let intl := isInternationalInstrument rawLegalBasisText
    let chunks := (splitArticles text).map (fun c => normalizeArticleNumber c intl)
      |>.filter (· ≠ [])
    let unique := dedupKeepFirst chunks
    ascendingFilter 0 unique

/-! ## The article-reference pattern cascade (`judgement.js` / `sitemap.js`)

```js
const artGroupMatch =
  text.match(RE_ART_REF_WITH_COUNTER) ||
  text.match(RE_ART_REF_NO_COUNTER) ||
  text.match(RE_ART_REF_NO_DATE);
if (artGroupMatch) {
  const articles = parseArticleNumbers(artGroupMatch[1].trim(), text);
```
-/

/-- The article-substring extraction: first match of the three article
patterns, in priority order. -/
def matchArtCascade (text : List Char) : Option (List Char) :=
  match reGrp1 RE_ART_REF_WITH_COUNTER text with
  | some g => some g
  | none =>
    match reGrp1 RE_ART_REF_NO_COUNTER text with
    | some g => some g
    | none => reGrp1 RE_ART_REF_NO_DATE text

/-- End-to-end article extraction for one citation line: extract the
articles substring via the cascade and normalize it
(`parseArticleNumbers(artGroupMatch[1].trim(), text)`). -/
def extractLineArticles (text : List Char) : Option (List (List Char)) :=
  (matchArtCascade text).map (fun g => parseArticleNumbers (jsTrim g) text)

/-- String-level wrapper of `extractLineArticles`. -/
def extractLineArticlesS (s : String) : Option (List String) :=
  (extractLineArticles s.toList).map (fun arts => arts.map (fun l => String.mk l))

/-! ## `normalizeEliToFrench` (`utils.js`) and `ELI_TYPE_NL_TO_FR` (`constants.js`)

```js
return eli.replace(/\/eli\/([^/]+)\//, (match, type) => {
  const frType = ELI_TYPE_NL_TO_FR[type] || type;
  return `/eli/${frType}/`;
});
```
The replacement rewrites the leftmost `/eli/<segment>/` occurrence,
translating the segment through the Dutch→French document-type table, and
leaves everything else untouched. -/

/-- The `ELI_TYPE_NL_TO_FR` table from `constants.js`. -/
def ELI_TYPE_NL_TO_FR : List (List Char × List Char) :=
  [("wet", "loi"), ("grondwet", "constitution"), ("decreet", "decret"),
   ("ordonnantie", "ordonnance"), ("bijzondere-wet", "loi-speciale"),
   ("wetboek", "code"), ("besluit", "arrete")].map
    (fun p => (p.1.toList, p.2.toList))

/-- `ELI_TYPE_NL_TO_FR[type] || type` (own-property lookup). -/
def trEliType (seg : List Char) : List Char :=
  match ELI_TYPE_NL_TO_FR.lookup seg with
  | some fr => fr
  | none => seg

/-- Split `<segment>/<after>` as required by `([^/]+)\/`: a nonempty
slash-free segment followed by a slash （`[^/]+` is greedy, so the segment
extends to the next slash）. -/
def splitEliSeg (r : List Char) : Option (List Char × List Char) :=
  let p := r.span (· ≠ '/')
  if p.1 = [] then none
  else
    match p.2 with
    | '/' :: after => some (p.1, after)
    | _ => none

/-- `normalizeEliToFrench` (`utils.js`): rewrite the leftmost
`/eli/<segment>/` through `trEliType`; everything before and after the
match — and the whole string when there is no match — is returned
verbatim.  (A position matches when the next five characters are `/eli/`
and a `<segment>/` follows.) -/
def eliMarker : List Char := ['/', 'e', 'l', 'i', '/']

def normalizeEliToFrench : List Char → List Char
  | [] => []
  | c :: rest =>
    match (if (c :: rest).take 5 = eliMarker then splitEliSeg (rest.drop 4)
           else none) with
    | some (seg, after) => eliMarker ++ trEliType seg ++ '/' :: after
    | none => c :: normalizeEliToFrench rest

/-! ## A WHATWG-`URL`-style model (`new URL(url)` / `searchParams` / `toString`)

`normalizeCgiUrl` and `eliToFilename` go through the platform `URL` class.
The model covers the `scheme://host/path?k=v&…` shapes the crawler handles:
parsing splits at the first `://`, the host extends to the first `/` or `?`,
the path to the first `?`, and the query splits on `&` with each pair split
at its first `=` (percent-encoding, which never arises for these URLs, is
not modelled).  `toString` re-concatenates the parts. -/

/-- Literal (case-sensitive) prefix test. -/
def startsWithL : List Char → List Char → Bool
  | [], _ => true
  | _ :: _, [] => false
  | p :: ps, c :: cs => c = p && startsWithL ps cs

/-- Split at the first occurrence of `needle` (`String.prototype.indexOf`):
`some (before, after)` with the needle removed, `none` when absent. -/
def splitFirstSub (needle : List Char) : List Char → Option (List Char × List Char)
  | [] => if needle = [] then some ([], []) else none
  | c :: rest =>
    if startsWithL needle (c :: rest) then some ([], (c :: rest).drop needle.length)
    else
      match splitFirstSub needle rest with
      | some (pre, post) => some (c :: pre, post)
      | none => none

/-- `String.prototype.includes`. -/
def includesSub (needle hay : List Char) : Bool := (splitFirstSub needle hay).isSome

/-- `String.prototype.replace` with a plain-string pattern: replace only the
first occurrence. -/
def replaceFirstSub (needle repl hay : List Char) : List Char :=
  match splitFirstSub needle hay with
  | some (pre, post) => pre ++ repl ++ post
  | none => hay

/-- The parsed-`URL` record. -/
structure JsUrl where
  scheme : List Char
  host : List Char
  pathname : List Char
  params : List (List Char × List Char)
deriving DecidableEq, Repr

/-- Split a query string on `&` (`URLSearchParams` parsing). -/
def splitAmp : List Char → List (List Char)
  | [] => [[]]
  | c :: rest =>
    if c = '&' then [] :: splitAmp rest
    else
      match splitAmp rest with
      | seg :: segs => (c :: seg) :: segs
      | [] => [[c]]

/-- One `k=v` pair: key up to the first `=`, value the remainder (empty when
there is no `=`). -/
def parsePair (kv : List Char) : List Char × List Char :=
  (kv.takeWhile (· ≠ '='), (kv.drop (kv.takeWhile (· ≠ '=')).length).drop 1)

def parseParams (q : List Char) : List (List Char × List Char) :=
  ((splitAmp q).filter (· ≠ [])).map parsePair

/-- The `://` separator. -/
def urlSep : List Char := [':', '/', '/']

/-- `new URL(s)` for `scheme://…` URLs; `none` plays the role of the
constructor throwing. -/
def parseUrl (s : List Char) : Option JsUrl :=
  match splitFirstSub urlSep s with
  | none => none
  | some (scheme, rest) =>
    if scheme = [] then none
    else
      let host := rest.takeWhile (fun c => c ≠ '/' && c ≠ '?')
      let rest2 := rest.drop host.length
      let path := rest2.takeWhile (· ≠ '?')
      let afterPath := rest2.drop path.length
      some { scheme := scheme
             host := host
             pathname := if path = [] then ['/'] else path
             params := parseParams (afterPath.drop 1) }

/-- Join query pairs with `&` (`URLSearchParams.toString`). -/
def joinAmp : List (List Char) → List Char
  | [] => []
  | [x] => x
  | x :: xs => x ++ '&' :: joinAmp xs

/-- `url.toString()`. -/
def serializeUrl (u : JsUrl) : List Char :=
  u.scheme ++ urlSep ++ u.host ++ u.pathname ++
    (if u.params = [] then []
     else '?' :: joinAmp (u.params.map (fun p => p.1 ++ '=' :: p.2)))

/-- `searchParams.get(k)`: first value bound to `k`, or `null`. -/
def getParam (ps : List (List Char × List Char)) (k : List Char) : Option (List Char) :=
  ps.lookup k

/-- `searchParams.set(k, v)`: overwrite the first binding of `k` in place,
drop any later duplicates, append when absent. -/
def setParam (ps : List (List Char × List Char)) (k v : List Char) :
    List (List Char × List Char) :=
  go ps false
where
  go : List (List Char × List Char) → Bool → List (List Char × List Char)
    | [], replaced => if replaced then [] else [(k, v)]
    | (k2, v2) :: rest, replaced =>
      if k2 = k then
        if replaced then go rest true else (k, v) :: go rest true
      else (k2, v2) :: go rest replaced

/-! ## `normalizeCgiUrl` (`utils.js`) -/

/-- `if (searchParams.get(k) === expected) searchParams.set(k, v)`. -/
def cgiParamStep (ps : List (List Char × List Char)) (k expected v : List Char) :
    List (List Char × List Char) :=
  if getParam ps k = some expected then setParam ps k v else ps

/-- `const tableName = get('table_name'); if (tableName && ELI_TYPE_NL_TO_FR[tableName]) set(...)`. -/
def cgiTableStep (ps : List (List Char × List Char)) : List (List Char × List Char) :=
  match getParam ps "table_name".toList with
  | some tn =>
    if tn ≠ [] then
      match ELI_TYPE_NL_TO_FR.lookup tn with
      | some fr => setParam ps "table_name".toList fr
      | none => ps
    else ps
  | none => ps

def rewriteCgiParams (ps : List (List Char × List Char)) :
    List (List Char × List Char) :=
  cgiTableStep
    (cgiParamStep (cgiParamStep ps "language".toList "nl".toList "fr".toList)
      "la".toList "N".toList "F".toList)

/-- The `cgi_wet → cgi_loi` rewrite of `normalizeCgiUrl` (`utils.js`): when
the path mentions `cgi_wet`, rewrite its first occurrence to `cgi_loi`,
switch the `language`/`la` query parameters to French, and translate a Dutch
`table_name` value; otherwise leave the URL untouched. -/
def rewriteCgi (parsed : JsUrl) : JsUrl :=
  if includesSub "cgi_wet".toList parsed.pathname then
    { parsed with
      pathname := replaceFirstSub "cgi_wet".toList "cgi_loi".toList parsed.pathname
      params := rewriteCgiParams parsed.params }
  else parsed

/-- `normalizeCgiUrl` (`utils.js`): keep `cgi_loi` URLs, rewrite `cgi_wet`
URLs to the French `cgi_loi` form, return `null` for anything else. -/
def normalizeCgiUrl (url : List Char) : Option (List Char) :=
  match parseUrl url with
  | none => none
  | some parsed =>
    if !includesSub "cgi_loi".toList parsed.pathname &&
       !includesSub "cgi_wet".toList parsed.pathname then none
    else some (serializeUrl (rewriteCgi parsed))

/-- A well-formed pair for query round-tripping. -/
def wfPair (p : List Char × List Char) : Bool :=
  p.1.all (fun c => c ≠ '&' && c ≠ '=') && p.2.all (· ≠ '&')

/-- Well-formedness of a `JsUrl` record, sufficient for `toString`/re-parse
round-tripping. -/
def wfUrl (u : JsUrl) : Bool :=
  decide (u.scheme ≠ []) && !includesSub urlSep u.scheme &&
  u.host.all (fun c => c ≠ '/' && c ≠ '?') &&
  decide (u.pathname.head? = some '/') && u.pathname.all (· ≠ '?') &&
  u.params.all wfPair

/-! ## The keyed data store (`data.js` / `storage.js`)

JavaScript record fields that can be `null`/`undefined`, a string, or an
array of strings are modelled by `JVal` (with JS truthiness: `null` and the
empty string are falsy).  JS objects used as string-keyed dictionaries are
modelled as association lists with in-place update (`aupsert`), which
preserves the object's insertion order exactly as V8 does. -/

inductive JVal where
  | null
  | str (s : List Char)
  | arr (xs : List (List Char))
deriving DecidableEq, Repr

/-- In-place update of a string-keyed JS object (insert at the end when the
key is new). -/
def aupsert {β : Type} : List (List Char × β) → List Char → β → List (List Char × β)
  | [], k, v => [(k, v)]
  | (k2, v2) :: rest, k, v =>
    if k2 = k then (k, v) :: rest else (k2, v2) :: aupsert rest k v

/-- `mergeArrays` (`data.js`): merge an incoming value (string or array)
into an existing array, tolerating legacy scalars, appending only values
that are truthy and not already present, and returning `null` for an empty
result. -/
def mergeArrays (existing incoming : JVal) : JVal :=
  let base : List (List Char) :=
    match existing with
    | .arr xs => xs
    | .str s => if s ≠ [] then [s] else []
    | .null => []
  let merged : List (List Char) :=
    match incoming with
    | .arr vs => vs.foldl (fun acc v => if v ≠ [] ∧ v ∉ acc then acc ++ [v] else acc) base
    | .str v => if v ≠ [] ∧ v ∉ base then base ++ [v] else base
    | .null => base
  if merged ≠ [] then .arr merged else .null

/-- One stored `data/<file>.json` row (`data.js`). -/
structure StoreRecord where
  court : JVal
  date : JVal
  roleNumber : JVal
  sitemap : JVal
  abstractFR : JVal
  abstractNL : JVal
deriving DecidableEq, Repr

/-- `article → ECLI → record`. -/
def DataFile := List (List Char × List (List Char × StoreRecord))

/-- `filename → data file` (the `data/` directory). -/
def Store := List (List Char × DataFile)

structure Judgement where
  ecli : List Char
  court : JVal
  judgementDate : JVal
  roleNumber : JVal
deriving DecidableEq, Repr

structure BasisRef where
  article : List Char
  eli : List Char
deriving DecidableEq, Repr

structure MissingBasis where
  article : JVal
  rawLegalBasisText : List Char
  legalBasisFR : JVal := .null
  legalBasisNL : JVal := .null
deriving DecidableEq, Repr

/-- One element of `abstractToBasesMap`. -/
structure AbstractEntry where
  abstractFR : JVal
  abstractNL : JVal
  legalBases : List BasisRef
  missingEliBases : List MissingBasis := []
deriving DecidableEq, Repr

/-- `eliToFilename` (`utils.js`): cgi URLs map to
`cgi_loi_<table>_<cn>.json`, ELI URLs to their underscored path, anything
unparsable to its sanitized text. -/
def eliToFilename (eli : List Char) : List Char :=
  match parseUrl eli with
  | some url =>
    if includesSub "cgi_loi".toList url.pathname then
      let tableName :=
        match getParam url.params "table_name".toList with
        | some tn => if tn ≠ [] then tn else "loi".toList
        | none => "loi".toList
      let cn :=
        match getParam url.params "cn".toList with
        | some c => if c ≠ [] then c else "unknown".toList
        | none => "unknown".toList
      "cgi_loi_".toList ++ tableName ++ '_' :: cn ++ ".json".toList
    else
      (dropOneSlash url.pathname).map (fun c => if c = '/' then '_' else c) ++
        ".json".toList
  | none =>
    eli.map (fun c =>
      if isAsciiLetterC c || isDigitC c || c = '.' || c = '_' || c = '-' then c
      else '_') ++ ".json".toList
where
  /-- `.replace(/^\//, '')` -/
  dropOneSlash : List Char → List Char
    | '/' :: rest => rest
    | l => l

/-- The inner body of `storeJudgementData` for one legal basis: load the
file, merge the record at `(article, ecli)`, save the file. -/
def storeOneBasis (j : Judgement) (entry : AbstractEntry) (sitemapUrl : JVal)
    (st : Store) (base : BasisRef) : Store :=
  if base.eli = [] then st
  else
    let filename := eliToFilename base.eli
    let data : DataFile := (List.lookup filename st).getD []
    let artMap : List (List Char × StoreRecord) := (List.lookup base.article data).getD []
    let existingSitemap := match List.lookup j.ecli artMap with
      | some r => r.sitemap
      | none => .null
    let existingFR := match List.lookup j.ecli artMap with
      | some r => r.abstractFR
      | none => .null
    let existingNL := match List.lookup j.ecli artMap with
      | some r => r.abstractNL
      | none => .null
    let newRec : StoreRecord :=
      { court := j.court
        date := j.judgementDate
        roleNumber := j.roleNumber
        sitemap := mergeArrays existingSitemap sitemapUrl
        abstractFR := mergeArrays existingFR entry.abstractFR
        abstractNL := mergeArrays existingNL entry.abstractNL }
    aupsert st filename (aupsert data base.article (aupsert artMap j.ecli newRec))

/-- `storeJudgementData` (`data.js`). -/
def storeJudgementData (j : Judgement) (abstractToBasesMap : List AbstractEntry)
    (sitemapUrl : JVal) (st : Store) : Store :=
  abstractToBasesMap.foldl
    (fun st entry => entry.legalBases.foldl (storeOneBasis j entry sitemapUrl) st) st

/-! ### Merge lemmas and claim C3 -/

/-- Reading one record back out of the store. -/
def storeRecordAt (st : Store) (eli article ecli : List Char) : Option StoreRecord :=
  List.lookup ecli ((List.lookup article
    ((List.lookup (eliToFilename eli) st).getD ([] : DataFile))).getD [])

/-- The dedup-append performed by mergeArrays on a fresh string. -/
def addIfAbsent (xs : List (List Char)) (v : List Char) : List (List Char) :=
  if v ∈ xs then xs else xs ++ [v]

/-! ### `processMissingEliFile` (`data.js`) and claim C10 -/

/-- One element stored in `missing_eli.json` by `recordMissingEliData`. -/
structure MissingElement where
  ecli : List Char
  court : JVal
  date : JVal
  roleNumber : JVal
  article : Option (List Char)
  abstractFR : JVal
  abstractNL : JVal
  sitemap : JVal
  deriving DecidableEq

/-- One keyed entry of `missing_eli.json`. -/
structure MissingItem where
  eli : List Char
  elements : List MissingElement
  deriving DecidableEq

abbrev MissingFile : Type := List (List Char × MissingItem)

/-- JS `x || null` on a string-or-null value. -/
def jvalOrNull : JVal → JVal
  | .str [] => .null
  | .null => .null
  | v => v

/-- `normalizeLegalBasisEli` (`data.js`). -/
def normalizeLegalBasisEli (eli : List Char) : Option (List Char) :=
  if eli = [] then none
  else if includesSub eliMarker eli then some (normalizeEliToFrench eli)
  else if startsWithL "http://".toList eli || startsWithL "https://".toList eli then
    normalizeCgiUrl eli
  else none

/-- Replay of one element: the `storeJudgementData` call inside the
element loop of `processMissingEliFile`. -/
def processOneElement (ne : List Char) (el : MissingElement) (st : Store) :
    Store :=
  storeJudgementData ⟨el.ecli, el.court, el.date, el.roleNumber⟩
    [⟨jvalOrNull el.abstractFR, jvalOrNull el.abstractNL,
      [⟨normalizeArticleNumber (el.article.getD []) false, ne⟩], []⟩]
    el.sitemap st

/-- Replay of one keyed entry (the body of the key loop of
`processMissingEliFile`): skipped when the element list is empty, the ELI
is falsy or the ELI fails to normalize; otherwise every element is stored
and the element list is cleared. -/
def processMissingItem (st : Store) (item : MissingItem) : Store × MissingItem :=
  if item.elements = [] then (st, item)
  else if item.eli = [] then (st, item)
  else
    match normalizeLegalBasisEli item.eli with
    | none => (st, item)
    | some ne =>
      (item.elements.foldl (fun s el => processOneElement ne el s) st,
       { item with elements := [] })

/-- `processMissingEliFile` (`data.js`), as a pure transformer of the
keyed store and the missing-ELI file. -/
def processMissingEliFile (mf : MissingFile) (st : Store) : Store × MissingFile :=
  mf.foldl (fun acc kv =>
    let p := processMissingItem acc.1 kv.2
    (p.1, acc.2 ++ [(kv.1, p.2)])) (st, [])

/-! ### The law-grouping state machine of `parseSitemapXml` (`sitemap.js`)

The reference loop of `parseSitemapXml` walks the `meta.reference` entries
in document order, grouping article citations under the law key extracted
from their text and binding them to the next identifier (`ELI` entry or
`http(s)` URL).  `lawKeyEliCache` remembers the last identifier bound to
each law key so that a later repeat of the same law can be resolved without
a repeated identifier. -/

/-- One `meta.reference` entry: `ref?.$?.type`, `ref?.$?.lang` and the raw
text (`[]` models an absent attribute). -/
structure XRef where
  rtype : List Char
  lang : List Char
  raw : List Char
  deriving DecidableEq

/-- A pending or resolved article citation
(`{ article, eli, lang, rawText }`). -/
structure PendingArt where
  article : List Char
  eli : Option (List Char)
  lang : List Char
  rawText : List Char
  deriving DecidableEq

/-- An entry of `legalBasesWithoutEli`
(`{ article, rawLegalBasisText }`, `article` null for principles). -/
structure WithoutEli where
  article : Option (List Char)
  rawLegalBasisText : List Char
  deriving DecidableEq

/-- An entry of `allBasisTexts` (`{ article, rawText, lang }`). -/
structure BasisText where
  article : List Char
  rawText : List Char
  lang : List Char
  deriving DecidableEq

/-- The mutable state of the reference loop. -/
structure SMState where
  roleNumber : Option (List Char)
  currentArticles : List PendingArt
  currentLawKey : Option (List Char)
  lawKeyEliCache : List (List Char × List Char)
  legalBases : List PendingArt
  legalBasesWithoutEli : List WithoutEli
  allBasisTexts : List BasisText
  deriving DecidableEq

def smInit : SMState := ⟨none, [], none, [], [], [], []⟩

/-- `currentLawKey && lawKeyEliCache[currentLawKey]` followed by the JS
truthiness test `if (cachedEli)` (`null` and `""` are falsy). -/
def cachedEliOf (s : SMState) : Option (List Char) :=
  match s.currentLawKey with
  | none => none
  | some k =>
    if k = [] then none
    else
      match s.lawKeyEliCache.lookup k with
      | none => none
      | some e => if e = [] then none else some e

/-- `if (currentLawKey) lawKeyEliCache[currentLawKey] = text`. -/
def cacheSet (key : Option (List Char)) (text : List Char)
    (cache : List (List Char × List Char)) : List (List Char × List Char) :=
  match key with
  | none => cache
  | some k => if k = [] then cache else aupsert cache k text

/-- `text.replace(/^(Numéro de rôle|Rolnummer)\s*/, '').trim()`. -/
def stripRolePrefix (t : List Char) : List Char :=
  if startsWithL "Numéro de rôle".toList t then
    jsTrim ((t.drop "Numéro de rôle".toList.length).dropWhile isSpaceC)
  else if startsWithL "Rolnummer".toList t then
    jsTrim ((t.drop "Rolnummer".toList.length).dropWhile isSpaceC)
  else jsTrim t

/-- The cache-aware flush block shared by the article branch, the
no-article branch and the end of input: pending articles go to
`legalBases` under the cached identifier when one is known, otherwise to
`legalBasesWithoutEli`.  (Clearing `currentArticles` is done by the
callers, as in the source.) -/
def flushPending (s : SMState) : SMState :=
  if s.currentArticles = [] then s
  else
    match cachedEliOf s with
    | some e =>
      { s with legalBases :=
          s.legalBases ++ s.currentArticles.map (fun a => { a with eli := some e }) }
    | none =>
      { s with legalBasesWithoutEli :=
          s.legalBasesWithoutEli ++
            s.currentArticles.map (fun a => ⟨some a.article, extractLegalBasisKey a.rawText⟩) }

/-- Identifier binding (the `http(s)` URL branch and the `ELI` branch):
the identifier is assigned to every pending article and remembered in the
cache for the current law key. -/
def bindIdentifier (s : SMState) (text : List Char) : SMState :=
  if s.currentArticles = [] then s
  else
    { s with
      lawKeyEliCache := cacheSet s.currentLawKey text s.lawKeyEliCache,
      legalBases :=
        s.legalBases ++ s.currentArticles.map (fun a => { a with eli := some text }),
      currentArticles := [],
      currentLawKey := none }

/-- One iteration of the reference loop (`for (const ref of refs)`). -/
def refStep (s : SMState) (r : XRef) : SMState :=
  let lang := if r.lang = [] then "fr".toList else r.lang
  let text := normalizeWhitespace r.raw
  if r.rtype = "OTHER".toList then
    if startsWithL "Numéro de rôle".toList text ||
       startsWithL "Rolnummer".toList text then
      { s with roleNumber := some (stripRolePrefix text) }
    else if startsWithL "http://".toList text ||
            startsWithL "https://".toList text then
      bindIdentifier s text
    else if reTestAnchored RE_LEGAL_PRINCIPLE text then
      let s2 :=
        if s.currentArticles = [] then s
        else
          { s with
            legalBasesWithoutEli :=
              s.legalBasesWithoutEli ++
                s.currentArticles.map (fun a => ⟨some a.article, extractLegalBasisKey a.rawText⟩),
            currentArticles := [],
            currentLawKey := none }
      { s2 with legalBasesWithoutEli := s2.legalBasesWithoutEli ++ [⟨none, text⟩] }
    else
      match matchArtCascade text with
      | some g =>
        let lawName := extractLegalBasisKey text
        let articles := parseArticleNumbers (jsTrim g) text
        let s2 :=
          if some lawName ≠ s.currentLawKey then
            let s3 := flushPending s
            { s3 with currentArticles := [], currentLawKey := some lawName }
          else s
        { s2 with
          currentArticles :=
            s2.currentArticles ++ articles.map (fun art => ⟨art, none, lang, text⟩),
          allBasisTexts :=
            s2.allBasisTexts ++ articles.map (fun art => ⟨art, text, lang⟩) }
      | none =>
        if reTest RE_REF_NO_ART text then
          let newLawKey := extractLegalBasisKey text
          let s2 :=
            if some newLawKey ≠ s.currentLawKey then
              let s3 := flushPending s
              { s3 with currentArticles := [], currentLawKey := some newLawKey }
            else s
          { s2 with
            currentArticles :=
              s2.currentArticles ++ [⟨"general".toList, none, lang, text⟩],
            allBasisTexts :=
              s2.allBasisTexts ++ [⟨"general".toList, text, lang⟩] }
        else s
  else if r.rtype = "ELI".toList then
    bindIdentifier s (normalizeWhitespace r.raw)
  else s

/-- The whole reference pass: fold over the references, then the
end-of-input flush. -/
def smRun (refs : List XRef) : SMState :=
  flushPending (refs.foldl refStep smInit)

/-! ### `textSimilarity` (`utils.js`) and the greedy abstract correlator
(`processor.js`) -/

/-- `a.toLowerCase().split(/\s+/)`: maximal whitespace runs separate the
tokens; a leading or trailing run contributes an empty token, exactly as in
JS.  (Case folding is ASCII; the JS version is full Unicode, and the two
agree on ASCII text.)  Recursion is on a length fuel to stay structural;
`l.length` always suffices since every round consumes at least one
character. -/
def splitWs (l : List Char) : List (List Char) :=
  go l.length l
where
  go : Nat → List Char → List (List Char)
    | fuel, l =>
      let tok := l.takeWhile (fun c => !isSpaceC c)
      match fuel, l.drop tok.length with
      | _, [] => [tok]
      | 0, _ => [tok]
      | fuel + 1, c :: rest => tok :: go fuel ((c :: rest).dropWhile isSpaceC)

/-- The word set of `textSimilarity`: lowercase, split on whitespace, keep
words longer than 3 characters, dedup preserving first-occurrence order
(`Set` insertion order). -/
def simWords (l : List Char) : List (List Char) :=
  dedupKeepFirst ((splitWs (l.map Char.toLower)).filter (fun w => 3 < w.length))

/-- `textSimilarity` (`utils.js`): Dice coefficient of the two word sets,
`0` when either input or either word set is empty. -/
def textSimilarity (a b : List Char) : ℚ :=
  if a = [] ∨ b = [] then 0
  else
    let wa := simWords a
    let wb := simWords b
    if wa = [] ∨ wb = [] then 0
    else mkRat (2 * (wa.filter (fun w => w ∈ wb)).length) (wa.length + wb.length)

/-- One fiche parsed from the judgement page, as consumed by the
correlator. -/
structure Fiche where
  abstract : List Char
  legalBases : List BasisRef
  missingEliBases : List MissingBasis
  deriving DecidableEq

/-- One language scan of the correlator:
`for (fi …) { if (used.has(fi)) continue; … if (score > bestScore) … }`. -/
def scanGo (fa : List Char) (abs : List (List Char)) (used : List Nat) :
    List Nat → Option Nat × ℚ → Option Nat × ℚ
  | [], acc => acc
  | i :: rest, acc =>
    if i ∈ used then scanGo fa abs used rest acc
    else
      if acc.2 < textSimilarity fa (abs.getD i []) then
        scanGo fa abs used rest (some i, textSimilarity fa (abs.getD i []))
      else scanGo fa abs used rest acc

def scanLoop (fa : List Char) (abs : List (List Char)) (used : List Nat)
    (init : Option Nat × ℚ) : Option Nat × ℚ :=
  scanGo fa abs used (List.range abs.length) init

/-- One iteration of the fiche loop (`processor.js` lines 130–161):
scan both language sequences for the best unclaimed index, then either
claim it (score strictly above `0.2`) or emit a no-abstract entry. -/
def ficheStep (absFR absNL : List (List Char))
    (acc : List AbstractEntry × List Nat × List Nat) (f : Fiche) :
    List AbstractEntry × List Nat × List Nat :=
  let p := scanLoop f.abstract absNL acc.2.2
    (scanLoop f.abstract absFR acc.2.1 (none, 0))
  match p with
  | (some bi, bs) =>
    if mkRat 1 5 < bs then
      (acc.1 ++ [⟨if bi < absFR.length then .str (absFR.getD bi []) else .null,
                  if bi < absNL.length then .str (absNL.getD bi []) else .null,
                  f.legalBases, f.missingEliBases⟩],
       if bi < absFR.length then acc.2.1 ++ [bi] else acc.2.1,
       if bi < absNL.length then acc.2.2 ++ [bi] else acc.2.2)
    else
      (acc.1 ++ [⟨.null, .null, f.legalBases, f.missingEliBases⟩], acc.2.1, acc.2.2)
  | (none, _) =>
    (acc.1 ++ [⟨.null, .null, f.legalBases, f.missingEliBases⟩], acc.2.1, acc.2.2)

/-- The fiche loop over `fichesWithData`, starting from empty used sets. -/
def correlateFiches (absFR absNL : List (List Char)) (fiches : List Fiche) :
    List AbstractEntry × List Nat × List Nat :=
  fiches.foldl (ficheStep absFR absNL) ([], [], [])

/-- Modelled from the spec: "the single highest-scoring not-yet-claimed
index across both language sequences" — the maximum similarity score over
all unclaimed indices of either sequence (0 when none). -/
def bestUnclaimedScore (fa : List Char) (absFR absNL : List (List Char))
    (uF uN : List Nat) : ℚ :=
  (((List.range absFR.length).filter (fun i => i ∉ uF)).map
      (fun i => textSimilarity fa (absFR.getD i [])) ++
   ((List.range absNL.length).filter (fun i => i ∉ uN)).map
      (fun i => textSimilarity fa (absNL.getD i []))).foldl max 0

/-! ### The legal-basis entry loop of `parseJudgementHtml` (`judgement.js`)
and the persistent error log (`storage.js`) -/

/-- One `<br>`-separated legal-basis entry of a fiche table row: its raw
text and the `href`s of an ELI link and a `cgi_loi`/`cgi_wet` link when
present. -/
structure JEntry where
  raw : List Char
  eliHref : Option (List Char)
  cgiHref : Option (List Char)
  deriving DecidableEq

/-- The ELI-link resolution of the entry loop: prefer the normalized ELI
link, fall back to the normalized cgi link (`null` when both fail). -/
def resolveEliLink (e : JEntry) : Option (List Char) :=
  let el : List Char :=
    match e.eliHref with
    | some h => if h = [] then [] else normalizeEliToFrench h
    | none => []
  if el ≠ [] then some el
  else
    match e.cgiHref with
    | some ch => if ch = [] then none else normalizeCgiUrl ch
    | none => none

/-- The accumulators of the entry loop. -/
structure JParseState where
  basesLegales : List BasisRef
  missingEliBases : List MissingBasis
  allBasisTexts : List BasisText
  unextractable : List (List Char)
  deriving DecidableEq

/-- One iteration of the entry loop (`judgement.js` lines 75–137): the
article cascade, then (for truthy text) the legal-principle test, the
no-article test, and finally the unextractable fallback. -/
def jEntryStep (lang : List Char) (s : JParseState) (e : JEntry) : JParseState :=
  let text := normalizeWhitespace e.raw
  let eliLink := resolveEliLink e
  match matchArtCascade text with
  | some g =>
    let articles := parseArticleNumbers (jsTrim g) text
    let lawKey := extractLegalBasisKey text
    match eliLink with
    | none =>
      { s with
        missingEliBases :=
          s.missingEliBases ++ articles.map (fun art => ⟨.str art, lawKey, .null, .null⟩),
        allBasisTexts :=
          s.allBasisTexts ++ articles.map (fun art => ⟨art, text, lang⟩) }
    | some el =>
      { s with
        basesLegales := s.basesLegales ++ articles.map (fun art => ⟨art, el⟩),
        allBasisTexts :=
          s.allBasisTexts ++ articles.map (fun art => ⟨art, text, lang⟩) }
  | none =>
    if text = [] then s
    else if reTestAnchored RE_LEGAL_PRINCIPLE text then
      { s with missingEliBases := s.missingEliBases ++ [⟨.null, text, .null, .null⟩] }
    else if reTest RE_REF_NO_ART text then
      match eliLink with
      | some el =>
        { s with
          basesLegales := s.basesLegales ++ [⟨"general".toList, el⟩],
          allBasisTexts := s.allBasisTexts ++ [⟨"general".toList, text, lang⟩] }
      | none =>
        { s with
          missingEliBases :=
            s.missingEliBases ++ [⟨.str "general".toList, extractLegalBasisKey text, .null, .null⟩],
          allBasisTexts := s.allBasisTexts ++ [⟨"general".toList, text, lang⟩] }
    else { s with unextractable := s.unextractable ++ [text] }

/-- The entry loop over one row's entries. -/
def jParseEntries (lang : List Char) (entries : List JEntry) (s0 : JParseState) :
    JParseState :=
  entries.foldl (jEntryStep lang) s0

/-- `errors.json`: unextractable texts keyed by source URL. -/
abbrev ErrorsFile : Type := List (List Char × List (List Char))

/-- `appendParseError` (`storage.js`): append the text under the URL key
unless the same `(url, text)` pair is already recorded. -/
def appendParseError (ef : ErrorsFile) (url text : List Char) : ErrorsFile :=
  let cur := (ef.lookup url).getD []
  if text ∈ cur then ef else aupsert ef url (cur ++ [text])

/-- Modelled from the spec: after parsing a document, every collected
unextractable line is appended to the persistent error log keyed by the
source URL. -/
def recordUnextractables (url : List Char) (texts : List (List Char))
    (ef : ErrorsFile) : ErrorsFile :=
  texts.foldl (fun acc t => appendParseError acc url t) ef

/-! ### `commitSitemapResult` (`processor.js`) and the batch loop
(`index.js`) -/

/-- `appendMissingEli` (`storage.js`): create the key with a null ELI when
absent, then append the element unless an identical
`(ecli, article, abstractFR, abstractNL)` element is already recorded.
(The JS duplicate test also compares the never-set `url` fields, which are
always equal; the `legalBasisFR`/`legalBasisNL` fields are carried but
never read on this path.) -/
def appendMissingEli (mf : MissingFile) (key : List Char) (el : MissingElement) :
    MissingFile :=
  let item := (mf.lookup key).getD ⟨[], []⟩
  let dup := item.elements.any (fun ex =>
    ex.ecli = el.ecli && ex.article = el.article &&
    ex.abstractFR = el.abstractFR && ex.abstractNL = el.abstractNL)
  aupsert mf key (if dup then item else { item with elements := item.elements ++ [el] })

/-- `recordMissingEliData` (`data.js`), called from `commitSitemapResult`
without a sitemap URL (`element.sitemap` is `undefined`, modelled as
null). -/
def recordMissingEliData (j : Judgement) (entries : List AbstractEntry)
    (mf : MissingFile) : MissingFile :=
  entries.foldl (fun acc entry =>
    entry.missingEliBases.foldl (fun acc2 m =>
      appendMissingEli acc2 m.rawLegalBasisText
        ⟨j.ecli, j.court, j.judgementDate, j.roleNumber,
         (match m.article with | .str a => some a | _ => none),
         jvalOrNull entry.abstractFR, jvalOrNull entry.abstractNL, .null⟩) acc) mf

/-- The outcome of `fetchSitemapResult` for one sitemap URL. -/
inductive FetchResult where
  | error
  | empty
  | nobases
  | skip
  | save (j : Judgement) (entries : List AbstractEntry)
  deriving DecidableEq

/-- The in-memory crawl counters of `index.js`. -/
structure Counters where
  skippedCourt : Nat
  savedJudgements : Nat
  errorCount : Nat
  deriving DecidableEq

/-- The persisted crawl state (`settings.json`): completed items and
completed batches. -/
structure Settings where
  processedSitemaps : List (List Char)
  processedSitemapIndexes : List (List Char)
  deriving DecidableEq

/-- `commitSitemapResult` (`processor.js`): returns the success flag and
the updated settings, counters, keyed store and missing-ELI file. -/
def commitSitemapResult (result : FetchResult) (url : List Char)
    (settings : Settings) (counters : Counters) (store : Store)
    (mf : MissingFile) (markProcessed : Bool := true) :
    Bool × Settings × Counters × Store × MissingFile :=
  let markDone := fun (st : Settings) =>
    if markProcessed then
      { st with processedSitemaps := st.processedSitemaps ++ [url] }
    else st
  match result with
  | .error =>
    (false, settings,
     { counters with errorCount := counters.errorCount + 1 }, store, mf)
  | .empty => (true, markDone settings, counters, store, mf)
  | .nobases => (true, markDone settings, counters, store, mf)
  | .skip =>
    (true, markDone settings,
     { counters with skippedCourt := counters.skippedCourt + 1 }, store, mf)
  | .save j entries =>
    (true, markDone settings,
     { counters with savedJudgements := counters.savedJudgements + 1 },
     storeJudgementData j entries .null store,
     recordMissingEliData j entries mf)

/-- One serialized commit of the batch loop: thread the
`indexFullyProcessed` flag and the mutable state through
`commitSitemapResult`. -/
def batchStep (fetchOf : List Char → FetchResult)
    (acc : Bool × Settings × Counters × Store × MissingFile)
    (url : List Char) : Bool × Settings × Counters × Store × MissingFile :=
  let c := commitSitemapResult (fetchOf url) url acc.2.1 acc.2.2.1
    acc.2.2.2.1 acc.2.2.2.2 true
  (acc.1 && c.1, c.2)

/-- One sitemap index (batch) of the main loop (`index.js` lines
213–269): items already in `processedSitemaps` are skipped up front;
the remaining items are committed (commits are serialized; we model them
arriving in list order); when every commit succeeded the batch is promoted
to `processedSitemapIndexes` and its items are pruned from
`processedSitemaps` in the same settings save. -/
def runBatch (indexUrl : List Char) (items : List (List Char))
    (fetchOf : List Char → FetchResult) (settings : Settings)
    (counters : Counters) (store : Store) (mf : MissingFile) :
    Settings × Counters × Store × MissingFile :=
  let toRun := items.filter (fun u => !settings.processedSitemaps.contains u)
  let folded := toRun.foldl (batchStep fetchOf) (true, settings, counters, store, mf)
  if folded.1 then
    ({ folded.2.1 with
       processedSitemapIndexes := folded.2.1.processedSitemapIndexes ++ [indexUrl],
       processedSitemaps :=
         folded.2.1.processedSitemaps.filter (fun u => !items.contains u) },
     folded.2.2)
  else folded.2

/-- Whether a commit of this fetch outcome reports success. -/
def okOf : FetchResult → Bool
  | .error => false
  | _ => true

/-! ### `SerialQueue` (`processor.js`)

`SerialQueue.enqueue(fn)` chains `fn` onto a tail promise:
`result = this._tail.then(() => fn(), () => fn())` and
`this._tail = result.then(() => {}, () => {})`.  We model the JS promise
machinery explicitly: an id-indexed promise store, per-promise reaction
lists, and the FIFO microtask queue.  The crawler's tasks are synchronous
closures, so running a handler settles its target promise immediately;
a handler appears for both the fulfilled and the rejected path exactly as
in the source, which is why a rejected task never stops the chain. -/

/-- What a `.then` handler does in the `SerialQueue` usage: run an
enqueued task (which may fail) or do nothing (the tail-chain handler
`() => {}`). -/
inductive JobAct where
  | runTask (tid : Nat) (fails : Bool)
  | nop
  deriving DecidableEq

inductive PState where
  | pending
  | fulfilled
  | rejected
  deriving DecidableEq

/-- One promise: its state and the reactions subscribed to its
settlement (handler and target-promise id). -/
structure PRec where
  state : PState
  reactions : List (JobAct × Nat)
  deriving DecidableEq

/-- In-place update of a Nat-keyed store (insert at the end when the key
is absent). -/
def naupsert {β : Type} (l : List (Nat × β)) (k : Nat) (v : β) :
    List (Nat × β) :=
  match l with
  | [] => [(k, v)]
  | (k2, v2) :: rest =>
    if k2 = k then (k2, v) :: rest else (k2, v2) :: naupsert rest k v

/-- The promise machine: promise store, the queue's tail promise id, the
microtask FIFO, a fresh-id counter and the observable run trace (task ids
in execution order). -/
structure QState where
  store : List (Nat × PRec)
  tail : Nat
  queue : List (JobAct × Nat)
  fresh : Nat
  trace : List Nat
  deriving DecidableEq

/-- `p.then(h, h)`: create the derived promise; when `p` is pending the
reaction is subscribed, when `p` is settled the job is scheduled on the
microtask queue (the handler is the same for both settlement paths in
every `SerialQueue` use). -/
def thenOp (st : QState) (p : Nat) (act : JobAct) : QState × Nat :=
  let q := st.fresh
  let base := naupsert st.store q ⟨.pending, []⟩
  match (st.store.lookup p).getD ⟨.pending, []⟩ with
  | ⟨.pending, rs⟩ =>
    ({ st with
       store := naupsert base p ⟨.pending, rs ++ [(act, q)]⟩,
       fresh := st.fresh + 1 }, q)
  | ⟨_, _⟩ =>
    ({ st with
       store := base,
       queue := st.queue ++ [(act, q)],
       fresh := st.fresh + 1 }, q)

/-- `enqueue(fn)`: `result = _tail.then(fn, fn); _tail = result.then(nop, nop)`. -/
def enqueue (st : QState) (tid : Nat) (fails : Bool) : QState :=
  let pr := thenOp st st.tail (.runTask tid fails)
  let pt := thenOp pr.1 pr.2 .nop
  { pt.1 with tail := pt.2 }

/-- Settle a promise: record the state and schedule its reactions FIFO. -/
def settle (st : QState) (p : Nat) (s : PState) : QState :=
  let rec0 := (st.store.lookup p).getD ⟨.pending, []⟩
  { st with
    store := naupsert st.store p ⟨s, []⟩,
    queue := st.queue ++ rec0.reactions }

/-- Run one microtask: a task handler runs the (synchronous) task and
settles its target with the task's outcome; a nop handler fulfills its
target. -/
def runJob (st : QState) (j : JobAct × Nat) : QState :=
  match j.1 with
  | .runTask tid fails =>
    settle { st with trace := st.trace ++ [tid] } j.2
      (if fails then .rejected else .fulfilled)
  | .nop => settle st j.2 .fulfilled

/-- Drain the microtask queue, one job at a time (the JS event loop is
single-threaded: no two jobs ever run concurrently). -/
def drain : Nat → QState → QState
  | 0, st => st
  | fuel + 1, st =>
    match st.queue with
    | [] => st
    | j :: rest => drain fuel (runJob { st with queue := rest } j)

/-- A fresh `SerialQueue`: `_tail = Promise.resolve()`. -/
def initQ : QState := ⟨[(0, ⟨.fulfilled, []⟩)], 0, [], 1, []⟩

/-- Enqueue the given tasks in order (the order in which the concurrent
fetches happen to complete). -/
def enqueueAll (st : QState) (ts : List (Nat × Bool)) : QState :=
  ts.foldl (fun s t => enqueue s t.1 t.2) st

/-- The pending chain hanging off the serial queue: from promise `g`,
through the remaining tasks `l`, to the current tail promise `e`.  Each
task node `g` carries the task reaction towards its result promise `r`,
which carries the tail-chain `nop` reaction towards the next node; ids
ascend strictly along the chain. -/
def chainTo (store : List (Nat × PRec)) : Nat → List (Nat × Bool) → Nat → Prop
  | g, [], e => g = e ∧ store.lookup g = some ⟨.pending, []⟩
  | g, (t, b) :: rest, e => ∃ r g2, g < r ∧ r < g2 ∧
      store.lookup g = some ⟨.pending, [(.runTask t b, r)]⟩ ∧
      store.lookup r = some ⟨.pending, [(.nop, g2)]⟩ ∧
      chainTo store g2 rest e

/-- The serial-queue invariant after at least one task was enqueued on a
fresh queue: the first task's job is the only scheduled microtask, its
result promise carries the tail-chain reaction towards promise 2, and the
remaining tasks hang off promise 2 as a pending chain ending at the
current tail. -/
def qsInv (st : QState) (t1 : Nat) (b1 : Bool)
    (done : List (Nat × Bool)) : Prop :=
  st.queue = [(.runTask t1 b1, 1)] ∧
  st.store.lookup 1 = some ⟨.pending, [(.nop, 2)]⟩ ∧
  chainTo st.store 2 done st.tail ∧
  st.tail < st.fresh ∧
  st.trace = []

/-! ### Idempotence of `normalizeEliToFrench` -/

/-- The translation table maps onto French segments that are themselves
outside the table's domain, nonempty and slash-free. -/
theorem trEliType_lookup (seg fr : List Char)
    (h : ELI_TYPE_NL_TO_FR.lookup seg = some fr) :
    ELI_TYPE_NL_TO_FR.lookup fr = none ∧ fr ≠ [] ∧ ∀ x ∈ fr, x ≠ '/' := by
  simp only [ELI_TYPE_NL_TO_FR, List.map, List.lookup] at h
  repeat' split at h
  all_goals
    first
      | (injection h with h; subst h; exact ⟨by decide, by decide, by decide⟩)
      | exact absurd h (by simp)

theorem trEliType_eq_of_lookup_none (seg : List Char)
    (h : ELI_TYPE_NL_TO_FR.lookup seg = none) : trEliType seg = seg := by
  unfold trEliType; rw [h]

theorem trEliType_eq_of_lookup_some (seg fr : List Char)
    (h : ELI_TYPE_NL_TO_FR.lookup seg = some fr) : trEliType seg = fr := by
  unfold trEliType; rw [h]

theorem trEliType_idem (seg : List Char) : trEliType (trEliType seg) = trEliType seg := by
  rcases h : ELI_TYPE_NL_TO_FR.lookup seg with _ | fr
  · rw [trEliType_eq_of_lookup_none seg h, trEliType_eq_of_lookup_none seg h]
  · rw [trEliType_eq_of_lookup_some seg fr h,
        trEliType_eq_of_lookup_none fr (trEliType_lookup seg fr h).1]

theorem trEliType_ne_nil (seg : List Char) (h : seg ≠ []) : trEliType seg ≠ [] := by
  rcases h' : ELI_TYPE_NL_TO_FR.lookup seg with _ | fr
  · rw [trEliType_eq_of_lookup_none seg h']; exact h
  · rw [trEliType_eq_of_lookup_some seg fr h']; exact (trEliType_lookup seg fr h').2.1

theorem trEliType_no_slash (seg : List Char) (h : ∀ x ∈ seg, x ≠ '/') :
    ∀ x ∈ trEliType seg, x ≠ '/' := by
  rcases h' : ELI_TYPE_NL_TO_FR.lookup seg with _ | fr
  · rw [trEliType_eq_of_lookup_none seg h']; exact h
  · rw [trEliType_eq_of_lookup_some seg fr h']; exact (trEliType_lookup seg fr h').2.2

theorem splitEliSeg_some {r seg after : List Char}
    (h : splitEliSeg r = some (seg, after)) :
    seg ≠ [] ∧ (∀ x ∈ seg, x ≠ '/') ∧ r = seg ++ '/' :: after := by
  unfold splitEliSeg at h
  simp only [List.span_eq_take_drop] at h
  split at h
  · exact absurd h (by simp)
  · rename_i hne
    split at h
    · rename_i after' heq
      rw [Option.some_inj, Prod.mk.injEq] at h
      obtain ⟨h1, h2⟩ := h
      subst h1; subst h2
      refine ⟨hne, ?_, ?_⟩
      · intro x hx
        simpa using List.mem_takeWhile_imp hx
      · conv_lhs => rw [← List.takeWhile_append_dropWhile
          (p := fun c : Char => decide (c ≠ '/')) (l := r)]
        rw [heq]
    · exact absurd h (by simp)

theorem takeWhile_append_slash (xs ys : List Char) (h : ∀ x ∈ xs, x ≠ '/') :
    (xs ++ '/' :: ys).takeWhile (· ≠ '/') = xs ∧
    (xs ++ '/' :: ys).dropWhile (· ≠ '/') = '/' :: ys := by
  induction xs with
  | nil => constructor <;> simp [List.takeWhile_cons, List.dropWhile_cons]
  | cons a xs ih =>
    have ha : a ≠ '/' := h a (by simp)
    have ih' := ih (fun x hx => h x (by simp [hx]))
    have hpa : (fun x : Char => decide (x ≠ '/')) a = true := by simpa using ha
    constructor
    · rw [List.cons_append, List.takeWhile_cons, if_pos hpa, ih'.1]
    · rw [List.cons_append, List.dropWhile_cons, if_pos hpa, ih'.2]

theorem splitEliSeg_build (seg after : List Char) (h1 : seg ≠ [])
    (h2 : ∀ x ∈ seg, x ≠ '/') :
    splitEliSeg (seg ++ '/' :: after) = some (seg, after) := by
  unfold splitEliSeg
  simp only [List.span_eq_take_drop]
  rw [(takeWhile_append_slash seg after h2).1, (takeWhile_append_slash seg after h2).2]
  simp [h1]

/-- `normalizeEliToFrench` never changes the head character. -/
theorem normalizeEli_head (m : List Char) :
    (normalizeEliToFrench m).head? = m.head? := by
  match m with
  | [] => rfl
  | c :: rest =>
    rw [normalizeEliToFrench]
    split
    · rename_i seg after heq
      split at heq
      · rename_i htake
        have : c = '/' := by
          have := congrArg (List.head? ∘ id) htake
          simpa [eliMarker] using this
        simp [this, eliMarker]
      · exact absurd heq (by simp)
    · rfl

/-- A slash-free string is left unchanged. -/
theorem normalizeEli_no_slash (m : List Char) (h : ∀ x ∈ m, x ≠ '/') :
    normalizeEliToFrench m = m := by
  induction m with
  | nil => rfl
  | cons c rest ih =>
    rw [normalizeEliToFrench]
    have hc : c ≠ '/' := h c (by simp)
    have htake : ¬ ((c :: rest).take 5 = eliMarker) := by
      intro hcontra
      have := congrArg List.head? hcontra
      simp [eliMarker] at this
      exact hc this
    simp only [if_neg htake]
    rw [ih (fun x hx => h x (by simp [hx]))]

/-- Evaluation of `normalizeEliToFrench` at a matching position. -/
theorem normalizeEli_fires (c : Char) (rest seg after : List Char)
    (htake : (c :: rest).take 5 = eliMarker)
    (hsplit : splitEliSeg (rest.drop 4) = some (seg, after)) :
    normalizeEliToFrench (c :: rest) = eliMarker ++ trEliType seg ++ '/' :: after := by
  rw [normalizeEliToFrench, if_pos htake, hsplit]

/-- Evaluation of `normalizeEliToFrench` at a non-matching position. -/
theorem normalizeEli_skips (c : Char) (rest : List Char)
    (h : (if (c :: rest).take 5 = eliMarker then splitEliSeg (rest.drop 4)
          else none) = none) :
    normalizeEliToFrench (c :: rest) = c :: normalizeEliToFrench rest := by
  rw [normalizeEliToFrench, h]

theorem normalizeEli_skips_of_take (c : Char) (rest : List Char)
    (h : (c :: rest).take 5 ≠ eliMarker) :
    normalizeEliToFrench (c :: rest) = c :: normalizeEliToFrench rest :=
  normalizeEli_skips c rest (by rw [if_neg h])

theorem normalizeEli_skips_of_split (c : Char) (rest : List Char)
    (h : splitEliSeg (rest.drop 4) = none) :
    normalizeEliToFrench (c :: rest) = c :: normalizeEliToFrench rest := by
  apply normalizeEli_skips
  split
  · exact h
  · rfl

/-- `splitEliSeg` fails on the empty list and on a leading slash. -/
theorem splitEliSeg_nil : splitEliSeg [] = none := rfl

theorem dropWhile_head_false (p : Char → Bool) (l : List Char) (d : Char)
    (tl : List Char) (h : l.dropWhile p = d :: tl) : p d = false := by
  induction l with
  | nil => simp [List.dropWhile] at h
  | cons a l ih =>
    rw [List.dropWhile_cons] at h
    split at h
    · exact ih h
    · rename_i hpa
      injection h with h1 _
      subst h1
      simpa using hpa

theorem splitEliSeg_slash_head (r : List Char) (h : r.head? = some '/') :
    splitEliSeg r = none := by
  rcases r with _ | ⟨d, r2⟩
  · rfl
  · have hd : d = '/' := by simpa using h
    subst hd
    unfold splitEliSeg
    simp [List.span_eq_take_drop, List.takeWhile_cons]

/-- The three ways `splitEliSeg` can fail. -/
theorem splitEliSeg_none_cases (r : List Char) (h : splitEliSeg r = none) :
    r = [] ∨ r.head? = some '/' ∨ ∀ x ∈ r, x ≠ '/' := by
  match r with
  | [] => exact Or.inl rfl
  | c :: r2 =>
    by_cases hc : c = '/'
    · exact Or.inr (Or.inl (by simp [hc]))
    · refine Or.inr (Or.inr ?_)
      unfold splitEliSeg at h
      simp only [List.span_eq_take_drop] at h
      split at h
      · -- the nonempty head contradicts an empty `takeWhile` prefix
        rename_i hnil
        rw [List.takeWhile_cons, if_pos (by simpa using hc)] at hnil
        simp at hnil
      · split at h
        · simp at h
        · rename_i hshape
          -- the suffix after the segment is neither `[]`-headed by a slash
          -- nor empty only if no slash occurs at all
          rcases hdw : (c :: r2).dropWhile (· ≠ '/') with _ | ⟨d, tl⟩
          · intro x hx
            have := (List.dropWhile_eq_nil_iff).1 hdw x hx
            simpa using this
          · exfalso
            have hd := dropWhile_head_false _ _ _ _ hdw
            have : d = '/' := by simpa using hd
            subst this
            exact hshape tl (by rw [hdw])

/-- Helper to split the scrutinee of `normalizeEliToFrench` when it fires. -/
theorem normalizeEli_scrutinee_some (c : Char) (rest seg after : List Char)
    (hscr : (if (c :: rest).take 5 = eliMarker then splitEliSeg (rest.drop 4)
             else none) = some (seg, after)) :
    (c :: rest).take 5 = eliMarker ∧ splitEliSeg (rest.drop 4) = some (seg, after) := by
  by_cases htake : (c :: rest).take 5 = eliMarker
  · rw [if_pos htake] at hscr; exact ⟨htake, hscr⟩
  · rw [if_neg htake] at hscr; simp at hscr

/-- Rewriting never affects the first character (`take 1` direction used in
the prefix chain). -/
theorem normalizeEli_take1 (m : List Char)
    (h : (normalizeEliToFrench m).take 1 = ['/']) : m.take 1 = ['/'] := by
  rcases m with _ | ⟨c, rest⟩
  · simp [normalizeEliToFrench] at h
  · have hh := normalizeEli_head (c :: rest)
    rcases hgo : normalizeEliToFrench (c :: rest) with _ | ⟨d, tl⟩
    · rw [hgo] at h; simp at h
    · rw [hgo] at h hh
      simp at h hh
      simp [hh.symm.trans h]

theorem normalizeEli_take2 (m : List Char)
    (h : (normalizeEliToFrench m).take 2 = ['i', '/']) : m.take 2 = ['i', '/'] := by
  rcases m with _ | ⟨c, rest⟩
  · simp [normalizeEliToFrench] at h
  · rcases hscr : (if (c :: rest).take 5 = eliMarker then splitEliSeg (rest.drop 4)
        else none) with _ | ⟨seg, after⟩
    · rw [normalizeEli_skips c rest hscr] at h
      rw [List.take_succ_cons] at h
      injection h with h1 h2
      subst h1
      rw [List.take_succ_cons, normalizeEli_take1 rest h2]
    · obtain ⟨htake, hsplit⟩ := normalizeEli_scrutinee_some c rest seg after hscr
      rw [normalizeEli_fires c rest seg after htake hsplit] at h
      simp [eliMarker] at h

theorem normalizeEli_take3 (m : List Char)
    (h : (normalizeEliToFrench m).take 3 = ['l', 'i', '/']) :
    m.take 3 = ['l', 'i', '/'] := by
  rcases m with _ | ⟨c, rest⟩
  · simp [normalizeEliToFrench] at h
  · rcases hscr : (if (c :: rest).take 5 = eliMarker then splitEliSeg (rest.drop 4)
        else none) with _ | ⟨seg, after⟩
    · rw [normalizeEli_skips c rest hscr] at h
      rw [List.take_succ_cons] at h
      injection h with h1 h2
      subst h1
      rw [List.take_succ_cons, normalizeEli_take2 rest h2]
    · obtain ⟨htake, hsplit⟩ := normalizeEli_scrutinee_some c rest seg after hscr
      rw [normalizeEli_fires c rest seg after htake hsplit] at h
      simp [eliMarker] at h

theorem normalizeEli_take4 (m : List Char)
    (h : (normalizeEliToFrench m).take 4 = ['e', 'l', 'i', '/']) :
    m.take 4 = ['e', 'l', 'i', '/'] := by
  rcases m with _ | ⟨c, rest⟩
  · simp [normalizeEliToFrench] at h
  · rcases hscr : (if (c :: rest).take 5 = eliMarker then splitEliSeg (rest.drop 4)
        else none) with _ | ⟨seg, after⟩
    · rw [normalizeEli_skips c rest hscr] at h
      rw [List.take_succ_cons] at h
      injection h with h1 h2
      subst h1
      rw [List.take_succ_cons, normalizeEli_take3 rest h2]
    · obtain ⟨htake, hsplit⟩ := normalizeEli_scrutinee_some c rest seg after hscr
      rw [normalizeEli_fires c rest seg after htake hsplit] at h
      simp [eliMarker] at h

/-- Idempotence: rewriting the leftmost `/eli/<segment>/` a second time
reproduces the first rewrite (the translated segment is a fixed point of the
table and the leftmost match position is unchanged). -/
theorem normalizeEli_idem (m : List Char) :
    normalizeEliToFrench (normalizeEliToFrench m) = normalizeEliToFrench m := by
  suffices H : ∀ n (m : List Char), m.length = n →
      normalizeEliToFrench (normalizeEliToFrench m) = normalizeEliToFrench m from
    H m.length m rfl
  intro n
  induction n using Nat.strong_induction_on with
  | _ n ih =>
  intro m hn
  rcases m with _ | ⟨c, rest⟩
  · rfl
  subst hn
  rcases hscr : (if (c :: rest).take 5 = eliMarker then splitEliSeg (rest.drop 4)
      else none) with _ | ⟨seg, after⟩
  · -- the head position does not match: rewriting happens inside `rest`, and
    -- the head position still does not match afterwards
    rw [normalizeEli_skips c rest hscr]
    have ihrest : normalizeEliToFrench (normalizeEliToFrench rest) =
        normalizeEliToFrench rest := ih rest.length (by simp) rest rfl
    suffices hscr2 : (if (c :: normalizeEliToFrench rest).take 5 = eliMarker then
        splitEliSeg ((normalizeEliToFrench rest).drop 4) else none) = none by
      rw [normalizeEli_skips c _ hscr2, ihrest]
    by_cases htake2 : (c :: normalizeEliToFrench rest).take 5 = eliMarker
    · rw [if_pos htake2]
      have hc : c = '/' := by
        have := congrArg List.head? htake2
        simpa [eliMarker] using this
      have hrest4' : (normalizeEliToFrench rest).take 4 = ['e', 'l', 'i', '/'] := by
        have h' := htake2
        rw [List.take_succ_cons] at h'
        have := congrArg List.tail h'
        simpa [eliMarker] using this
      have hrest4 : rest.take 4 = ['e', 'l', 'i', '/'] := normalizeEli_take4 rest hrest4'
      have htake : (c :: rest).take 5 = eliMarker := by
        rw [List.take_succ_cons, hc, hrest4]; rfl
      have hsplit : splitEliSeg (rest.drop 4) = none := by rwa [if_pos htake] at hscr
      obtain ⟨r, hr⟩ : ∃ r, rest = 'e' :: 'l' :: 'i' :: '/' :: r := by
        refine ⟨rest.drop 4, ?_⟩
        conv_lhs => rw [← List.take_append_drop 4 rest]
        rw [hrest4]; rfl
      have hsplitr : splitEliSeg r = none := by
        have : rest.drop 4 = r := by rw [hr]; rfl
        rwa [this] at hsplit
      have hgorest : normalizeEliToFrench rest =
          'e' :: 'l' :: 'i' :: normalizeEliToFrench ('/' :: r) := by
        rw [hr]
        rw [normalizeEli_skips_of_take 'e' _ (by simp [eliMarker])]
        rw [normalizeEli_skips_of_take 'l' _ (by simp [eliMarker])]
        rw [normalizeEli_skips_of_take 'i' _ (by simp [eliMarker])]
      rw [hgorest]
      show splitEliSeg ((normalizeEliToFrench ('/' :: r)).drop 1) = none
      rcases splitEliSeg_none_cases r hsplitr with hnil | hhead | hnos
      · subst hnil
        rw [normalizeEli_skips_of_take '/' [] (by simp [eliMarker])]
        rfl
      · -- `r` starts with a slash: the rewritten `r` still starts with one
        rcases r with _ | ⟨d, r2⟩
        · simp at hhead
        have hd : d = '/' := by simpa using hhead
        subst hd
        rw [normalizeEli_skips_of_take '/' ('/' :: r2) (by
          intro hcontra
          have := congrArg (fun l => l.get? 1) hcontra
          simp [eliMarker] at this)]
        simp only [List.drop_succ_cons, List.drop_zero]
        exact splitEliSeg_slash_head _ (by
          rw [normalizeEli_head]; rfl)
      · -- no slash in `r` at all: `r` is untouched
        have htk : ('/' :: r).take 5 ≠ eliMarker := by
          intro hcontra
          rcases hr4 : r.take 4 with _ | ⟨e1, t1⟩
          · rw [List.take_succ_cons, hr4] at hcontra; simp [eliMarker] at hcontra
          · have : r.take 4 = ['e', 'l', 'i', '/'] := by
              have := congrArg List.tail hcontra
              simpa [eliMarker] using this
            have hmem : ('/' : Char) ∈ r.take 4 := by rw [this]; simp
            have := List.take_subset 4 r hmem
            exact hnos '/' this rfl
        rw [normalizeEli_skips_of_take '/' r htk]
        simp only [List.drop_succ_cons, List.drop_zero]
        rw [normalizeEli_no_slash r hnos]
        exact hsplitr
    · rw [if_neg htake2]
  · -- the head position matches: the rewritten segment is a fixed point at
    -- the same position
    obtain ⟨htake, hsplit⟩ := normalizeEli_scrutinee_some c rest seg after hscr
    obtain ⟨hsegne, hsegns, _⟩ := splitEliSeg_some hsplit
    rw [normalizeEli_fires c rest seg after htake hsplit]
    have hbuild : splitEliSeg (('e' :: 'l' :: 'i' :: '/' ::
        (trEliType seg ++ '/' :: after)).drop 4) = some (trEliType seg, after) := by
      simpa using splitEliSeg_build (trEliType seg) after
        (trEliType_ne_nil seg hsegne) (trEliType_no_slash seg hsegns)
    have heq : eliMarker ++ trEliType seg ++ '/' :: after =
        '/' :: ('e' :: 'l' :: 'i' :: '/' :: (trEliType seg ++ '/' :: after)) := by
      simp [eliMarker]
    rw [heq, normalizeEli_fires '/' _ (trEliType seg) after (by simp [eliMarker]) hbuild,
        trEliType_idem]
    simp [eliMarker]

/-! ### Substring-split lemmas -/

theorem startsWithL_self_append (needle rest : List Char) :
    startsWithL needle (needle ++ rest) = true := by
  induction needle with
  | nil => rfl
  | cons a ps ih => simp [startsWithL, ih]

theorem startsWithL_extend (n l m : List Char) (h : startsWithL n l = true) :
    startsWithL n (l ++ m) = true := by
  induction n generalizing l with
  | nil => rfl
  | cons a ps ih =>
    rcases l with _ | ⟨c, l'⟩
    · simp [startsWithL] at h
    · simp [startsWithL] at h ⊢
      exact ⟨h.1, ih l' h.2⟩

theorem includesSub_cons (needle : List Char) (c : Char) (rest : List Char) :
    includesSub needle (c :: rest) =
      (startsWithL needle (c :: rest) || includesSub needle rest) := by
  unfold includesSub
  rw [splitFirstSub]
  split
  · rename_i hs; simp [hs]
  · rename_i hs
    simp only [Bool.false_or, eq_self_iff_true, hs]
    rcases h2 : splitFirstSub needle rest with _ | ⟨pre, post⟩
    · simp [hs]
    · simp [hs]

theorem includesSub_cons_of (needle rest : List Char) (c : Char)
    (h : includesSub needle rest = true) : includesSub needle (c :: rest) = true := by
  unfold includesSub at h ⊢
  rw [splitFirstSub]
  split
  · simp
  · rcases hs : splitFirstSub needle rest with _ | ⟨pre, post⟩
    · rw [hs] at h; simp at h
    · simp [hs]

theorem includesSub_of_starts (needle rest : List Char)
    (h : startsWithL needle rest = true) : includesSub needle rest = true := by
  unfold includesSub
  rcases rest with _ | ⟨c, tl⟩
  · rcases needle with _ | _
    · rfl
    · simp [startsWithL] at h
  · rw [splitFirstSub, if_pos h]
    simp

/-- `startsWithL` gives a prefix decomposition. -/
theorem startsWithL_decomp {needle l : List Char} (h : startsWithL needle l = true) :
    l = needle ++ l.drop needle.length := by
  induction needle generalizing l with
  | nil => simp
  | cons a ps ih =>
    rcases l with _ | ⟨c, l'⟩
    · simp [startsWithL] at h
    · simp [startsWithL] at h
      obtain ⟨rfl, h'⟩ := h
      simpa using ih h'

/-- Decompose a successful first-occurrence split (nonempty needles). -/
theorem splitFirstSub_some {needle hay pre post : List Char} (hne : needle ≠ [])
    (h : splitFirstSub needle hay = some (pre, post)) :
    hay = pre ++ needle ++ post ∧ includesSub needle pre = false := by
  induction hay generalizing pre with
  | nil =>
    rw [splitFirstSub] at h
    rw [if_neg hne] at h
    simp at h
  | cons c rest ih =>
    rw [splitFirstSub] at h
    split at h
    · rename_i hst
      simp at h
      obtain ⟨rfl, rfl⟩ := h
      refine ⟨by simpa using startsWithL_decomp hst, ?_⟩
      simp [includesSub, splitFirstSub, hne]
    · rename_i hnst
      rcases hs : splitFirstSub needle rest with _ | ⟨pre', post'⟩
      · rw [hs] at h; simp at h
      · rw [hs] at h
        simp at h
        obtain ⟨rfl, rfl⟩ := h
        obtain ⟨hdec, hninc⟩ := ih hs
        refine ⟨by simp [hdec], ?_⟩
        rw [includesSub_cons]
        have h1 : startsWithL needle (c :: pre') = false := by
          by_contra hcon
          simp only [Bool.not_eq_false] at hcon
          have : startsWithL needle ((c :: pre') ++ (needle ++ post')) = true :=
            startsWithL_extend _ _ _ hcon
          exact hnst (by
            have heq : c :: rest = (c :: pre') ++ (needle ++ post') := by simp [hdec]
            rw [heq]; exact this)
        simp [h1, hninc]

/-- Rebuild: splitting `pre ++ urlSep ++ rest` at the first occurrence gives
back `(pre, rest)` when `://` does not occur in `pre` (it cannot straddle
the boundary: a straddling match would need `:` and `/` to coincide). -/
theorem splitFirstSub_build_sep (pre rest : List Char)
    (hpre : includesSub urlSep pre = false) :
    splitFirstSub urlSep (pre ++ urlSep ++ rest) = some (pre, rest) := by
  induction pre with
  | nil =>
    show splitFirstSub urlSep (urlSep ++ rest) = some ([], rest)
    rw [show urlSep ++ rest = ':' :: ('/' :: '/' :: rest) from rfl, splitFirstSub,
        if_pos (by exact startsWithL_self_append urlSep rest)]
    rfl
  | cons c pre' ih =>
    rw [includesSub_cons] at hpre
    simp only [Bool.or_eq_false_iff] at hpre
    obtain ⟨hst, hpre'⟩ := hpre
    rw [List.cons_append, List.cons_append, splitFirstSub]
    have hnost : startsWithL urlSep (c :: (pre' ++ urlSep ++ rest)) = false := by
      rcases pre' with _ | ⟨d1, pre''⟩
      · simp [urlSep, startsWithL]
      · rcases pre'' with _ | ⟨d2, pre''⟩
        · simp [urlSep, startsWithL]
        · simp only [urlSep, startsWithL, List.cons_append] at hst ⊢
          simp at hst ⊢
          intro h1 h2 h3
          exact hst h1 h2 h3
    rw [hnost]
    simp only [Bool.false_eq_true, if_false]
    rw [ih hpre']

/-! ### Round-tripping `parseUrl ∘ serializeUrl` -/

/-- Occurrences survive surrounding context. -/
theorem includesSub_of_decomp (n p q : List Char) :
    includesSub n (p ++ n ++ q) = true := by
  induction p with
  | nil =>
    exact includesSub_of_starts n (n ++ q) (startsWithL_self_append n q)
  | cons c p' ih => exact includesSub_cons_of n _ c (by simpa using ih)

theorem takeWhile_append_frontier (p : Char → Bool) (xs ys : List Char)
    (h1 : ∀ x ∈ xs, p x = true) (h2 : ∀ y, ys.head? = some y → p y = false) :
    (xs ++ ys).takeWhile p = xs := by
  induction xs with
  | nil =>
    rcases ys with _ | ⟨y, ys'⟩
    · rfl
    · simp [List.takeWhile_cons, h2 y rfl]
  | cons x xs ih =>
    rw [List.cons_append, List.takeWhile_cons, if_pos (h1 x (by simp))]
    rw [ih (fun x hx => h1 x (by simp [hx]))]

theorem splitAmp_no_amp (seg : List Char) (h : ∀ c ∈ seg, c ≠ '&') :
    splitAmp seg = [seg] := by
  induction seg with
  | nil => rfl
  | cons c seg' ih =>
    rw [splitAmp, if_neg (by simpa using h c (by simp)), ih (fun x hx => h x (by simp [hx]))]

theorem splitAmp_append (seg rest : List Char) (h : ∀ c ∈ seg, c ≠ '&') :
    splitAmp (seg ++ '&' :: rest) = seg :: splitAmp rest := by
  induction seg with
  | nil => simp [splitAmp]
  | cons c seg' ih =>
    rw [List.cons_append, splitAmp, if_neg (by simpa using h c (by simp)),
        ih (fun x hx => h x (by simp [hx]))]

theorem parsePair_build (k v : List Char) (h : ∀ c ∈ k, c ≠ '=') :
    parsePair (k ++ '=' :: v) = (k, v) := by
  unfold parsePair
  rw [takeWhile_append_frontier _ k ('=' :: v) (by simpa using h)
      (fun y hy => by simp at hy; subst hy; simp)]
  rw [List.drop_left]
  rfl

theorem parseParams_joinAmp (ps : List (List Char × List Char))
    (h : ps.all wfPair = true) :
    parseParams (joinAmp (ps.map (fun p => p.1 ++ '=' :: p.2))) = ps := by
  induction ps with
  | nil => rfl
  | cons p ps' ih =>
    simp only [List.all_cons, Bool.and_eq_true] at h
    obtain ⟨hp, hps'⟩ := h
    have hp' : (p.1.all (fun c => c ≠ '&' && c ≠ '=')) = true ∧
        (p.2.all (· ≠ '&')) = true := by simpa [wfPair] using hp
    have hk : ∀ c ∈ p.1, c ≠ '&' ∧ c ≠ '=' := by
      intro c hc
      have := List.all_eq_true.1 hp'.1 c hc
      simpa using this
    have hv : ∀ c ∈ p.2, c ≠ '&' := by
      intro c hc
      have := List.all_eq_true.1 hp'.2 c hc
      simpa using this
    have hseg : ∀ c ∈ p.1 ++ '=' :: p.2, c ≠ '&' := by
      intro c hc
      rcases List.mem_append.1 hc with h1 | h1
      · exact (hk c h1).1
      · rcases List.mem_cons.1 h1 with rfl | h2
        · decide
        · exact hv c h2
    rcases ps' with _ | ⟨q, qs⟩
    · show parseParams (p.1 ++ '=' :: p.2) = [p]
      unfold parseParams
      rw [splitAmp_no_amp _ hseg]
      have hne : p.1 ++ '=' :: p.2 ≠ [] := by simp
      rw [List.filter_cons, if_pos (by simpa using hne)]
      simp [parsePair_build p.1 p.2 (fun c hc => (hk c hc).2)]
    · show parseParams ((p.1 ++ '=' :: p.2) ++ '&' ::
          joinAmp ((q :: qs).map (fun p => p.1 ++ '=' :: p.2))) = p :: q :: qs
      unfold parseParams
      rw [splitAmp_append _ _ hseg]
      have hne : p.1 ++ '=' :: p.2 ≠ [] := by simp
      rw [List.filter_cons, if_pos (by simpa using hne)]
      rw [List.map_cons]
      rw [parsePair_build p.1 p.2 (fun c hc => (hk c hc).2)]
      have := ih hps'
      unfold parseParams at this
      rw [this]

theorem parse_serialize_mk (sc ho pa : List Char) (pr : List (List Char × List Char))
    (h : wfUrl ⟨sc, ho, pa, pr⟩ = true) :
    parseUrl (serializeUrl ⟨sc, ho, pa, pr⟩) = some ⟨sc, ho, pa, pr⟩ := by
  simp only [wfUrl, Bool.and_eq_true, decide_eq_true_eq, Bool.not_eq_true'] at h
  obtain ⟨⟨⟨⟨⟨hs1, hs2⟩, hh⟩, hp1⟩, hp2⟩, hq⟩ := h
  have hh' := List.all_eq_true.1 hh
  have hp2' := List.all_eq_true.1 hp2
  unfold serializeUrl parseUrl
  simp only
  have hassoc : sc ++ urlSep ++ ho ++ pa ++
      (if pr = [] then []
       else '?' :: joinAmp (pr.map (fun p => p.1 ++ '=' :: p.2))) =
      sc ++ urlSep ++ (ho ++ (pa ++
      (if pr = [] then []
       else '?' :: joinAmp (pr.map (fun p => p.1 ++ '=' :: p.2))))) := by
    simp [List.append_assoc]
  rw [hassoc, splitFirstSub_build_sep sc _ hs2]
  simp only [if_neg hs1]
  have hhost : (ho ++ (pa ++
      (if pr = [] then []
       else '?' :: joinAmp (pr.map (fun p => p.1 ++ '=' :: p.2))))).takeWhile
      (fun c => c ≠ '/' && c ≠ '?') = ho := by
    apply takeWhile_append_frontier
    · exact hh'
    · intro y hy
      rcases hpath : pa with _ | ⟨pc, ptl⟩
      · rw [hpath] at hp1; simp at hp1
      · have hpc : pc = '/' := by rw [hpath] at hp1; simpa using hp1
        subst hpc
        rw [hpath] at hy
        simp at hy
        subst hy
        simp
  rw [hhost, List.drop_left]
  have hpathtw : (pa ++
      (if pr = [] then []
       else '?' :: joinAmp (pr.map (fun p => p.1 ++ '=' :: p.2)))).takeWhile
      (· ≠ '?') = pa := by
    apply takeWhile_append_frontier
    · exact hp2'
    · intro y hy
      split at hy
      · simp at hy
      · simp at hy
        subst hy
        simp
  rw [hpathtw, List.drop_left]
  have hpne : pa ≠ [] := by
    intro hcon; rw [hcon] at hp1; simp at hp1
  rw [if_neg hpne]
  by_cases hps : pr = []
  · subst hps
    simp [parseParams, splitAmp]
  · rw [if_neg hps]
    simp only [List.drop_succ_cons, List.drop_zero]
    rw [parseParams_joinAmp pr hq]

theorem parse_serialize (u : JsUrl) (h : wfUrl u = true) :
    parseUrl (serializeUrl u) = some u := by
  obtain ⟨sc, ho, pa, pr⟩ := u
  exact parse_serialize_mk sc ho pa pr h

/-! ### `parseUrl` outputs are well-formed; the `cgi` rewrite preserves
well-formedness -/

theorem drop_length_takeWhile (p : Char → Bool) (l : List Char) :
    l.drop (l.takeWhile p).length = l.dropWhile p := by
  calc l.drop (l.takeWhile p).length
      = (l.takeWhile p ++ l.dropWhile p).drop (l.takeWhile p).length := by
        rw [List.takeWhile_append_dropWhile]
    _ = l.dropWhile p := List.drop_left _ _

theorem splitAmp_ne_nil (q : List Char) : splitAmp q ≠ [] := by
  induction q with
  | nil => simp [splitAmp]
  | cons c q' ih =>
    rw [splitAmp]
    split
    · simp
    · rcases h : splitAmp q' with _ | ⟨seg, segs⟩ <;> simp

theorem splitAmp_mem_no_amp (q : List Char) :
    ∀ seg ∈ splitAmp q, ∀ c ∈ seg, c ≠ '&' := by
  induction q with
  | nil =>
    intro seg hseg c hc
    simp [splitAmp] at hseg
    subst hseg
    simp at hc
  | cons a q' ih =>
    intro seg hseg c hc
    rw [splitAmp] at hseg
    split at hseg
    · rcases List.mem_cons.1 hseg with rfl | h2
      · simp at hc
      · exact ih seg h2 c hc
    · rename_i hne
      rcases hsp : splitAmp q' with _ | ⟨seg0, segs⟩
      · exact absurd hsp (splitAmp_ne_nil q')
      · rw [hsp] at hseg
        rcases List.mem_cons.1 hseg with rfl | h2
        · rcases List.mem_cons.1 hc with rfl | h3
          · simpa using hne
          · exact ih seg0 (by rw [hsp]; simp) c h3
        · exact ih seg (by rw [hsp]; simp [h2]) c hc

theorem parseParams_wf (q : List Char) : (parseParams q).all wfPair = true := by
  rw [List.all_eq_true]
  intro pair hpair
  unfold parseParams at hpair
  rw [List.mem_map] at hpair
  obtain ⟨kv, hkv, rfl⟩ := hpair
  have hkvmem : kv ∈ splitAmp q := List.mem_of_mem_filter hkv
  have hnoamp : ∀ c ∈ kv, c ≠ '&' := splitAmp_mem_no_amp q kv hkvmem
  unfold wfPair parsePair
  simp only [Bool.and_eq_true, List.all_eq_true]
  constructor
  · intro c hc
    have hmem : c ∈ kv := List.takeWhile_subset _ hc
    have heq : c ≠ '=' := by simpa using List.mem_takeWhile_imp hc
    simp [hnoamp c hmem, heq]
  · intro c hc
    have hmem : c ∈ kv := List.drop_subset _ _ (List.drop_subset _ _ hc)
    simp [hnoamp c hmem]

theorem parseUrl_wf (s : List Char) (u : JsUrl) (h : parseUrl s = some u) :
    wfUrl u = true := by
  unfold parseUrl at h
  rcases hsp : splitFirstSub urlSep s with _ | ⟨scheme, rest⟩
  · rw [hsp] at h; simp at h
  · rw [hsp] at h
    split at h
    · simp_all
    · rename_i sch rst hpair
      obtain ⟨rfl, rfl⟩ : scheme = sch ∧ rest = rst := by
        simpa using hpair
      split at h
      · simp at h
      rename_i hsne
      simp only [Option.some_inj] at h
      subst h
      obtain ⟨hdec, hninc⟩ := splitFirstSub_some (by decide) hsp
      have hrest2 : rest.drop (rest.takeWhile
          (fun c => c ≠ '/' && c ≠ '?')).length =
          rest.dropWhile (fun c => c ≠ '/' && c ≠ '?') := drop_length_takeWhile _ rest
      simp only [wfUrl, Bool.and_eq_true, decide_eq_true_eq, Bool.not_eq_true']
      refine ⟨⟨⟨⟨⟨hsne, hninc⟩, ?_⟩, ?_⟩, ?_⟩, parseParams_wf _⟩
      · rw [List.all_eq_true]
        intro x hx
        simpa using List.mem_takeWhile_imp hx
      · -- the path starts with a slash
        rw [hrest2]
        rcases hdw : rest.dropWhile (fun c => c ≠ '/' && c ≠ '?') with _ | ⟨d, tl⟩
        · simp
        · have hd := dropWhile_head_false _ _ _ _ hdw
          simp only [Bool.and_eq_false_iff] at hd
          rcases hd with hd | hd
          · have : d = '/' := by simpa using hd
            subst this
            rw [List.takeWhile_cons]
            simp
          · have : d = '?' := by simpa using hd
            subst this
            rw [List.takeWhile_cons]
            simp
      · split
        · simp
        · rw [List.all_eq_true]
          intro x hx
          simpa using List.mem_takeWhile_imp hx

theorem setParam_go_wf (ps : List (List Char × List Char)) (k v : List Char)
    (b : Bool) (hps : ps.all wfPair = true) (hkv : wfPair (k, v) = true) :
    (setParam.go k v ps b).all wfPair = true := by
  induction ps generalizing b with
  | nil =>
    unfold setParam.go
    split <;> simp [hkv]
  | cons p ps' ih =>
    simp only [List.all_cons, Bool.and_eq_true] at hps
    unfold setParam.go
    rcases p with ⟨k2, v2⟩
    split
    · split
      · exact ih true hps.2
      · simp [hkv, ih true hps.2]
    · simp [hps.1, ih b hps.2]

theorem setParam_wf (ps : List (List Char × List Char)) (k v : List Char)
    (hps : ps.all wfPair = true) (hkv : wfPair (k, v) = true) :
    (setParam ps k v).all wfPair = true :=
  setParam_go_wf ps k v false hps hkv

/-- The Dutch→French table only produces `&`-free, `=`-free values. -/
theorem eliTable_value_wfPair (tn fr : List Char)
    (h : ELI_TYPE_NL_TO_FR.lookup tn = some fr) :
    wfPair ("table_name".toList, fr) = true := by
  simp only [ELI_TYPE_NL_TO_FR, List.map, List.lookup] at h
  repeat' split at h
  all_goals
    first
      | (injection h with h; subst h; decide)
      | exact absurd h (by simp)

theorem cgiWet_toList : "cgi_wet".toList = ['c', 'g', 'i', '_', 'w', 'e', 't'] := rfl

theorem cgiLoi_toList : "cgi_loi".toList = ['c', 'g', 'i', '_', 'l', 'o', 'i'] := rfl

/-- Rewriting `cgi_wet` in a well-formed path keeps it well-formed and
plants `cgi_loi` in it. -/
theorem replace_cgi_path (pa : List Char)
    (hp1 : pa.head? = some '/') (hp2 : pa.all (· ≠ '?') = true)
    (hinc : includesSub "cgi_wet".toList pa = true) :
    (replaceFirstSub "cgi_wet".toList "cgi_loi".toList pa).head? = some '/' ∧
    (replaceFirstSub "cgi_wet".toList "cgi_loi".toList pa).all (· ≠ '?') = true ∧
    includesSub "cgi_loi".toList
      (replaceFirstSub "cgi_wet".toList "cgi_loi".toList pa) = true := by
  unfold includesSub at hinc
  rcases hsp : splitFirstSub "cgi_wet".toList pa with _ | ⟨pre, post⟩
  · rw [hsp] at hinc; simp at hinc
  · obtain ⟨hdecomp, _⟩ := splitFirstSub_some (by decide) hsp
    unfold replaceFirstSub
    rw [hsp]
    have hpre_ne : pre ≠ [] := by
      intro hcon
      subst hcon
      rw [hdecomp, cgiWet_toList] at hp1
      simp at hp1
    refine ⟨?_, ?_, ?_⟩
    · rcases pre with _ | ⟨p0, pre'⟩
      · exact absurd rfl hpre_ne
      · have : p0 = '/' := by
          rw [hdecomp] at hp1
          simpa using hp1
        simp [this]
    · rw [List.all_eq_true]
      intro x hx
      rcases List.mem_append.1 hx with h1 | h1
      · rcases List.mem_append.1 h1 with h2 | h2
        · have : x ∈ pa := by
            rw [hdecomp]
            exact List.mem_append_left _ (List.mem_append_left _ h2)
          exact List.all_eq_true.1 hp2 x this
        · rw [cgiLoi_toList] at h2
          fin_cases h2 <;> decide
      · have : x ∈ pa := by
          rw [hdecomp]
          exact List.mem_append_right _ h1
        exact List.all_eq_true.1 hp2 x this
    · exact includesSub_of_decomp _ pre post

theorem cgiParamStep_wf (ps : List (List Char × List Char)) (k expected v : List Char)
    (h : ps.all wfPair = true) (hkv : wfPair (k, v) = true) :
    (cgiParamStep ps k expected v).all wfPair = true := by
  unfold cgiParamStep
  split
  · exact setParam_wf _ _ _ h hkv
  · exact h

theorem cgiTableStep_wf (ps : List (List Char × List Char))
    (h : ps.all wfPair = true) : (cgiTableStep ps).all wfPair = true := by
  unfold cgiTableStep
  split
  · rename_i tn htn
    split
    · split
      · rename_i fr hfr
        exact setParam_wf _ _ _ h (eliTable_value_wfPair tn fr hfr)
      · exact h
    · exact h
  · exact h

theorem rewriteCgiParams_wf (ps : List (List Char × List Char))
    (h : ps.all wfPair = true) : (rewriteCgiParams ps).all wfPair = true :=
  cgiTableStep_wf _ (cgiParamStep_wf _ _ _ _ (cgiParamStep_wf _ _ _ _ h (by decide))
    (by decide))

/-- The path/params facts packed in `wfUrl`. -/
theorem wfUrl_parts (u : JsUrl) (h : wfUrl u = true) :
    u.pathname.head? = some '/' ∧ u.pathname.all (· ≠ '?') = true ∧
    u.params.all wfPair = true := by
  simp only [wfUrl, Bool.and_eq_true, decide_eq_true_eq] at h
  exact ⟨h.1.1.2, h.1.2, h.2⟩

theorem wfUrl_rest (u : JsUrl) (h : wfUrl u = true) :
    u.scheme ≠ [] ∧ includesSub urlSep u.scheme = false ∧
    u.host.all (fun c => c ≠ '/' && c ≠ '?') = true := by
  simp only [wfUrl, Bool.and_eq_true, decide_eq_true_eq, Bool.not_eq_true'] at h
  exact ⟨h.1.1.1.1.1, h.1.1.1.1.2, h.1.1.1.2⟩

theorem rewriteCgi_wf (p : JsUrl) (h : wfUrl p = true) :
    wfUrl (rewriteCgi p) = true := by
  unfold rewriteCgi
  split
  · rename_i hwet
    obtain ⟨hp1, hp2, hq⟩ := wfUrl_parts p h
    obtain ⟨hs1, hs2, hh⟩ := wfUrl_rest p h
    obtain ⟨hr1, hr2, _⟩ := replace_cgi_path p.pathname hp1 hp2 hwet
    simp only [wfUrl, Bool.and_eq_true, decide_eq_true_eq, Bool.not_eq_true']
    exact ⟨⟨⟨⟨⟨hs1, hs2⟩, hh⟩, hr1⟩, hr2⟩, rewriteCgiParams_wf _ hq⟩
  · exact h

/-- A substring occurrence in `x` survives into `a ++ x ++ b`. -/
theorem includesSub_append_of (n x a b : List Char) (hne : n ≠ [])
    (h : includesSub n x = true) : includesSub n (a ++ x ++ b) = true := by
  unfold includesSub at h
  rcases hsp : splitFirstSub n x with _ | ⟨pre, post⟩
  · rw [hsp] at h; simp at h
  · obtain ⟨hdec, _⟩ := splitFirstSub_some hne hsp
    have : a ++ x ++ b = (a ++ pre) ++ n ++ (post ++ b) := by
      rw [hdec]; simp
    rw [this]
    exact includesSub_of_decomp n (a ++ pre) (post ++ b)

/-- The path is a contiguous piece of the serialized URL. -/
theorem includesSub_serialize_of_path (n : List Char) (u : JsUrl) (hne : n ≠ [])
    (h : includesSub n u.pathname = true) :
    includesSub n (serializeUrl u) = true := by
  unfold serializeUrl
  have : u.scheme ++ urlSep ++ u.host ++ u.pathname ++
      (if u.params = [] then []
       else '?' :: joinAmp (u.params.map (fun p => p.1 ++ '=' :: p.2))) =
      (u.scheme ++ urlSep ++ u.host) ++ u.pathname ++
      (if u.params = [] then []
       else '?' :: joinAmp (u.params.map (fun p => p.1 ++ '=' :: p.2))) := by
    simp [List.append_assoc]
  rw [this]
  exact includesSub_append_of n u.pathname _ _ hne h

/-- After the rewrite, the path mentions `cgi_loi` whenever the original
path passed the acceptance test. -/
theorem rewriteCgi_path_loi (p : JsUrl) (h : wfUrl p = true)
    (hcond : (includesSub "cgi_loi".toList p.pathname ||
              includesSub "cgi_wet".toList p.pathname) = true) :
    includesSub "cgi_loi".toList (rewriteCgi p).pathname = true := by
  unfold rewriteCgi
  split
  · rename_i hwet
    obtain ⟨hp1, hp2, _⟩ := wfUrl_parts p h
    exact (replace_cgi_path p.pathname hp1 hp2 hwet).2.2
  · rename_i hnowet
    simp only [Bool.or_eq_true] at hcond
    rcases hcond with hloi | hwet
    · exact hloi
    · exact absurd hwet hnowet

/-- Evaluation of `normalizeCgiUrl` once the URL parses. -/
theorem normalizeCgiUrl_eq_of_parse (s : List Char) (p : JsUrl)
    (hp : parseUrl s = some p) :
    normalizeCgiUrl s =
      if (!includesSub "cgi_loi".toList p.pathname &&
          !includesSub "cgi_wet".toList p.pathname) = true then none
      else some (serializeUrl (rewriteCgi p)) := by
  unfold normalizeCgiUrl
  rw [hp]

/-- Second application of `normalizeCgiUrl` on an accepted URL's output: the
output is reproduced verbatim provided its path no longer mentions
`cgi_wet` (without that proviso a second `cgi_wet` occurrence would be
rewritten again). -/
theorem normalizeCgiUrl_idem (url out : List Char)
    (h : normalizeCgiUrl url = some out)
    (hw : includesSub "cgi_wet".toList out = false) :
    normalizeCgiUrl out = some out := by
  rcases hp : parseUrl url with _ | ⟨parsed⟩
  · rw [normalizeCgiUrl, hp] at h; simp at h
  · rw [normalizeCgiUrl_eq_of_parse url parsed hp] at h
    split at h
    · simp at h
    rename_i hcond
    injection h with h
    subst h
    have hwf : wfUrl parsed = true := parseUrl_wf url parsed hp
    have hwf2 : wfUrl (rewriteCgi parsed) = true := rewriteCgi_wf parsed hwf
    have hparse2 : parseUrl (serializeUrl (rewriteCgi parsed)) =
        some (rewriteCgi parsed) := parse_serialize _ hwf2
    have hcond' : (includesSub "cgi_loi".toList parsed.pathname ||
        includesSub "cgi_wet".toList parsed.pathname) = true := by
      by_contra hcon
      simp only [Bool.or_eq_true, not_or, Bool.not_eq_true] at hcon
      exact hcond (by rw [hcon.1, hcon.2]; rfl)
    have hloi : includesSub "cgi_loi".toList (rewriteCgi parsed).pathname = true :=
      rewriteCgi_path_loi parsed hwf hcond'
    have hwet2 : includesSub "cgi_wet".toList (rewriteCgi parsed).pathname = false := by
      by_contra hcon
      simp only [Bool.not_eq_false] at hcon
      have := includesSub_serialize_of_path _ (rewriteCgi parsed) (by decide) hcon
      rw [hw] at this
      simp at this
    rw [normalizeCgiUrl_eq_of_parse _ _ hparse2]
    rw [if_neg (by rw [hloi]; simp)]
    have hfix : rewriteCgi (rewriteCgi parsed) = rewriteCgi parsed := by
      rw [rewriteCgi]
      rw [if_neg (by rw [hwet2]; simp)]
    rw [hfix]

/-! ## Claim C7 — idempotence of identifier canonicalization -/

/-- **C7, counterexample.**  The claim "for every URL accepted by the
legacy-URL canonicalizer, applying it to its own output returns that output
unchanged" fails on the code: a path containing `cgi_wet` twice is accepted,
but only the first occurrence is rewritten, so the second application
rewrites again. -/
theorem C7_counterexample :
    normalizeCgiUrl "https://h/cgi_wet/cgi_wet/x".toList =
      some "https://h/cgi_loi/cgi_wet/x".toList ∧
    normalizeCgiUrl "https://h/cgi_loi/cgi_wet/x".toList ≠
      some "https://h/cgi_loi/cgi_wet/x".toList := by
  constructor
  · decide
  · decide

/-- **C7 (amended).**  ELI normalization is idempotent on every string, and
the legacy-URL canonicalizer applied to its own output returns that output
unchanged for every accepted URL whose canonical output no longer mentions
`cgi_wet` (the counterexample shows the proviso is necessary). -/
theorem C7_identifier_normalization_idempotent :
    (∀ x : List Char,
      normalizeEliToFrench (normalizeEliToFrench x) = normalizeEliToFrench x) ∧
    (∀ url out : List Char, normalizeCgiUrl url = some out →
      includesSub "cgi_wet".toList out = false →
      normalizeCgiUrl out = some out) :=
  ⟨normalizeEli_idem, normalizeCgiUrl_idem⟩

/-- **C7, witness.**  The amended claim applied to concrete identifiers. -/
theorem C7_witness :
    normalizeEliToFrench (normalizeEliToFrench "https://x/eli/wet/1984/s".toList) =
      normalizeEliToFrench "https://x/eli/wet/1984/s".toList ∧
    normalizeCgiUrl "https://h/cgi_loi/a?language=fr".toList =
      some "https://h/cgi_loi/a?language=fr".toList :=
  ⟨C7_identifier_normalization_idempotent.1 _,
   C7_identifier_normalization_idempotent.2
     "https://h/cgi_wet/a?language=nl".toList
     "https://h/cgi_loi/a?language=fr".toList (by decide) (by decide)⟩

/-! ## Claim C1 — end-to-end article extraction -/

/-- **C1.**  For the three specification inputs, extracting the articles
substring via the pattern cascade and normalizing it yields exactly the
spec's end-to-end results: the domestic citation keeps its base number
(`14`); the international instrument's two-segment dotted form collapses to
its integer part (`6.3` → `6`); the domestic dotted form with four segments
is kept verbatim (`5.4.3.4`). -/
theorem C1_end_to_end_articles :
    extractLineArticlesS "Loi du 10-10-1967 - Art. 14, § 7 - 23" = some ["14"] ∧
    extractLineArticlesS "Protocole n° 1 - 04-11-1950 - Art. 6.3 - 02" = some ["6"] ∧
    extractLineArticlesS "Code civil - 08-12-1992 - Art. 5.4.3.4" = some ["5.4.3.4"] := by
  refine ⟨?_, ?_, ?_⟩ <;> decide

theorem lookup_aupsert_self {β : Type} (l : List (List Char × β)) (k : List Char)
    (v : β) : List.lookup k (aupsert l k v) = some v := by
  induction l with
  | nil => simp [aupsert, List.lookup]
  | cons p rest ih =>
    rcases p with ⟨k2, v2⟩
    rw [aupsert]
    split
    · simp [List.lookup]
    · rename_i hne
      rw [List.lookup]
      have heq : (k == k2) = false := by
        rw [beq_eq_false_iff_ne]
        exact fun hcon => hne hcon.symm
      rw [heq]
      exact ih

/-- Evaluating one store commit at its own key. -/
theorem storeOneBasis_at (j : Judgement) (entry : AbstractEntry) (u : JVal)
    (st : Store) (base : BasisRef) (hne : base.eli ≠ []) :
    storeRecordAt (storeOneBasis j entry u st base) base.eli base.article j.ecli =
    some { court := j.court
           date := j.judgementDate
           roleNumber := j.roleNumber
           sitemap := mergeArrays
             (match storeRecordAt st base.eli base.article j.ecli with
              | some r => r.sitemap | none => .null) u
           abstractFR := mergeArrays
             (match storeRecordAt st base.eli base.article j.ecli with
              | some r => r.abstractFR | none => .null) entry.abstractFR
           abstractNL := mergeArrays
             (match storeRecordAt st base.eli base.article j.ecli with
              | some r => r.abstractNL | none => .null) entry.abstractNL } := by
  unfold storeOneBasis storeRecordAt
  rw [if_neg hne]
  rw [lookup_aupsert_self]
  simp only [Option.getD_some]
  rw [lookup_aupsert_self]
  simp only [Option.getD_some]
  rw [lookup_aupsert_self]

theorem storeJudgementData_single (j : Judgement) (entry : AbstractEntry)
    (u : JVal) (st : Store) (base : BasisRef)
    (h : entry.legalBases = [base]) :
    storeJudgementData j [entry] u st = storeOneBasis j entry u st base := by
  unfold storeJudgementData
  simp [h]

theorem mergeArrays_arr_str (xs : List (List Char)) (v : List Char) (hv : v ≠ []) :
    mergeArrays (.arr xs) (.str v) = .arr (addIfAbsent xs v) := by
  by_cases hmem : v ∈ xs
  · have hxs : xs ≠ [] := by rintro rfl; simp at hmem
    simp [mergeArrays, addIfAbsent, hmem, hxs]
  · simp [mergeArrays, addIfAbsent, hmem, hv]

theorem mergeArrays_null_null : mergeArrays .null .null = .null := rfl

theorem addIfAbsent_nodup (xs : List (List Char)) (v : List Char)
    (h : xs.Nodup) : (addIfAbsent xs v).Nodup := by
  unfold addIfAbsent
  split
  · exact h
  · rename_i hnm
    simpa [List.nodup_append] using ⟨h, hnm⟩

theorem addIfAbsent_mem (xs : List (List Char)) (v x : List Char) :
    x ∈ addIfAbsent xs v ↔ x ∈ xs ∨ x = v := by
  unfold addIfAbsent
  split
  · rename_i hmem
    constructor
    · exact Or.inl
    · rintro (h | rfl)
      · exact h
      · exact hmem
  · simp

theorem addIfAbsent_eq_self_of_mem (xs : List (List Char)) (v : List Char)
    (h : v ∈ xs) : addIfAbsent xs v = xs := if_pos h

/-- **C3.**  Committing a judgement record again under the same
`(identifier, article, judgement-id)` key with a different abstract string
produces the deduplicated union of abstract strings in the record's
per-language array, and committing once more with a string already present
leaves both abstract arrays unchanged. -/
theorem C3_store_merge_dedup (st : Store) (j : Judgement) (base : BasisRef)
    (u : JVal) (r0 : StoreRecord) (xs : List (List Char)) (a b : List Char)
    (hbase : base.eli ≠ []) (ha : a ≠ []) (hb : b ≠ [])
    (hr0 : storeRecordAt st base.eli base.article j.ecli = some r0)
    (hfr : r0.abstractFR = .arr xs) (hnodup : xs.Nodup)
    (hnl : r0.abstractNL = .null) :
    ∃ (ys : List (List Char)) (r2 r3 : StoreRecord),
      storeRecordAt
        (storeJudgementData j [⟨.str b, .null, [base], []⟩] u
          (storeJudgementData j [⟨.str a, .null, [base], []⟩] u st))
        base.eli base.article j.ecli = some r2 ∧
      r2.abstractFR = .arr ys ∧ ys.Nodup ∧
      (∀ x, x ∈ ys ↔ x ∈ xs ∨ x = a ∨ x = b) ∧
      storeRecordAt
        (storeJudgementData j [⟨.str a, .null, [base], []⟩] u
          (storeJudgementData j [⟨.str b, .null, [base], []⟩] u
            (storeJudgementData j [⟨.str a, .null, [base], []⟩] u st)))
        base.eli base.article j.ecli = some r3 ∧
      r3.abstractFR = r2.abstractFR ∧ r3.abstractNL = r2.abstractNL := by
  have step : ∀ (v : List Char) (st2 : Store) (cv dv rv sv fv nv : JVal),
      storeRecordAt st2 base.eli base.article j.ecli = some ⟨cv, dv, rv, sv, fv, nv⟩ →
      storeRecordAt (storeJudgementData j [⟨.str v, .null, [base], []⟩] u st2)
        base.eli base.article j.ecli =
      some ⟨j.court, j.judgementDate, j.roleNumber, mergeArrays sv u,
            mergeArrays fv (.str v), mergeArrays nv .null⟩ := by
    intro v st2 cv dv rv sv fv nv hr
    rw [storeJudgementData_single j _ u st2 base rfl,
        storeOneBasis_at j _ u st2 base hbase, hr]
  have hr0b : storeRecordAt st base.eli base.article j.ecli =
      some ⟨r0.court, r0.date, r0.roleNumber, r0.sitemap, .arr xs, .null⟩ := by
    rw [hr0, ← hfr, ← hnl]
  have h1 := step a st r0.court r0.date r0.roleNumber r0.sitemap (.arr xs) .null hr0b
  rw [mergeArrays_arr_str xs a ha, mergeArrays_null_null] at h1
  have h2 := step b _ j.court j.judgementDate j.roleNumber
    (mergeArrays r0.sitemap u) (.arr (addIfAbsent xs a)) .null h1
  rw [mergeArrays_arr_str _ b hb, mergeArrays_null_null] at h2
  have h3 := step a _ j.court j.judgementDate j.roleNumber
    (mergeArrays (mergeArrays r0.sitemap u) u)
    (.arr (addIfAbsent (addIfAbsent xs a) b)) .null h2
  rw [mergeArrays_arr_str _ a ha, mergeArrays_null_null] at h3
  have hmem_a : a ∈ addIfAbsent (addIfAbsent xs a) b := by
    rw [addIfAbsent_mem]
    exact Or.inl ((addIfAbsent_mem xs a a).mpr (Or.inr rfl))
  rw [addIfAbsent_eq_self_of_mem _ a hmem_a] at h3
  refine ⟨addIfAbsent (addIfAbsent xs a) b, _, _, h2, rfl,
    addIfAbsent_nodup _ b (addIfAbsent_nodup _ a hnodup), ?_, h3, rfl, rfl⟩
  intro x
  rw [addIfAbsent_mem, addIfAbsent_mem]
  tauto

theorem C3_witness :
    ∃ (ys : List (List Char)) (r2 r3 : StoreRecord),
      storeRecordAt
        (storeJudgementData ⟨['E'], .null, .null, .null⟩
          [⟨.str ['b'], .null, [⟨['7'], ['e']⟩], []⟩] .null
          (storeJudgementData ⟨['E'], .null, .null, .null⟩
            [⟨.str ['a'], .null, [⟨['7'], ['e']⟩], []⟩] .null
            [(eliToFilename ['e'],
              [(['7'], [(['E'],
                ⟨.null, .null, .null, .null, .arr [['p']], .null⟩)])])]))
        ['e'] ['7'] ['E'] = some r2 ∧
      r2.abstractFR = .arr ys ∧ ys.Nodup ∧
      (∀ x, x ∈ ys ↔ x ∈ [['p']] ∨ x = ['a'] ∨ x = ['b']) ∧
      storeRecordAt
        (storeJudgementData ⟨['E'], .null, .null, .null⟩
          [⟨.str ['a'], .null, [⟨['7'], ['e']⟩], []⟩] .null
          (storeJudgementData ⟨['E'], .null, .null, .null⟩
            [⟨.str ['b'], .null, [⟨['7'], ['e']⟩], []⟩] .null
            (storeJudgementData ⟨['E'], .null, .null, .null⟩
              [⟨.str ['a'], .null, [⟨['7'], ['e']⟩], []⟩] .null
              [(eliToFilename ['e'],
                [(['7'], [(['E'],
                  ⟨.null, .null, .null, .null, .arr [['p']], .null⟩)])])])))
        ['e'] ['7'] ['E'] = some r3 ∧
      r3.abstractFR = r2.abstractFR ∧ r3.abstractNL = r2.abstractNL :=
  C3_store_merge_dedup _ ⟨['E'], .null, .null, .null⟩ ⟨['7'], ['e']⟩
    .null ⟨.null, .null, .null, .null, .arr [['p']], .null⟩ [['p']]
    ['a'] ['b'] (by decide) (by decide) (by decide) (by rfl) rfl
    (by decide) rfl

/-! ### Digit-token facts for the normalizer -/

theorem lowerC_digit (c : Char) (h : isDigitC c = true) : lowerC c = c := by
  simp only [isDigitC, Bool.and_eq_true, decide_eq_true_eq] at h
  show (if c.toNat ≥ 65 ∧ c.toNat ≤ 90 then Char.ofNat (c.toNat + 32) else c) = c
  rw [if_neg (by omega)]

theorem digit_ne_of (c c0 : Char) (h : isDigitC c = true)
    (h0 : isDigitC c0 = false) : c ≠ c0 := by
  rintro rfl
  rw [h0] at h
  exact Bool.noConfusion h

theorem digit_not_space (c : Char) (h : isDigitC c = true) :
    isSpaceC c = false := by
  simp only [isSpaceC, decide_eq_false_iff_not]
  rintro (rfl | rfl | rfl | rfl | rfl | rfl) <;> exact absurd h (by decide)

theorem digit_not_letter (c : Char) (h : isDigitC c = true) :
    isAsciiLetterC c = false := by
  simp only [isDigitC, Bool.and_eq_true, decide_eq_true_eq] at h
  simp only [isAsciiLetterC, Bool.or_eq_false_iff, Bool.and_eq_false_iff,
    decide_eq_false_iff_not]
  omega

theorem digit_not_roman (c : Char) (h : isDigitC c = true) :
    isRomanC c = false := by
  simp only [isRomanC, lowerC_digit c h, Bool.or_eq_false_iff,
    decide_eq_false_iff_not]
  refine ⟨⟨⟨⟨⟨⟨?_, ?_⟩, ?_⟩, ?_⟩, ?_⟩, ?_⟩, ?_⟩ <;>
    exact digit_ne_of c _ h (by decide)

theorem takeWhile_all_true (p : Char → Bool) (l : List Char)
    (h : ∀ c ∈ l, p c = true) : l.takeWhile p = l := by
  induction l with
  | nil => rfl
  | cons c rest ih =>
    rw [List.takeWhile_cons, if_pos (h c (by simp))]
    rw [ih (fun x hx => h x (by simp [hx]))]

theorem takeWhile_head_false (p : Char → Bool) (c : Char) (l : List Char)
    (h : p c = false) : (c :: l).takeWhile p = [] := by
  rw [List.takeWhile_cons, if_neg (by simp [h])]

theorem dropWhile_all_false (p : Char → Bool) (l : List Char)
    (h : ∀ c ∈ l, p c = false) : l.dropWhile p = l := by
  cases l with
  | nil => rfl
  | cons c rest =>
    rw [List.dropWhile_cons, if_neg (by simp [h c (by simp)])]

theorem jsTrim_digits (l : List Char) (h : ∀ c ∈ l, isDigitC c = true) :
    jsTrim l = l := by
  unfold jsTrim
  rw [dropWhile_all_false _ l (fun c hc => digit_not_space c (h c hc)),
      dropWhile_all_false _ l.reverse
        (fun c hc => digit_not_space c (h c (List.mem_reverse.mp hc))),
      List.reverse_reverse]

theorem cutAtComma_no_comma (l : List Char) (h : ∀ c ∈ l, c ≠ ',') :
    cutAtComma l = l := by
  induction l with
  | nil => rfl
  | cons c rest ih =>
    rw [cutAtComma]
    rw [if_neg (by simp [h c (by simp)])]
    rw [ih (fun x hx => h x (by simp [hx]))]

theorem startsWithCI_cons_false (q0 : Char) (qs cs : List Char) (d : Char)
    (h : lowerC d ≠ lowerC q0) : startsWithCI (q0 :: qs) (d :: cs) = false := by
  simp [startsWithCI, h]

theorem isQualifierStart_digit (d : Char) (rest : List Char)
    (h : isDigitC d = true) : isQualifierStart (d :: rest) = false := by
  rw [isQualifierStart]
  rw [List.any_eq_false]
  intro q hq
  rw [isQualifierStart.qualAlts] at hq
  fin_cases hq <;>
    (rw [startsWithCI_cons_false _ _ _ _
       (by rw [lowerC_digit d h]; exact digit_ne_of d _ h (by decide))]
     simp)

theorem takeSepDigitSegs_nil (p : Char → Bool) :
    takeSepDigitSegs p [] = ([], []) := rfl

theorem suffixThenBoundary_nil : suffixThenBoundary [] = some ([], []) := by
  decide

theorem stripOrdinalSuffix_digits (l : List Char)
    (h : ∀ c ∈ l, isDigitC c = true) (hne : l ≠ []) :
    stripOrdinalSuffix l = l := by
  have hf : (stripOrdinalSuffix.ordAlts.find? fun suf =>
      startsWithCI suf [] && boundaryAfterWord []) = none := by decide
  simp only [stripOrdinalSuffix, takeWhile_all_true _ l h, List.drop_length,
    List.drop_nil, hne, if_neg, hf]
  simp

theorem isDegreeMarker_digits (l : List Char)
    (h : ∀ c ∈ l, isDigitC c = true) : isDegreeMarker l = false := by
  simp [isDegreeMarker, takeWhile_all_true _ l h]

theorem letterPrefixPat_digits (d : Char) (rest : List Char)
    (hd : isDigitC d = true) : letterPrefixPat (d :: rest) = none := by
  simp [letterPrefixPat, takeWhile_head_false _ _ _ (digit_not_letter d hd)]

theorem romanDotPat_digits (d : Char) (rest : List Char)
    (hd : isDigitC d = true) : romanDotPat (d :: rest) = none := by
  simp [romanDotPat, takeWhile_head_false _ _ _ (digit_not_roman d hd)]

theorem dottedPat_digits (l : List Char)
    (h : ∀ c ∈ l, isDigitC c = true) : dottedPat l = none := by
  simp [dottedPat, takeWhile_all_true _ l h, List.drop_length,
    takeSepDigitSegs_nil]

theorem standardNumPat_digits (l : List Char)
    (h : ∀ c ∈ l, isDigitC c = true) (hne : l ≠ []) :
    standardNumPat l = some l := by
  simp [standardNumPat, takeWhile_all_true _ l h, List.drop_length, hne,
    suffixThenBoundary_nil]

/-- A nonempty all-digit token passes through `normalizeArticleNumber`
unchanged (Pattern C/D matches the whole token). -/
theorem normalizeArticleNumber_digits (l : List Char)
    (h : ∀ c ∈ l, isDigitC c = true) (hne : l ≠ []) :
    normalizeArticleNumber l false = l := by
  obtain ⟨d, rest, rfl⟩ : ∃ d rest, l = d :: rest := by
    cases l with
    | nil => exact absurd rfl hne
    | cons d rest => exact ⟨d, rest, rfl⟩
  have hd : isDigitC d = true := h d (by simp)
  have hcut : cutAtComma (d :: rest) = d :: rest :=
    cutAtComma_no_comma _ (fun c hc => digit_ne_of c _ (h c hc) (by decide))
  simp only [normalizeArticleNumber, jsTrim_digits _ h,
    isQualifierStart_digit d rest hd, Bool.false_eq_true, if_false, hcut,
    stripOrdinalSuffix_digits _ h hne, isDegreeMarker_digits _ h,
    letterPrefixPat_digits d rest hd, romanDotPat_digits d rest hd,
    dottedPat_digits _ h, standardNumPat_digits _ h hne,
    reduceCtorEq, if_false]

theorem lookup_aupsert_ne {β : Type} (l : List (List Char × β))
    (k k2 : List Char) (v : β) (h : k ≠ k2) :
    List.lookup k (aupsert l k2 v) = List.lookup k l := by
  induction l with
  | nil =>
    simp [aupsert, List.lookup, beq_eq_false_iff_ne.mpr h]
  | cons p rest ih =>
    rcases p with ⟨k3, v3⟩
    rw [aupsert]
    split
    · rename_i hk
      subst hk
      rw [List.lookup, List.lookup, beq_eq_false_iff_ne.mpr h]
    · rw [List.lookup, List.lookup]
      cases hk : k == k3
      · exact ih
      · rfl

theorem storeOneBasis_at_other_article (j : Judgement) (entry : AbstractEntry)
    (u : JVal) (st : Store) (base : BasisRef) (art2 ecli2 : List Char)
    (hne : base.eli ≠ []) (hdiff : art2 ≠ base.article) :
    storeRecordAt (storeOneBasis j entry u st base) base.eli art2 ecli2 =
    storeRecordAt st base.eli art2 ecli2 := by
  unfold storeOneBasis storeRecordAt
  rw [if_neg hne, lookup_aupsert_self]
  simp only [Option.getD_some]
  rw [lookup_aupsert_ne _ _ _ _ hdiff]

/-- **C10.**  When a missing-ELI entry is replayed after its identifier
becomes known, each element's article is passed through
`normalizeArticleNumber` again before the store write: a record appears
under the renormalized article key; the sentinel `"general"` and `null`
articles renormalize to the empty-string key; an all-digit article token is
kept verbatim; and nothing is written under the original `"general"`
sentinel key. -/
theorem C10_replay_renormalizes_article (k : List Char) (item : MissingItem)
    (el : MissingElement) (st : Store) (ne : List Char)
    (hel : item.elements = [el])
    (hno : normalizeLegalBasisEli item.eli = some ne)
    (hne2 : ne ≠ []) :
    (∃ r, storeRecordAt (processMissingEliFile [(k, item)] st).1 ne
        (normalizeArticleNumber (el.article.getD []) false) el.ecli = some r) ∧
    ((el.article = some "general".toList ∨ el.article = none) →
        normalizeArticleNumber (el.article.getD []) false = []) ∧
    (∀ ds, el.article = some ds → ds ≠ [] → (∀ c ∈ ds, isDigitC c = true) →
        normalizeArticleNumber (el.article.getD []) false = ds) ∧
    (el.article = some "general".toList →
        storeRecordAt (processMissingEliFile [(k, item)] st).1 ne
          "general".toList el.ecli = storeRecordAt st ne "general".toList el.ecli) := by
  have heli : item.eli ≠ [] := by
    intro hcon
    rw [normalizeLegalBasisEli, if_pos hcon] at hno
    exact Option.noConfusion hno
  have hstore : (processMissingEliFile [(k, item)] st).1 =
      processOneElement ne el st := by
    have h0 : (processMissingEliFile [(k, item)] st).1 =
        (processMissingItem st item).1 := rfl
    rw [h0]
    unfold processMissingItem
    rw [hel]
    rw [if_neg (by simp), if_neg heli, hno]
    simp [List.foldl]
  have hsingle : ∀ st2 : Store, processOneElement ne el st2 =
      storeOneBasis ⟨el.ecli, el.court, el.date, el.roleNumber⟩
        ⟨jvalOrNull el.abstractFR, jvalOrNull el.abstractNL,
         [⟨normalizeArticleNumber (el.article.getD []) false, ne⟩], []⟩
        el.sitemap st2
        ⟨normalizeArticleNumber (el.article.getD []) false, ne⟩ := by
    intro st2
    unfold processOneElement
    exact storeJudgementData_single _ _ _ _ _ rfl
  refine ⟨?_, ?_, ?_, ?_⟩
  · rw [hstore, hsingle]
    exact ⟨_, storeOneBasis_at _ _ _ _ _ hne2⟩
  · rintro (hart | hart) <;> rw [hart] <;> decide
  · intro ds hds hne3 hdig
    rw [hds]
    exact normalizeArticleNumber_digits ds hdig hne3
  · intro hart
    rw [hstore, hsingle]
    rw [storeOneBasis_at_other_article _ _ _ _ _ _ _ hne2]
    rw [hart]
    simp only [Option.getD_some]
    rw [show normalizeArticleNumber "general".toList false = [] from by decide]
    decide

theorem C10_witness :
    (∃ r, storeRecordAt
        (processMissingEliFile
          [(['K'], ⟨"/eli/wet/a".toList,
            [⟨['E'], .null, .null, .null, some "14".toList, .null, .null, .null⟩]⟩)]
          []).1
        "/eli/loi/a".toList
        (normalizeArticleNumber ((some "14".toList).getD []) false) ['E'] = some r) ∧
    ((some "14".toList = some "general".toList ∨ (some "14".toList : Option (List Char)) = none) →
        normalizeArticleNumber ((some "14".toList).getD []) false = []) ∧
    (∀ ds, some "14".toList = some ds → ds ≠ [] → (∀ c ∈ ds, isDigitC c = true) →
        normalizeArticleNumber ((some "14".toList).getD []) false = ds) ∧
    (some "14".toList = some "general".toList →
        storeRecordAt
          (processMissingEliFile
            [(['K'], ⟨"/eli/wet/a".toList,
              [⟨['E'], .null, .null, .null, some "14".toList, .null, .null, .null⟩]⟩)]
            []).1
          "/eli/loi/a".toList "general".toList ['E'] =
        storeRecordAt [] "/eli/loi/a".toList "general".toList ['E']) :=
  C10_replay_renormalizes_article ['K']
    ⟨"/eli/wet/a".toList,
      [⟨['E'], .null, .null, .null, some "14".toList, .null, .null, .null⟩]⟩
    ⟨['E'], .null, .null, .null, some "14".toList, .null, .null, .null⟩
    [] "/eli/loi/a".toList rfl (by decide) (by decide)

/-- **C2 (counterexample).**  Two article entries share the law key
`"Civil Code - 10-10-1967"` and an identifier is bound to that key (it is
in the cache), yet only article 5 resolves: the flush triggered by the
legal-principle entry sends article 6 to the without-identifier list
without consulting the cache. -/
theorem C2_counterexample :
    (smRun
      [⟨"OTHER".toList, [], "Civil Code - 10-10-1967 - Art. 5 - 01".toList⟩,
       ⟨"ELI".toList, [], "https://E".toList⟩,
       ⟨"OTHER".toList, [], "Civil Code - 10-10-1967 - Art. 6 - 01".toList⟩,
       ⟨"OTHER".toList, [], "Principe général du droit X".toList⟩]).legalBases.map
        (fun a => (a.article, a.eli)) =
      [("5".toList, some "https://E".toList)] ∧
    (smRun
      [⟨"OTHER".toList, [], "Civil Code - 10-10-1967 - Art. 5 - 01".toList⟩,
       ⟨"ELI".toList, [], "https://E".toList⟩,
       ⟨"OTHER".toList, [], "Civil Code - 10-10-1967 - Art. 6 - 01".toList⟩,
       ⟨"OTHER".toList, [], "Principe général du droit X".toList⟩]).legalBasesWithoutEli.map
        (fun w => w.article) = [some "6".toList, none] ∧
    (smRun
      [⟨"OTHER".toList, [], "Civil Code - 10-10-1967 - Art. 5 - 01".toList⟩,
       ⟨"ELI".toList, [], "https://E".toList⟩,
       ⟨"OTHER".toList, [], "Civil Code - 10-10-1967 - Art. 6 - 01".toList⟩,
       ⟨"OTHER".toList, [], "Principe général du droit X".toList⟩]).lawKeyEliCache =
      [("Civil Code - 10-10-1967".toList, "https://E".toList)] := by
  decide

/-- **C2.**  Amended grouping correctness: in a reference list
`[article entry for law k, identifier, article entry for law k]`, the
identifier is cached for the law key when it binds the first entry, and
the end-of-input flush applies the cache, so the articles of both entries
resolve to that identifier — even though no identifier follows the second
entry. -/
theorem C2_cache_applies_at_end_flush
    (t1 t2 u l1 lu l2 g1 g2 k : List Char)
    (arts1 arts2 : List (List Char))
    (h1a : startsWithL "Numéro de rôle".toList (normalizeWhitespace t1) = false)
    (h1b : startsWithL "Rolnummer".toList (normalizeWhitespace t1) = false)
    (h1c : startsWithL "http://".toList (normalizeWhitespace t1) = false)
    (h1d : startsWithL "https://".toList (normalizeWhitespace t1) = false)
    (h1e : reTestAnchored RE_LEGAL_PRINCIPLE (normalizeWhitespace t1) = false)
    (h1f : matchArtCascade (normalizeWhitespace t1) = some g1)
    (h1g : extractLegalBasisKey (normalizeWhitespace t1) = k)
    (h1h : parseArticleNumbers (jsTrim g1) (normalizeWhitespace t1) = arts1)
    (h1i : arts1 ≠ [])
    (h2a : startsWithL "Numéro de rôle".toList (normalizeWhitespace t2) = false)
    (h2b : startsWithL "Rolnummer".toList (normalizeWhitespace t2) = false)
    (h2c : startsWithL "http://".toList (normalizeWhitespace t2) = false)
    (h2d : startsWithL "https://".toList (normalizeWhitespace t2) = false)
    (h2e : reTestAnchored RE_LEGAL_PRINCIPLE (normalizeWhitespace t2) = false)
    (h2f : matchArtCascade (normalizeWhitespace t2) = some g2)
    (h2g : extractLegalBasisKey (normalizeWhitespace t2) = k)
    (h2h : parseArticleNumbers (jsTrim g2) (normalizeWhitespace t2) = arts2)
    (h2i : arts2 ≠ [])
    (hk : k ≠ [])
    (hu : normalizeWhitespace u ≠ []) :
    (smRun [⟨"OTHER".toList, l1, t1⟩, ⟨"ELI".toList, lu, u⟩,
            ⟨"OTHER".toList, l2, t2⟩]).legalBases =
      arts1.map (fun a => ⟨a, some (normalizeWhitespace u),
        if l1 = [] then "fr".toList else l1, normalizeWhitespace t1⟩) ++
      arts2.map (fun a => ⟨a, some (normalizeWhitespace u),
        if l2 = [] then "fr".toList else l2, normalizeWhitespace t2⟩) ∧
    (smRun [⟨"OTHER".toList, l1, t1⟩, ⟨"ELI".toList, lu, u⟩,
            ⟨"OTHER".toList, l2, t2⟩]).legalBasesWithoutEli = [] := by
  simp at h1a h1b h1c h1d h2a h2b h2c h2d
  have hA : refStep smInit ⟨"OTHER".toList, l1, t1⟩ =
      ⟨none,
       arts1.map (fun a =>
         ⟨a, none, if l1 = [] then "fr".toList else l1, normalizeWhitespace t1⟩),
       some k, [], [], [],
       arts1.map (fun a =>
         ⟨a, normalizeWhitespace t1, if l1 = [] then "fr".toList else l1⟩)⟩ := by
    simp [refStep, smInit, flushPending, h1a, h1b, h1c, h1d, h1e, h1f, h1g, h1h]
  have hB : refStep
      (⟨none,
        arts1.map (fun a =>
          ⟨a, none, if l1 = [] then "fr".toList else l1, normalizeWhitespace t1⟩),
        some k, [], [], [],
        arts1.map (fun a =>
          ⟨a, normalizeWhitespace t1, if l1 = [] then "fr".toList else l1⟩)⟩ : SMState)
      ⟨"ELI".toList, lu, u⟩ =
      ⟨none, [], none, [(k, normalizeWhitespace u)],
       arts1.map (fun a =>
         ⟨a, some (normalizeWhitespace u),
          if l1 = [] then "fr".toList else l1, normalizeWhitespace t1⟩), [],
       arts1.map (fun a =>
         ⟨a, normalizeWhitespace t1, if l1 = [] then "fr".toList else l1⟩)⟩ := by
    have hne : ("ELI".toList : List Char) ≠ "OTHER".toList := by decide
    simp [refStep, bindIdentifier, cacheSet, aupsert, hne, hk,
      List.map_eq_nil_iff, h1i, List.map_map, Function.comp]
  have hC : refStep
      (⟨none, [], none, [(k, normalizeWhitespace u)],
        arts1.map (fun a =>
          ⟨a, some (normalizeWhitespace u),
           if l1 = [] then "fr".toList else l1, normalizeWhitespace t1⟩), [],
        arts1.map (fun a =>
          ⟨a, normalizeWhitespace t1, if l1 = [] then "fr".toList else l1⟩)⟩ : SMState)
      ⟨"OTHER".toList, l2, t2⟩ =
      ⟨none,
       arts2.map (fun a =>
         ⟨a, none, if l2 = [] then "fr".toList else l2, normalizeWhitespace t2⟩),
       some k, [(k, normalizeWhitespace u)],
       arts1.map (fun a =>
         ⟨a, some (normalizeWhitespace u),
          if l1 = [] then "fr".toList else l1, normalizeWhitespace t1⟩), [],
       arts1.map (fun a =>
         ⟨a, normalizeWhitespace t1, if l1 = [] then "fr".toList else l1⟩) ++
       arts2.map (fun a =>
         ⟨a, normalizeWhitespace t2, if l2 = [] then "fr".toList else l2⟩)⟩ := by
    simp [refStep, flushPending, h2a, h2b, h2c, h2d, h2e, h2f, h2g, h2h]
  have hfold : ([⟨"OTHER".toList, l1, t1⟩, ⟨"ELI".toList, lu, u⟩,
      ⟨"OTHER".toList, l2, t2⟩] : List XRef).foldl refStep smInit =
      ⟨none,
       arts2.map (fun a =>
         ⟨a, none, if l2 = [] then "fr".toList else l2, normalizeWhitespace t2⟩),
       some k, [(k, normalizeWhitespace u)],
       arts1.map (fun a =>
         ⟨a, some (normalizeWhitespace u),
          if l1 = [] then "fr".toList else l1, normalizeWhitespace t1⟩), [],
       arts1.map (fun a =>
         ⟨a, normalizeWhitespace t1, if l1 = [] then "fr".toList else l1⟩) ++
       arts2.map (fun a =>
         ⟨a, normalizeWhitespace t2, if l2 = [] then "fr".toList else l2⟩)⟩ := by
    simp only [List.foldl_cons, List.foldl_nil, hA, hB, hC]
  unfold smRun
  rw [hfold]
  have hlook : (([(k, normalizeWhitespace u)] :
      List (List Char × List Char)).lookup k) = some (normalizeWhitespace u) := by
    simp [List.lookup]
  constructor
  · simp [flushPending, cachedEliOf, hk, hlook, hu, List.map_eq_nil_iff, h2i,
      List.map_map, Function.comp]
  · simp [flushPending, cachedEliOf, hk, hlook, hu, List.map_eq_nil_iff, h2i]

theorem C2_witness :
    (smRun [⟨"OTHER".toList, [], "Civil Code - 10-10-1967 - Art. 5 - 01".toList⟩,
            ⟨"ELI".toList, [], "https://E".toList⟩,
            ⟨"OTHER".toList, [], "Civil Code - 10-10-1967 - Art. 6 - 01".toList⟩]).legalBases =
      ["5".toList].map (fun a => ⟨a,
        some (normalizeWhitespace "https://E".toList),
        if ([] : List Char) = [] then "fr".toList else [],
        normalizeWhitespace "Civil Code - 10-10-1967 - Art. 5 - 01".toList⟩) ++
      ["6".toList].map (fun a => ⟨a,
        some (normalizeWhitespace "https://E".toList),
        if ([] : List Char) = [] then "fr".toList else [],
        normalizeWhitespace "Civil Code - 10-10-1967 - Art. 6 - 01".toList⟩) ∧
    (smRun [⟨"OTHER".toList, [], "Civil Code - 10-10-1967 - Art. 5 - 01".toList⟩,
            ⟨"ELI".toList, [], "https://E".toList⟩,
            ⟨"OTHER".toList, [],
             "Civil Code - 10-10-1967 - Art. 6 - 01".toList⟩]).legalBasesWithoutEli = [] :=
  C2_cache_applies_at_end_flush
    "Civil Code - 10-10-1967 - Art. 5 - 01".toList
    "Civil Code - 10-10-1967 - Art. 6 - 01".toList
    "https://E".toList [] [] [] "5".toList "6".toList
    "Civil Code - 10-10-1967".toList ["5".toList] ["6".toList]
    (by decide) (by decide) (by decide) (by decide) (by decide) (by decide)
    (by decide) (by decide) (by decide)
    (by decide) (by decide) (by decide) (by decide) (by decide) (by decide)
    (by decide) (by decide) (by decide)
    (by decide) (by decide)

theorem ite_lt_max (a s : ℚ) : (if a < s then s else a) = max a s := by
  rcases le_or_lt s a with h | h
  · rw [if_neg (not_lt.mpr h), max_eq_left h]
  · rw [if_pos h, max_eq_right h.le]

theorem scanGo_score (fa : List Char) (abs : List (List Char))
    (used : List Nat) (idxs : List Nat) (init : Option Nat × ℚ) :
    (scanGo fa abs used idxs init).2 =
    ((idxs.filter (fun i => i ∉ used)).map
      (fun i => textSimilarity fa (abs.getD i []))).foldl max init.2 := by
  induction idxs generalizing init with
  | nil => rfl
  | cons i rest ih =>
    rw [scanGo]
    by_cases hi : i ∈ used
    · rw [if_pos hi, ih]
      congr 1
      simp [List.filter_cons, hi]
    · rw [if_neg hi]
      have hfc : (i :: rest).filter (fun j => decide (j ∉ used)) =
          i :: rest.filter (fun j => decide (j ∉ used)) := by
        simp [List.filter_cons, hi]
      rw [hfc, List.map_cons, List.foldl_cons]
      split
      · rename_i hlt
        rw [ih]
        rw [max_eq_right hlt.le]
      · rename_i hge
        rw [ih]
        rw [max_eq_left (not_lt.mp hge)]

theorem scanGo_cases (fa : List Char) (abs : List (List Char))
    (used : List Nat) (idxs : List Nat) (init : Option Nat × ℚ) :
    scanGo fa abs used idxs init = init ∨
    ∃ i ∈ idxs, i ∉ used ∧
      scanGo fa abs used idxs init = (some i, textSimilarity fa (abs.getD i [])) := by
  induction idxs generalizing init with
  | nil => left; rfl
  | cons i rest ih =>
    rw [scanGo]
    by_cases hi : i ∈ used
    · rw [if_pos hi]
      rcases ih init with h | ⟨j, hj, hju, hres⟩
      · left; exact h
      · right; exact ⟨j, by simp [hj], hju, hres⟩
    · rw [if_neg hi]
      split
      · rcases ih (some i, textSimilarity fa (abs.getD i [])) with h | ⟨j, hj, hju, hres⟩
        · right; exact ⟨i, by simp, hi, h⟩
        · right; exact ⟨j, by simp [hj], hju, hres⟩
      · rcases ih init with h | ⟨j, hj, hju, hres⟩
        · left; exact h
        · right; exact ⟨j, by simp [hj], hju, hres⟩

theorem scanPair_score (fa : List Char) (absFR absNL : List (List Char))
    (uF uN : List Nat) :
    (scanLoop fa absNL uN (scanLoop fa absFR uF (none, 0))).2 =
    bestUnclaimedScore fa absFR absNL uF uN := by
  unfold scanLoop bestUnclaimedScore
  rw [scanGo_score, scanGo_score, List.foldl_append]

theorem scanPair_cases (fa : List Char) (absFR absNL : List (List Char))
    (uF uN : List Nat) :
    scanLoop fa absNL uN (scanLoop fa absFR uF (none, 0)) = (none, 0) ∨
    ∃ i,
      (i < absFR.length ∧ i ∉ uF ∧
        scanLoop fa absNL uN (scanLoop fa absFR uF (none, 0)) =
          (some i, textSimilarity fa (absFR.getD i []))) ∨
      (i < absNL.length ∧ i ∉ uN ∧
        scanLoop fa absNL uN (scanLoop fa absFR uF (none, 0)) =
          (some i, textSimilarity fa (absNL.getD i []))) := by
  rcases scanGo_cases fa absNL uN (List.range absNL.length)
      (scanLoop fa absFR uF (none, 0)) with h2 | ⟨j, hj, hju, hres⟩
  · rcases scanGo_cases fa absFR uF (List.range absFR.length) (none, 0) with
      h1 | ⟨i, hi, hiu, hres1⟩
    · left
      show scanGo fa absNL uN (List.range absNL.length) _ = _
      rw [h2]
      exact h1
    · right
      refine ⟨i, Or.inl ⟨List.mem_range.mp hi, hiu, ?_⟩⟩
      show scanGo fa absNL uN (List.range absNL.length) _ = _
      rw [h2]
      exact hres1
  · right
    exact ⟨j, Or.inr ⟨List.mem_range.mp hj, hju, hres⟩⟩

theorem ficheStep_append (absFR absNL : List (List Char))
    (acc : List AbstractEntry × List Nat × List Nat) (f : Fiche) :
    ∃ e u2 u3, ficheStep absFR absNL acc f = (acc.1 ++ [e], u2, u3) := by
  simp only [ficheStep]
  split
  · split
    · exact ⟨_, _, _, rfl⟩
    · exact ⟨_, _, _, rfl⟩
  · exact ⟨_, _, _, rfl⟩

theorem foldl_entries_prefix (absFR absNL : List (List Char)) (fs : List Fiche) :
    ∀ acc, acc.1 <+: (List.foldl (ficheStep absFR absNL) acc fs).1 := by
  induction fs with
  | nil => intro acc; exact List.prefix_refl _
  | cons f rest ih =>
    intro acc
    rw [List.foldl_cons]
    obtain ⟨e, u2, u3, heq⟩ := ficheStep_append absFR absNL acc f
    have h1 : acc.1 <+: (ficheStep absFR absNL acc f).1 := by
      rw [heq]
      exact ⟨[e], rfl⟩
    exact h1.trans (ih _)

/-- **C4.**  The correlator processes fiches in document order and never
revises an earlier claim (the processed prefix of the entry list is
stable), and for each fiche it selects an unclaimed index achieving the
highest similarity score across both language sequences: when that best
score exceeds `0.2` the index's abstracts are assigned from whichever
sequences contain it and the index is marked used in both, otherwise the
fiche gets no abstract text while keeping its legal bases. -/
theorem C4_greedy_correlator (absFR absNL : List (List Char)) :
    (∀ fs1 fs2 : List Fiche,
      (correlateFiches absFR absNL fs1).1 <+:
        (correlateFiches absFR absNL (fs1 ++ fs2)).1) ∧
    (∀ (entries : List AbstractEntry) (uF uN : List Nat) (f : Fiche),
      ∃ e uF2 uN2,
        ficheStep absFR absNL (entries, uF, uN) f = (entries ++ [e], uF2, uN2) ∧
        e.legalBases = f.legalBases ∧
        e.missingEliBases = f.missingEliBases ∧
        (bestUnclaimedScore f.abstract absFR absNL uF uN ≤ mkRat 1 5 →
          e.abstractFR = .null ∧ e.abstractNL = .null ∧ uF2 = uF ∧ uN2 = uN) ∧
        (mkRat 1 5 < bestUnclaimedScore f.abstract absFR absNL uF uN →
          ∃ bi,
            ((bi < absFR.length ∧ bi ∉ uF ∧
                textSimilarity f.abstract (absFR.getD bi []) =
                  bestUnclaimedScore f.abstract absFR absNL uF uN) ∨
             (bi < absNL.length ∧ bi ∉ uN ∧
                textSimilarity f.abstract (absNL.getD bi []) =
                  bestUnclaimedScore f.abstract absFR absNL uF uN)) ∧
            e.abstractFR =
              (if bi < absFR.length then JVal.str (absFR.getD bi []) else .null) ∧
            e.abstractNL =
              (if bi < absNL.length then JVal.str (absNL.getD bi []) else .null) ∧
            uF2 = (if bi < absFR.length then uF ++ [bi] else uF) ∧
            uN2 = (if bi < absNL.length then uN ++ [bi] else uN))) := by
  constructor
  · intro fs1 fs2
    unfold correlateFiches
    rw [List.foldl_append]
    exact foldl_entries_prefix absFR absNL fs2 _
  · intro entries uF uN f
    have hsc := scanPair_score f.abstract absFR absNL uF uN
    rcases scanPair_cases f.abstract absFR absNL uF uN with hp | ⟨i, hcase⟩
    · have hbest : bestUnclaimedScore f.abstract absFR absNL uF uN = 0 := by
        rw [← hsc, hp]
      refine ⟨⟨.null, .null, f.legalBases, f.missingEliBases⟩, uF, uN, ?_, rfl,
        rfl, ?_, ?_⟩
      · simp only [ficheStep, hp]
      · intro _
        exact ⟨rfl, rfl, rfl, rfl⟩
      · intro hlt
        rw [hbest] at hlt
        norm_num at hlt
    · rcases hcase with ⟨hiF, hiuF, hp⟩ | ⟨hiN, hiuN, hp⟩
      · have hsbest : textSimilarity f.abstract (absFR.getD i []) =
            bestUnclaimedScore f.abstract absFR absNL uF uN := by
          rw [← hsc, hp]
        by_cases hth : mkRat 1 5 < textSimilarity f.abstract (absFR.getD i [])
        · refine ⟨⟨if i < absFR.length then JVal.str (absFR.getD i []) else .null,
              if i < absNL.length then JVal.str (absNL.getD i []) else .null,
              f.legalBases, f.missingEliBases⟩,
              if i < absFR.length then uF ++ [i] else uF,
              if i < absNL.length then uN ++ [i] else uN, ?_, rfl, rfl, ?_, ?_⟩
          · simp only [ficheStep, hp]
            rw [if_pos hth]
          · intro hle
            rw [hsbest] at hth
            exact absurd hth (not_lt.mpr hle)
          · intro _
            exact ⟨i, Or.inl ⟨hiF, hiuF, hsbest⟩, rfl, rfl, rfl, rfl⟩
        · refine ⟨⟨.null, .null, f.legalBases, f.missingEliBases⟩, uF, uN, ?_,
            rfl, rfl, ?_, ?_⟩
          · simp only [ficheStep, hp]
            rw [if_neg hth]
          · intro _
            exact ⟨rfl, rfl, rfl, rfl⟩
          · intro hlt
            rw [← hsbest] at hlt
            exact absurd hlt hth
      · have hsbest : textSimilarity f.abstract (absNL.getD i []) =
            bestUnclaimedScore f.abstract absFR absNL uF uN := by
          rw [← hsc, hp]
        by_cases hth : mkRat 1 5 < textSimilarity f.abstract (absNL.getD i [])
        · refine ⟨⟨if i < absFR.length then JVal.str (absFR.getD i []) else .null,
              if i < absNL.length then JVal.str (absNL.getD i []) else .null,
              f.legalBases, f.missingEliBases⟩,
              if i < absFR.length then uF ++ [i] else uF,
              if i < absNL.length then uN ++ [i] else uN, ?_, rfl, rfl, ?_, ?_⟩
          · simp only [ficheStep, hp]
            rw [if_pos hth]
          · intro hle
            rw [hsbest] at hth
            exact absurd hth (not_lt.mpr hle)
          · intro _
            exact ⟨i, Or.inr ⟨hiN, hiuN, hsbest⟩, rfl, rfl, rfl, rfl⟩
        · refine ⟨⟨.null, .null, f.legalBases, f.missingEliBases⟩, uF, uN, ?_,
            rfl, rfl, ?_, ?_⟩
          · simp only [ficheStep, hp]
            rw [if_neg hth]
          · intro _
            exact ⟨rfl, rfl, rfl, rfl⟩
          · intro hlt
            rw [← hsbest] at hlt
            exact absurd hlt hth

theorem C4_witness :
    ∃ e : AbstractEntry,
      ficheStep ["quick brown foxes jumping".toList] [] ([], [], [])
        ⟨"quick brown foxes jumping".toList, [], []⟩ = ([e], [0], []) ∧
      e.abstractFR = .str "quick brown foxes jumping".toList ∧
      e.abstractNL = .null := by
  obtain ⟨e, uF2, uN2, heq, hlb, hmb, hlow, hclaim⟩ :=
    (C4_greedy_correlator ["quick brown foxes jumping".toList] []).2 [] [] []
      ⟨"quick brown foxes jumping".toList, [], []⟩
  have hbest : mkRat 1 5 < bestUnclaimedScore "quick brown foxes jumping".toList
      ["quick brown foxes jumping".toList] [] [] [] := by
    rw [← scanPair_score]
    decide
  obtain ⟨bi, hside, hFR, hNL, huF, huN⟩ := hclaim hbest
  rcases hside with ⟨hbi, _, _⟩ | ⟨hbi, _, _⟩
  · have hbi1 : bi < 1 := by simpa using hbi
    have hbi0 : bi = 0 := by omega
    subst hbi0
    refine ⟨e, ?_, ?_, ?_⟩
    · rw [heq, huF, huN]
      simp
    · rw [hFR]
      simp
    · rw [hNL]
      simp
  · exact absurd hbi (by simp)

theorem appendParseError_cur (ef : ErrorsFile) (url t : List Char) :
    ((appendParseError ef url t).lookup url).getD [] =
    addIfAbsent ((ef.lookup url).getD []) t := by
  unfold appendParseError addIfAbsent
  split
  · rename_i h
    rw [if_pos h]
  · rename_i h
    rw [if_neg h, lookup_aupsert_self]
    rfl

theorem appendParseError_other (ef : ErrorsFile) (url t url2 : List Char)
    (h : url2 ≠ url) :
    (appendParseError ef url t).lookup url2 = ef.lookup url2 := by
  simp only [appendParseError]
  split
  · rfl
  · exact lookup_aupsert_ne _ _ _ _ h

/-- **C5.**  A citation line matching none of the five recognized patterns
is appended to the unextractable list and nothing else (processing of the
remaining lines continues unchanged), and the error log records each text
exactly once per `(source URL, text)` pair: membership is the union of the
new texts and the previous entries, no duplicate is ever appended, and
other URL keys are untouched. -/
theorem C5_unextractable_recorded (lang : List Char) :
    (∀ (s : JParseState) (e : JEntry),
      normalizeWhitespace e.raw ≠ [] →
      matchArtCascade (normalizeWhitespace e.raw) = none →
      reTestAnchored RE_LEGAL_PRINCIPLE (normalizeWhitespace e.raw) = false →
      reTest RE_REF_NO_ART (normalizeWhitespace e.raw) = false →
      jEntryStep lang s e =
        { s with unextractable := s.unextractable ++ [normalizeWhitespace e.raw] }) ∧
    (∀ (entries1 entries2 : List JEntry) (e : JEntry) (s0 : JParseState),
      jParseEntries lang (entries1 ++ e :: entries2) s0 =
        jParseEntries lang entries2 (jEntryStep lang (jParseEntries lang entries1 s0) e)) ∧
    (∀ (ef : ErrorsFile) (url : List Char) (texts : List (List Char)) (t : List Char),
      (t ∈ ((recordUnextractables url texts ef).lookup url).getD [] ↔
        t ∈ texts ∨ t ∈ (ef.lookup url).getD []) ∧
      (((ef.lookup url).getD []).Nodup →
        (((recordUnextractables url texts ef).lookup url).getD []).Nodup) ∧
      (∀ url2, url2 ≠ url →
        (recordUnextractables url texts ef).lookup url2 = ef.lookup url2)) := by
  refine ⟨?_, ?_, ?_⟩
  · intro s e hne hcasc hprin hnoart
    simp only [jEntryStep, hcasc]
    rw [if_neg hne, if_neg (by simp [hprin]), if_neg (by simp [hnoart])]
  · intro entries1 entries2 e s0
    unfold jParseEntries
    rw [List.foldl_append, List.foldl_cons]
  · intro ef url texts t
    induction texts generalizing ef with
    | nil =>
      exact ⟨by simp [recordUnextractables], fun h => h, fun _ _ => rfl⟩
    | cons t0 rest ih =>
      have hrec : recordUnextractables url (t0 :: rest) ef =
          recordUnextractables url rest (appendParseError ef url t0) := rfl
      obtain ⟨ihm, ihn, iho⟩ := ih (appendParseError ef url t0)
      refine ⟨?_, ?_, ?_⟩
      · rw [hrec, ihm, appendParseError_cur, addIfAbsent_mem]
        constructor
        · rintro (h | h | rfl)
          · exact Or.inl (by simp [h])
          · exact Or.inr h
          · exact Or.inl (by simp)
        · rintro (h | h)
          · rcases List.mem_cons.mp h with rfl | h2
            · exact Or.inr (Or.inr rfl)
            · exact Or.inl h2
          · exact Or.inr (Or.inl h)
      · intro hnd
        rw [hrec]
        exact ihn (by rw [appendParseError_cur]; exact addIfAbsent_nodup _ _ hnd)
      · intro url2 hu
        rw [hrec, iho url2 hu]
        exact appendParseError_other ef url t0 url2 hu

theorem C5_witness :
    jEntryStep "fr".toList ⟨[], [], [], []⟩
        ⟨"just some gibberish words".toList, none, none⟩ =
      ⟨[], [], [], ["just some gibberish words".toList]⟩ ∧
    ("x".toList ∈ ((recordUnextractables "u".toList
        ["x".toList, "x".toList] []).lookup "u".toList).getD [] ↔
      "x".toList ∈ ["x".toList, "x".toList] ∨
        "x".toList ∈ (([] : ErrorsFile).lookup "u".toList).getD []) ∧
    ((((recordUnextractables "u".toList ["x".toList, "x".toList]
        []).lookup "u".toList).getD []).Nodup) := by
  obtain ⟨hclass, hcont, hlog⟩ := C5_unextractable_recorded "fr".toList
  obtain ⟨hm, hn, ho⟩ := hlog [] "u".toList ["x".toList, "x".toList] "x".toList
  refine ⟨?_, hm, hn (by simp)⟩
  have h := hclass ⟨[], [], [], []⟩ ⟨"just some gibberish words".toList, none, none⟩
    (by decide) (by decide) (by decide) (by decide)
  rw [h]
  decide

theorem commit_flag (r : FetchResult) (url : List Char) (st : Settings)
    (cnt : Counters) (sto : Store) (m : MissingFile) :
    (commitSitemapResult r url st cnt sto m true).1 = okOf r := by
  cases r <;> rfl

theorem batch_error_fold (fetchOf : List Char → FetchResult)
    (ts : List (List Char)) (hall : ∀ u ∈ ts, fetchOf u = .error) :
    ∀ (b : Bool) (st : Settings) (cnt : Counters) (sto : Store) (m : MissingFile),
    ts.foldl (batchStep fetchOf) (b, st, cnt, sto, m) =
      (if ts = [] then b else false, st,
       { cnt with errorCount := cnt.errorCount + ts.length }, sto, m) := by
  induction ts with
  | nil => intro b st cnt sto m; simp
  | cons t rest ih =>
    intro b st cnt sto m
    rw [List.foldl_cons]
    have hstep : batchStep fetchOf (b, st, cnt, sto, m) t =
        (false, st, { cnt with errorCount := cnt.errorCount + 1 }, sto, m) := by
      simp [batchStep, commitSitemapResult, hall t (by simp)]
    rw [hstep, ih (fun u hu => hall u (by simp [hu])) false st _ sto m]
    simp [List.length_cons]
    omega

theorem batch_flag (fetchOf : List Char → FetchResult) (ts : List (List Char)) :
    ∀ (b : Bool) (st : Settings) (cnt : Counters) (sto : Store) (m : MissingFile),
    (ts.foldl (batchStep fetchOf) (b, st, cnt, sto, m)).1 =
      (b && ts.all (fun u => okOf (fetchOf u))) := by
  induction ts with
  | nil => intro b st cnt sto m; simp
  | cons t rest ih =>
    intro b st cnt sto m
    rw [List.foldl_cons]
    rcases hc : commitSitemapResult (fetchOf t) t st cnt sto m true with
      ⟨ok, st2, cnt2, sto2, m2⟩
    have hok : ok = okOf (fetchOf t) := by
      have := commit_flag (fetchOf t) t st cnt sto m
      rw [hc] at this
      exact this
    have hstep : batchStep fetchOf (b, st, cnt, sto, m) t =
        (b && ok, st2, cnt2, sto2, m2) := by
      simp [batchStep, hc]
    rw [hstep, ih (b && ok) st2 cnt2 sto2 m2, hok, List.all_cons,
      Bool.and_assoc]

theorem batch_indexes_invariant (fetchOf : List Char → FetchResult)
    (ts : List (List Char)) :
    ∀ (b : Bool) (st : Settings) (cnt : Counters) (sto : Store) (m : MissingFile),
    ((ts.foldl (batchStep fetchOf) (b, st, cnt, sto, m)).2.1).processedSitemapIndexes =
      st.processedSitemapIndexes := by
  induction ts with
  | nil => intro b st cnt sto m; rfl
  | cons t rest ih =>
    intro b st cnt sto m
    rw [List.foldl_cons]
    rcases hc : commitSitemapResult (fetchOf t) t st cnt sto m true with
      ⟨ok, st2, cnt2, sto2, m2⟩
    have hst2 : st2.processedSitemapIndexes = st.processedSitemapIndexes := by
      cases hr : fetchOf t <;>
        (rw [hr] at hc
         simp only [commitSitemapResult] at hc
         injection hc with h1 h2
         injection h2 with h2 h3
         rw [← h2]
         try simp)
    have hstep : batchStep fetchOf (b, st, cnt, sto, m) t =
        (b && ok, st2, cnt2, sto2, m2) := by
      simp [batchStep, hc]
    rw [hstep, ih (b && ok) st2 cnt2 sto2 m2, hst2]

/-- **C6 (counterexample).**  An empty batch vacuously satisfies "every
item's fetch ends in a transport error", yet the crawl state does not stay
what it was: the empty batch is promoted into `processedSitemapIndexes`. -/
theorem C6_counterexample :
    (∀ u ∈ ([] : List (List Char)),
      (fun _ => FetchResult.error) u = FetchResult.error) ∧
    (runBatch "I".toList [] (fun _ => FetchResult.error)
        ⟨[], []⟩ ⟨0, 0, 0⟩ [] []).1 ≠ (⟨[], []⟩ : Settings) := by
  exact ⟨fun u hu => rfl, by decide⟩

/-- **C6.**  Amended: for a nonempty batch none of whose items were
already processed, when every item's fetch ends in a transport error the
batch leaves the persistent crawl state, the keyed store and the
missing-ELI file exactly as they were (no item added to
`processedSitemaps`, no promotion to `processedSitemapIndexes`), and the
error counter increases by exactly the number of items. -/
theorem C6_all_error_batch (indexUrl : List Char) (items : List (List Char))
    (fetchOf : List Char → FetchResult) (settings : Settings)
    (counters : Counters) (store : Store) (mf : MissingFile)
    (hne : items ≠ [])
    (hfresh : ∀ u ∈ items, u ∉ settings.processedSitemaps)
    (hall : ∀ u ∈ items, fetchOf u = .error) :
    runBatch indexUrl items fetchOf settings counters store mf =
      (settings,
       { counters with errorCount := counters.errorCount + items.length },
       store, mf) := by
  have hfilter : items.filter
      (fun u => !settings.processedSitemaps.contains u) = items := by
    rw [List.filter_eq_self]
    intro u hu
    simp [hfresh u hu]
  simp only [runBatch, hfilter,
    batch_error_fold fetchOf items hall true settings counters store mf]
  rw [if_neg hne]
  simp

theorem C6_witness :
    runBatch "I".toList ["a".toList] (fun _ => FetchResult.error)
        ⟨[], []⟩ ⟨0, 0, 5⟩ [] [] =
      ((⟨[], []⟩ : Settings), (⟨0, 0, 6⟩ : Counters), ([] : Store),
       ([] : MissingFile)) :=
  C6_all_error_batch "I".toList ["a".toList] (fun _ => FetchResult.error)
    ⟨[], []⟩ ⟨0, 0, 5⟩ [] [] (by decide) (by decide) (fun u hu => rfl)

/-- **C8.**  The batch is promoted to `processedSitemapIndexes` exactly
when every committed item reported success; on promotion every item URL of
the batch is pruned from `processedSitemaps` in the same settings record
(the one that is saved), and without promotion the completed-batch list is
untouched. -/
theorem C8_promotion_prunes (indexUrl : List Char) (items : List (List Char))
    (fetchOf : List Char → FetchResult) (settings : Settings)
    (counters : Counters) (store : Store) (mf : MissingFile) :
    ∃ (st1 : Settings) (rest1 : Counters × Store × MissingFile),
      (items.filter (fun u => !settings.processedSitemaps.contains u)).foldl
          (batchStep fetchOf) (true, settings, counters, store, mf) =
        ((items.filter (fun u => !settings.processedSitemaps.contains u)).all
          (fun u => okOf (fetchOf u)), st1, rest1) ∧
      st1.processedSitemapIndexes = settings.processedSitemapIndexes ∧
      ((items.filter (fun u => !settings.processedSitemaps.contains u)).all
          (fun u => okOf (fetchOf u)) = true →
        runBatch indexUrl items fetchOf settings counters store mf =
          ({ st1 with
             processedSitemapIndexes := st1.processedSitemapIndexes ++ [indexUrl],
             processedSitemaps :=
               st1.processedSitemaps.filter (fun u => !items.contains u) },
           rest1) ∧
        (∀ u ∈ items,
          u ∉ (runBatch indexUrl items fetchOf settings counters
            store mf).1.processedSitemaps)) ∧
      ((items.filter (fun u => !settings.processedSitemaps.contains u)).all
          (fun u => okOf (fetchOf u)) = false →
        runBatch indexUrl items fetchOf settings counters store mf =
          (st1, rest1) ∧
        (runBatch indexUrl items fetchOf settings counters
            store mf).1.processedSitemapIndexes =
          settings.processedSitemapIndexes) := by
  rcases hfold : (items.filter
      (fun u => !settings.processedSitemaps.contains u)).foldl
      (batchStep fetchOf) (true, settings, counters, store, mf) with
    ⟨flg, st1, rest1⟩
  have hflag : flg = (items.filter
      (fun u => !settings.processedSitemaps.contains u)).all
      (fun u => okOf (fetchOf u)) := by
    have := batch_flag fetchOf
      (items.filter (fun u => !settings.processedSitemaps.contains u))
      true settings counters store mf
    rw [hfold] at this
    simpa using this
  have hidx : st1.processedSitemapIndexes = settings.processedSitemapIndexes := by
    have := batch_indexes_invariant fetchOf
      (items.filter (fun u => !settings.processedSitemaps.contains u))
      true settings counters store mf
    rw [hfold] at this
    exact this
  subst hflag
  refine ⟨st1, rest1, rfl, hidx, ?_, ?_⟩
  · intro hallok
    have hrun : runBatch indexUrl items fetchOf settings counters store mf =
        ({ st1 with
           processedSitemapIndexes := st1.processedSitemapIndexes ++ [indexUrl],
           processedSitemaps :=
             st1.processedSitemaps.filter (fun u => !items.contains u) },
         rest1) := by
      simp only [runBatch, hfold, hallok]
      rfl
    refine ⟨hrun, ?_⟩
    intro u hu
    rw [hrun]
    simp only [List.mem_filter]
    rintro ⟨-, hcon⟩
    simp [hu] at hcon
  · intro hnotok
    have hrun : runBatch indexUrl items fetchOf settings counters store mf =
        (st1, rest1) := by
      simp only [runBatch, hfold, hnotok]
      rfl
    exact ⟨hrun, by rw [hrun]; exact hidx⟩

theorem C8_witness :
    (runBatch "I".toList ["a".toList, "b".toList] (fun _ => FetchResult.empty)
        ⟨["b".toList], []⟩ ⟨0, 0, 0⟩ [] []).1 =
      (⟨[], ["I".toList]⟩ : Settings) ∧
    "b".toList ∉ (runBatch "I".toList ["a".toList, "b".toList]
        (fun _ => FetchResult.empty)
        ⟨["b".toList], []⟩ ⟨0, 0, 0⟩ [] []).1.processedSitemaps := by
  obtain ⟨st1, rest1, hfold, hidx, hpromo, hnop⟩ :=
    C8_promotion_prunes "I".toList ["a".toList, "b".toList]
      (fun _ => FetchResult.empty) ⟨["b".toList], []⟩ ⟨0, 0, 0⟩ [] []
  obtain ⟨heq, hmem⟩ := hpromo (by decide)
  exact ⟨by decide, hmem "b".toList (by simp)⟩

theorem nlookup_naupsert_self {β : Type} (l : List (Nat × β)) (k : Nat)
    (v : β) : List.lookup k (naupsert l k v) = some v := by
  induction l with
  | nil => simp [naupsert, List.lookup]
  | cons p rest ih =>
    rcases p with ⟨k2, v2⟩
    rw [naupsert]
    split
    · rename_i hk
      subst hk
      simp [List.lookup]
    · rename_i hne
      rw [List.lookup]
      have heq : (k == k2) = false := by
        rw [beq_eq_false_iff_ne]
        exact fun hcon => hne hcon.symm
      rw [heq]
      exact ih

theorem nlookup_naupsert_ne {β : Type} (l : List (Nat × β)) (k k2 : Nat)
    (v : β) (h : k ≠ k2) :
    List.lookup k (naupsert l k2 v) = List.lookup k l := by
  induction l with
  | nil =>
    simp [naupsert, List.lookup, beq_eq_false_iff_ne.mpr h]
  | cons p rest ih =>
    rcases p with ⟨k3, v3⟩
    rw [naupsert]
    split
    · rename_i hk
      subst hk
      rw [List.lookup, List.lookup, beq_eq_false_iff_ne.mpr h]
    · rw [List.lookup, List.lookup]
      cases hk : k == k3
      · exact ih
      · rfl

theorem chainTo_le (store : List (Nat × PRec)) (l : List (Nat × Bool)) :
    ∀ g e, chainTo store g l e → g ≤ e := by
  induction l with
  | nil => intro g e h; exact h.1.le
  | cons p rest ih =>
    rcases p with ⟨t, b⟩
    intro g e h
    obtain ⟨r, g2, h1, h2, _, _, hrest⟩ := h
    exact le_trans (le_trans h1.le h2.le) (ih g2 e hrest)

theorem chainTo_last (store : List (Nat × PRec)) (l : List (Nat × Bool)) :
    ∀ g e, chainTo store g l e → store.lookup e = some ⟨.pending, []⟩ := by
  induction l with
  | nil => intro g e h; rw [← h.1]; exact h.2
  | cons p rest ih =>
    rcases p with ⟨t, b⟩
    intro g e h
    obtain ⟨r, g2, _, _, _, _, hrest⟩ := h
    exact ih g2 e hrest

theorem chainTo_update_lt (store : List (Nat × PRec)) (l : List (Nat × Bool))
    (v : PRec) :
    ∀ g e x, chainTo store g l e → x < g →
      chainTo (naupsert store x v) g l e := by
  induction l with
  | nil =>
    intro g e x h hx
    exact ⟨h.1, by rw [nlookup_naupsert_ne _ _ _ _ (Nat.ne_of_gt hx)]; exact h.2⟩
  | cons p rest ih =>
    rcases p with ⟨t, b⟩
    intro g e x h hx
    obtain ⟨r, g2, h1, h2, hg, hr, hrest⟩ := h
    exact ⟨r, g2, h1, h2,
      by rw [nlookup_naupsert_ne _ _ _ _ (Nat.ne_of_gt hx)]; exact hg,
      by rw [nlookup_naupsert_ne _ _ _ _ (Nat.ne_of_gt (lt_trans hx h1))]; exact hr,
      ih g2 e x hrest (lt_trans hx (lt_trans h1 h2))⟩

theorem drain_empty (fuel : Nat) (st : QState) (h : st.queue = []) :
    drain fuel st = st := by
  cases fuel with
  | zero => rfl
  | succ f =>
    conv_lhs => rw [drain]
    rw [h]

theorem drain_succ_cons (fuel : Nat) (st : QState) (j : JobAct × Nat)
    (rest2 : List (JobAct × Nat)) (h : st.queue = j :: rest2) :
    drain (fuel + 1) st = drain fuel (runJob { st with queue := rest2 } j) := by
  conv_lhs => rw [drain]
  rw [h]

theorem drain_nop (l : List (Nat × Bool)) :
    ∀ (store : List (Nat × PRec)) (g e tl fr : Nat) (tr : List Nat)
      (fuel : Nat), chainTo store g l e → 2 * l.length + 1 ≤ fuel →
      ∃ store2, drain fuel ⟨store, tl, [(.nop, g)], fr, tr⟩ =
        ⟨store2, tl, [], fr, tr ++ l.map Prod.fst⟩ := by
  induction l with
  | nil =>
    intro store g e tl fr tr fuel hc hf
    obtain ⟨hge, hg⟩ := hc
    cases fuel with
    | zero => omega
    | succ f =>
      refine ⟨naupsert store g ⟨.fulfilled, []⟩, ?_⟩
      rw [drain_succ_cons f _ (.nop, g) [] rfl]
      have hrun : runJob ⟨store, tl, [], fr, tr⟩ (.nop, g) =
          ⟨naupsert store g ⟨.fulfilled, []⟩, tl, [], fr, tr⟩ := by
        simp [runJob, settle, hg]
      rw [hrun, drain_empty f _ rfl]
      simp
  | cons p rest ih =>
    rcases p with ⟨t, b⟩
    intro store g e tl fr tr fuel hc hf
    obtain ⟨r, g2, h1, h2, hg, hr, hrest⟩ := hc
    simp only [List.length_cons] at hf
    cases fuel with
    | zero => omega
    | succ f =>
      rw [drain_succ_cons f _ (.nop, g) [] rfl]
      have hrun1 : runJob ⟨store, tl, [], fr, tr⟩ (.nop, g) =
          ⟨naupsert store g ⟨.fulfilled, []⟩, tl, [(.runTask t b, r)], fr, tr⟩ := by
        simp [runJob, settle, hg]
      rw [hrun1]
      cases f with
      | zero => omega
      | succ f2 =>
        rw [drain_succ_cons f2 _ (.runTask t b, r) [] rfl]
        have hrl : (naupsert store g ⟨.fulfilled, []⟩).lookup r =
            some ⟨.pending, [(.nop, g2)]⟩ := by
          rw [nlookup_naupsert_ne _ _ _ _ (Nat.ne_of_gt h1)]
          exact hr
        have hrun2 : runJob
            ⟨naupsert store g ⟨.fulfilled, []⟩, tl, [], fr, tr⟩
            (.runTask t b, r) =
            ⟨naupsert (naupsert store g ⟨.fulfilled, []⟩) r
              ⟨if b then .rejected else .fulfilled, []⟩,
             tl, [(.nop, g2)], fr, tr ++ [t]⟩ := by
          simp [runJob, settle, hrl]
        rw [hrun2]
        have hchain2 : chainTo
            (naupsert (naupsert store g ⟨.fulfilled, []⟩) r
              ⟨if b then .rejected else .fulfilled, []⟩) g2 rest e := by
          exact chainTo_update_lt _ _ _ g2 e r
            (chainTo_update_lt _ _ _ g2 e g hrest (lt_trans h1 h2)) h2
        obtain ⟨store3, hfin⟩ := ih _ g2 e tl fr (tr ++ [t]) f2 hchain2 (by omega)
        rw [hfin]
        refine ⟨store3, ?_⟩
        simp

theorem chainTo_extend (l : List (Nat × Bool)) :
    ∀ (store : List (Nat × PRec)) (g e F t : Nat) (b : Bool),
    chainTo store g l e → e < F →
    chainTo (naupsert (naupsert (naupsert (naupsert store F ⟨.pending, []⟩)
        e ⟨.pending, [(.runTask t b, F)]⟩) (F + 1) ⟨.pending, []⟩)
        F ⟨.pending, [(.nop, F + 1)]⟩)
      g (l ++ [(t, b)]) (F + 1) := by
  induction l with
  | nil =>
    intro store g e F t b hc hF
    obtain ⟨hge, hg⟩ := hc
    subst hge
    refine ⟨F, F + 1, hF, Nat.lt_succ_self F, ?_, ?_, rfl, ?_⟩
    · rw [nlookup_naupsert_ne _ _ _ _ (Nat.ne_of_lt hF),
        nlookup_naupsert_ne _ _ _ _ (Nat.ne_of_lt (Nat.lt_succ_of_lt hF)),
        nlookup_naupsert_self]
    · rw [nlookup_naupsert_self]
    · rw [nlookup_naupsert_ne _ _ _ _ (Nat.ne_of_gt (Nat.lt_succ_self F)),
        nlookup_naupsert_self]
  | cons p rest ih =>
    rcases p with ⟨t2, b2⟩
    intro store g e F t b hc hF
    obtain ⟨r, g2, h1, h2, hg, hr, hrest⟩ := hc
    have hg2e : g2 ≤ e := chainTo_le store rest g2 e hrest
    have hge : g < e := lt_of_lt_of_le (lt_trans h1 h2) hg2e
    have hre : r < e := lt_of_lt_of_le h2 hg2e
    refine ⟨r, g2, h1, h2, ?_, ?_, ih store g2 e F t b hrest hF⟩
    · rw [nlookup_naupsert_ne _ _ _ _ (Nat.ne_of_lt (lt_trans hge hF)),
        nlookup_naupsert_ne _ _ _ _
          (Nat.ne_of_lt (Nat.lt_succ_of_lt (lt_trans hge hF))),
        nlookup_naupsert_ne _ _ _ _ (Nat.ne_of_lt hge),
        nlookup_naupsert_ne _ _ _ _ (Nat.ne_of_lt (lt_trans hge hF))]
      exact hg
    · rw [nlookup_naupsert_ne _ _ _ _ (Nat.ne_of_lt (lt_trans hre hF)),
        nlookup_naupsert_ne _ _ _ _
          (Nat.ne_of_lt (Nat.lt_succ_of_lt (lt_trans hre hF))),
        nlookup_naupsert_ne _ _ _ _ (Nat.ne_of_lt hre),
        nlookup_naupsert_ne _ _ _ _ (Nat.ne_of_lt (lt_trans hre hF))]
      exact hr

theorem enqueue_pending (st : QState) (t : Nat) (b : Bool)
    (hlast : st.store.lookup st.tail = some ⟨.pending, []⟩)
    (htf : st.tail < st.fresh) :
    enqueue st t b =
      ⟨naupsert (naupsert (naupsert (naupsert st.store st.fresh ⟨.pending, []⟩)
          st.tail ⟨.pending, [(.runTask t b, st.fresh)]⟩)
          (st.fresh + 1) ⟨.pending, []⟩)
          st.fresh ⟨.pending, [(.nop, st.fresh + 1)]⟩,
        st.fresh + 1, st.queue, st.fresh + 2, st.trace⟩ := by
  have h2 : (naupsert (naupsert st.store st.fresh ⟨.pending, []⟩)
      st.tail ⟨.pending, [(.runTask t b, st.fresh)]⟩).lookup st.fresh =
      some ⟨.pending, []⟩ := by
    rw [nlookup_naupsert_ne _ _ _ _ (Nat.ne_of_gt htf), nlookup_naupsert_self]
  simp [enqueue, thenOp, hlast, h2]

theorem qsInv_first (t1 : Nat) (b1 : Bool) :
    qsInv (enqueue initQ t1 b1) t1 b1 [] := by
  refine ⟨rfl, rfl, ⟨rfl, rfl⟩, ?_, rfl⟩
  show (2 : Nat) < 3
  decide

theorem qsInv_enqueue (st : QState) (t1 t : Nat) (b1 b : Bool)
    (done : List (Nat × Bool)) (h : qsInv st t1 b1 done) :
    qsInv (enqueue st t b) t1 b1 (done ++ [(t, b)]) := by
  obtain ⟨hq, h1, hchain, htf, htr⟩ := h
  have h2t : 2 ≤ st.tail := chainTo_le st.store done 2 st.tail hchain
  have hlast : st.store.lookup st.tail = some ⟨.pending, []⟩ :=
    chainTo_last st.store done 2 st.tail hchain
  rw [enqueue_pending st t b hlast htf]
  refine ⟨hq, ?_, ?_, ?_, htr⟩
  · show List.lookup 1 _ = _
    rw [nlookup_naupsert_ne _ _ _ _ (by omega),
      nlookup_naupsert_ne _ _ _ _ (by omega),
      nlookup_naupsert_ne _ _ _ _ (by omega),
      nlookup_naupsert_ne _ _ _ _ (by omega)]
    exact h1
  · exact chainTo_extend done st.store 2 st.tail st.fresh t b hchain htf
  · show st.fresh + 1 < st.fresh + 2
    omega

theorem qsInv_enqueueAll (more : List (Nat × Bool)) :
    ∀ (st : QState) (t1 : Nat) (b1 : Bool) (done : List (Nat × Bool)),
    qsInv st t1 b1 done →
    qsInv (enqueueAll st more) t1 b1 (done ++ more) := by
  induction more with
  | nil =>
    intro st t1 b1 done h
    simpa [enqueueAll] using h
  | cons m rest ih =>
    intro st t1 b1 done h
    have hstep := qsInv_enqueue st t1 m.1 b1 m.2 done h
    have := ih (enqueue st m.1 m.2) t1 b1 (done ++ [(m.1, m.2)]) hstep
    simpa [enqueueAll, List.foldl_cons] using this

/-- **C9.**  For every sequence of enqueued tasks — in whatever order the
concurrent fetches complete, and whether or not any task fails — draining
the microtask queue runs the tasks exactly once each, one at a time, in
exactly their enqueue order: the trace equals the enqueue order, a
rejected task's successors all still run, and the queue empties. -/
theorem C9_serial_queue (ts : List (Nat × Bool)) :
    (drain (2 * ts.length + 1) (enqueueAll initQ ts)).trace = ts.map Prod.fst ∧
    (drain (2 * ts.length + 1) (enqueueAll initQ ts)).queue = [] := by
  cases ts with
  | nil => exact ⟨rfl, rfl⟩
  | cons p rest =>
    rcases p with ⟨t1, b1⟩
    have hinv : qsInv (enqueueAll (enqueue initQ t1 b1) rest) t1 b1 rest := by
      have h0 := qsInv_enqueueAll rest (enqueue initQ t1 b1) t1 b1 []
        (qsInv_first t1 b1)
      simpa using h0
    obtain ⟨hq, h1, hchain, htf, htr⟩ := hinv
    have henq : enqueueAll initQ ((t1, b1) :: rest) =
        enqueueAll (enqueue initQ t1 b1) rest := rfl
    have hfuel : 2 * ((t1, b1) :: rest).length + 1 = (2 * rest.length + 2) + 1 := by
      simp [List.length_cons]
      omega
    rw [henq, hfuel,
      drain_succ_cons (2 * rest.length + 2) _ (.runTask t1 b1, 1) [] hq]
    have hrun : runJob
        { enqueueAll (enqueue initQ t1 b1) rest with queue := [] }
        (.runTask t1 b1, 1) =
        ⟨naupsert (enqueueAll (enqueue initQ t1 b1) rest).store 1
          ⟨if b1 then .rejected else .fulfilled, []⟩,
         (enqueueAll (enqueue initQ t1 b1) rest).tail, [(.nop, 2)],
         (enqueueAll (enqueue initQ t1 b1) rest).fresh,
         (enqueueAll (enqueue initQ t1 b1) rest).trace ++ [t1]⟩ := by
      simp [runJob, settle, h1]
    rw [hrun]
    have hchain2 : chainTo
        (naupsert (enqueueAll (enqueue initQ t1 b1) rest).store 1
          ⟨if b1 then .rejected else .fulfilled, []⟩) 2 rest
        (enqueueAll (enqueue initQ t1 b1) rest).tail :=
      chainTo_update_lt _ rest _ 2 _ 1 hchain (by omega)
    obtain ⟨store3, hfin⟩ := drain_nop rest _ 2
      (enqueueAll (enqueue initQ t1 b1) rest).tail
      (enqueueAll (enqueue initQ t1 b1) rest).tail
      (enqueueAll (enqueue initQ t1 b1) rest).fresh
      ((enqueueAll (enqueue initQ t1 b1) rest).trace ++ [t1])
      (2 * rest.length + 2) hchain2 (by omega)
    rw [hfin]
    constructor
    · show ((enqueueAll (enqueue initQ t1 b1) rest).trace ++ [t1]) ++
        rest.map Prod.fst = _
      rw [htr]
      simp
    · rfl

theorem C9_witness :
    (drain 7 (enqueueAll initQ [(1, false), (2, true), (3, false)])).trace =
      [1, 2, 3] ∧
    (drain 7 (enqueueAll initQ [(1, false), (2, true), (3, false)])).queue = [] :=
  C9_serial_queue [(1, false), (2, true), (3, false)]
end Juportal
